import Mathlib

/-! A verification development for `proxy.c`.

A shallow embedding of the request pipeline of the caching HTTP proxy
(`src/proxy.c`): the URI parser `parse_uri`, the header rewriter
`read_requesthdrs`, the upstream request builder `request_gen`, the error
responder `clienterror` and the per-connection routine `serve`.

C strings are embedded as `List Char`: the list holds the bytes that precede
the terminating NUL.  Buffers that are filled by length-counted copies and may
contain NUL bytes are embedded as `List Char` as well, and are turned into the
C string they denote by `cstr`.

The tee loop of `serve` is embedded with the list of its calls of `memcpy`.
The cache engine (`cache.h`, `cache.c`) is not part of the sources: `serve`
records its calls of the cache as events, and the engine itself is modelled
from section 4.D of the specification.
-/

namespace Proxy

/-! ## Constants -/

/-- Modelled from the spec: `MAXLINE` is defined in `csapp.h`, which is not part
of the sources at hand; the spec recommends a per-line buffer of 8192 bytes. -/
def MAXLINE : Nat := 8192

/-- Modelled from the spec: `MAXBUF` is defined in `csapp.h`, which is not part
of the sources at hand; it has the size of the per-line buffer. -/
def MAXBUF : Nat := 8192

/-- `#define MAX_CACHE_SIZE 1049000` -/
def MAX_CACHE_SIZE : Nat := 1049000

/-- `#define MAX_OBJECT_SIZE 102400` -/
def MAX_OBJECT_SIZE : Nat := 102400

/-- `#define HOSTLEN 256` (only used for the `client_info` record). -/
def HOSTLEN : Nat := 256

/-- `#define PORTLEN 8` -/
def PORTLEN : Nat := 8

/-- The constant `header_user_agent`. -/
def header_user_agent : List Char :=
  "Mozilla/5.0 (X11; Linux x86_64; rv:10.0.3) Gecko/20120305 Firefox/10.0.3".toList

/-! ## The C library functions used by the proxy -/

/-- The C string held by a buffer: the bytes before the first NUL. -/
def cstr : List Char → List Char
  | [] => []
  | c :: cs => if c = '\x00' then [] else c :: cstr cs

/-- `strstr(hay, needle)`: the offset of the first occurrence of `needle` in
`hay`, or `none` for a NULL result. -/
def strstr : List Char → List Char → Option Nat
  | [], needle => if needle.isPrefixOf [] then some 0 else none
  | c :: cs, needle =>
    if needle.isPrefixOf (c :: cs) then some 0
    else (strstr cs needle).map (· + 1)

/-- `strchr(s, c)` for a character `c` other than NUL: the offset of the first
`c` in `s`, or `none` for a NULL result. -/
def strchr : List Char → Char → Option Nat
  | [], _ => none
  | d :: ds, c => if d = c then some 0 else (strchr ds c).map (· + 1)

/-- `strncmp(a, b, n)`: compares at most `n` bytes, the terminating NUL
included; the result is the difference of the first pair of bytes that differ. -/
def strncmp : List Char → List Char → Nat → Int
  | _, _, 0 => 0
  | [], [], _ + 1 => 0
  | [], b :: _, _ + 1 => - (b.toNat : Int)
  | a :: _, [], _ + 1 => (a.toNat : Int)
  | a :: as, b :: bs, n + 1 =>
    if a = b then strncmp as bs n else (a.toNat : Int) - (b.toNat : Int)

/-- `snprintf(dst, size, ...)` once the format has been expanded to `s`: the
return value is the length of `s`, and `dst` receives the C string made of the
first `size - 1` bytes of `s`. -/
def snprintf (size : Nat) (s : List Char) : Nat × List Char :=
  (s.length, s.take (size - 1))

/-! ## 4.B URI parser -/

/-- The port part of `parse_uri` (lines 65-77), run on the `host` buffer that
the first part has filled. `none` stands for the return value `-1`,
`some (host, port, path)` for the return value `0` with the three out-buffers. -/
def parse_port (host path : List Char) :
    Option (List Char × List Char × List Char) :=
  match strchr host ':' with
  | some pos =>
    let r := snprintf PORTLEN (host.drop (pos + 1))
    if r.1 ≥ PORTLEN then none
    else some (host.take pos, r.2, path)
  | none => some (host, (snprintf MAXLINE "80".toList).2, path)

/-- `parse_uri(uri, host, port, path)`. `none` stands for the return value
`-1`, `some (host, port, path)` for the return value `0` together with the
contents of the three out-buffers. -/
def parse_uri (uri : List Char) : Option (List Char × List Char × List Char) :=
  match strstr uri "://".toList with
  | none => none
  | some pos =>
    if strncmp (uri.take pos) "http".toList 5 ≠ 0 then none
    else
      let uri := uri.drop (pos + 3)
      match strchr uri '/' with
      | none =>
        let h := snprintf MAXLINE uri
        if h.1 ≥ MAXLINE then none
        else parse_port h.2 (snprintf MAXLINE "/".toList).2
      | some p =>
        let h := snprintf MAXLINE (uri.take p)
        if h.1 ≥ MAXLINE then none
        else
          let q := snprintf MAXLINE ('/' :: uri.drop (p + 1))
          if q.1 ≥ MAXLINE then none
          else parse_port h.2 q.2

/-- The fingerprint built by `serve` (line 257):
`snprintf(req, MAXLINE, "%s:%s%s", host, port, path)`. -/
def fingerprint (host port path : List Char) : List Char :=
  (snprintf MAXLINE (host ++ ':' :: port ++ path)).2

/-! ## 4.A Line-buffered stream reader -/

/-- A read stream (`rio_t`): the bytes the peer still delivers, and whether the
stream ends with an I/O error (`fails = true`) or an orderly end-of-stream. -/
structure rio_t where
  data : List Char
  fails : Bool
deriving DecidableEq, Repr

/-- The result of `rio_readlineb`: the return value, the bytes stored in the
user buffer (a NUL follows them there), and the stream afterwards. -/
structure ReadResult where
  ret : Int
  buf : List Char
  rio : rio_t
deriving DecidableEq, Repr

/-- Takes bytes up to and including the first newline, at most `n` of them;
returns them with the bytes left over. -/
def rio_scan : Nat → List Char → List Char × List Char
  | 0, s => ([], s)
  | _ + 1, [] => ([], [])
  | n + 1, c :: cs =>
    if c = '\n' then ([c], cs)
    else ((c :: (rio_scan n cs).1), (rio_scan n cs).2)

/-- Modelled from the spec: `rio_readlineb` lives in `csapp.c`, which is not
part of the sources at hand. Section 4.A: `read_line(max)` returns up to `max`
bytes terminated by a newline (inclusive) or end-of-stream; it returns the byte
count, zero for an orderly end-of-stream and a negative value for an I/O
failure. One of the `max` bytes of the user buffer is the NUL that the callers'
string functions rely on, so at most `max - 1` bytes of the stream are taken. -/
def rio_readlineb (rp : rio_t) (maxlen : Nat) : ReadResult :=
  let r := rio_scan (maxlen - 1) rp.data
  if r.1.getLast? ≠ some '\n' ∧ r.1.length < maxlen - 1 then
    -- the stream ended inside the line
    if rp.fails then ⟨-1, r.1, ⟨[], true⟩⟩
    else ⟨(r.1.length : Int), r.1, ⟨[], false⟩⟩
  else ⟨(r.1.length : Int), r.1, ⟨r.2, rp.fails⟩⟩

/-- `memcpy(dst + off, src, src.length)` on a buffer `dst`. -/
def memcpy (dst : List Char) (off : Nat) (src : List Char) : List Char :=
  dst.take off ++ src ++ dst.drop (off + src.length)

/-! ## 4.C Header rewriter -/

/-- The result of `read_requesthdrs`: the return value (`true` reports an
error), the `header` buffer, the final value of the local `total`, and the
stream afterwards. -/
structure HdrResult where
  ret : Bool
  header : List Char
  total : Nat
  rio : rio_t
deriving DecidableEq, Repr

/-- The test of lines 135-138 on the C string in `buf`. -/
def header_overlap (s : List Char) : Bool :=
  (strstr s "Connection:".toList).isSome
    || (strstr s "Proxy-Connection:".toList).isSome
    || (strstr s "User-Agent:".toList).isSome
    || (strstr s "Host:".toList).isSome

/-- The `do ... while` loop of `read_requesthdrs` (lines 125-145). Every
iteration that goes on has taken at least one byte from the stream; the first
argument bounds the number of iterations. -/
def read_requesthdrs_loop : Nat → rio_t → List Char → Nat → HdrResult
  | 0, rp, header, total => ⟨true, header, total, rp⟩
  | fuel + 1, rp, header, total =>
    let r := rio_readlineb rp MAXLINE
    if r.ret ≤ 0 then ⟨true, header, total, r.rio⟩
    else
      let line_len := r.ret.toNat
      if total + line_len ≥ MAXLINE then ⟨false, header, total, r.rio⟩
      else if header_overlap (cstr r.buf) then
        -- `continue` jumps to the loop condition
        if strncmp (cstr r.buf) "\r\n".toList 3 ≠ 0 then
          read_requesthdrs_loop fuel r.rio header total
        else ⟨false, header, total, r.rio⟩
      else
        if strncmp (cstr r.buf) "\r\n".toList 3 ≠ 0 then
          read_requesthdrs_loop fuel r.rio
            (memcpy header total (r.buf.take line_len)) (total + line_len)
        else
          ⟨false, memcpy header total (r.buf.take line_len), total + line_len, r.rio⟩

/-- `read_requesthdrs(rp, header)`; `header` is the content of the out-buffer
before the call. -/
def read_requesthdrs (rp : rio_t) (header : List Char) : HdrResult :=
  read_requesthdrs_loop (rp.data.length + 1) rp header 0

/-! ## Upstream request builder -/

/-- The result of `request_gen`: the return value and the `request` buffer. -/
structure GenResult where
  ret : Int
  request : List Char
deriving DecidableEq, Repr

/-- The format of `request_gen` expanded with its arguments. -/
def request_text (host path header : List Char) : List Char :=
  "GET ".toList ++ path ++ " HTTP/1.0\r\n".toList
    ++ "Host: ".toList ++ host ++ "\r\n".toList
    ++ "Connection: close\r\n".toList
    ++ "Proxy-Connection: close\r\n".toList
    ++ "User-Agent: ".toList ++ header_user_agent ++ "\r\n".toList
    ++ header

/-- `request_gen(request, limit, host, path, header)`. -/
def request_gen (limit : Nat) (host path header : List Char) : GenResult :=
  let r := snprintf limit (request_text host path header)
  ⟨if r.1 ≥ limit then -1 else 0, r.2⟩

/-! ## 4.E Request pipeline and 4.G error responder -/

/-- What `serve` does to the outside world, in order: writes to the client,
the calls into the cache, the connection to the origin and the release of its
own resources. A write event records the call, whether or not it succeeds. -/
inductive Event where
  | client_write (bytes : List Char)
  | read_cache_begin (req : List Char)
  | read_cache_end (req : List Char)
  | open_clientfd (host port : List Char)
  | server_write (bytes : List Char)
  | write_cache (req res : List Char) (res_len : Nat)
  | free_res_buf
  | close_server
deriving DecidableEq, Repr

/-- What the outside world answers to `serve`: the content the `header` buffer
happens to hold before it is written, the answer of `read_cache_begin`
(`none` for a miss), the answer of `open_clientfd` (`none` for a failure, else
the stream of the origin), whether the write to the origin succeeds, whether
the `k`-th write to the client succeeds, the block returned by
`malloc(MAX_OBJECT_SIZE)` (`none` for NULL) and whether the `malloc` of
`save_cache` succeeds. -/
structure Env where
  header : List Char
  read_cache_begin : List Char → Option (List Char)
  open_clientfd : List Char → List Char → Option rio_t
  server_write_ok : Bool
  client_write_ok : Nat → Bool
  malloc_res_buf : Option (List Char)
  malloc_heap_req : Bool

/-- The body format of `clienterror` expanded with its arguments. -/
def error_body (cause errnum shortmsg longmsg : List Char) : List Char :=
  "<!DOCTYPE html>\r\n".toList
    ++ "<html>\r\n".toList
    ++ "<head><title>Tiny Error</title></head>\r\n".toList
    ++ "<body bgcolor=\"ffffff\">\r\n".toList
    ++ "<h1>".toList ++ errnum ++ ": ".toList ++ shortmsg ++ "</h1>\r\n".toList
    ++ "<p>".toList ++ longmsg ++ ": ".toList ++ cause ++ "</p>\r\n".toList
    ++ "<hr /><em>The Proxy Server</em>\r\n".toList
    ++ "</body></html>\r\n".toList

/-- The header format of `clienterror` expanded with its arguments. -/
def error_headers (errnum shortmsg : List Char) (bodylen : Nat) : List Char :=
  "HTTP/1.0 ".toList ++ errnum ++ " ".toList ++ shortmsg ++ "\r\n".toList
    ++ "Content-Type: text/html\r\n".toList
    ++ "Content-Length: ".toList ++ (Nat.repr bodylen).toList ++ "\r\n\r\n".toList

/-- `clienterror(fd, cause, errnum, shortmsg, longmsg)`; `wok k` tells whether
the `k`-th write to the client succeeds. -/
def clienterror (wok : Nat → Bool) (cause errnum shortmsg longmsg : List Char) :
    List Event :=
  let body := snprintf MAXBUF (error_body cause errnum shortmsg longmsg)
  if body.1 ≥ MAXBUF then []
  else
    let buf := snprintf MAXLINE (error_headers errnum shortmsg body.1)
    if buf.1 ≥ MAXLINE then []
    else if wok 0 then
      [Event.client_write (buf.2.take buf.1), Event.client_write (body.2.take body.1)]
    else [Event.client_write (buf.2.take buf.1)]

/-- `isspace` in the C locale. -/
def isspace (c : Char) : Bool :=
  c = ' ' || c = '\t' || c = '\n' || c = '\x0b' || c = '\x0c' || c = '\r'

/-- The result of the `sscanf` of the request line: the return value and the
three receivers. A receiver that was not assigned holds a placeholder; `serve`
reads the receivers only after a return value of 3. -/
structure ScanResult where
  ret : Int
  method : List Char
  uri : List Char
  version : Char
deriving DecidableEq, Repr

/-- `sscanf(buf, "%s %s HTTP/1.%c", method, uri, &version)` on the C string
`buf`. `%s` skips white space and takes the longest run of other bytes, a blank
in the format skips white space, the literal bytes must match one by one and
`%c` takes the next byte. The return value is the number of receivers assigned,
or `-1` (EOF) when the input ends before the first conversion. -/
def sscanf_request (buf : List Char) : ScanResult :=
  let s := buf.dropWhile isspace
  if s = [] then ⟨-1, [], [], ' '⟩
  else
    let method := s.takeWhile (fun c => !isspace c)
    let s := ((s.dropWhile (fun c => !isspace c)).dropWhile isspace)
    if s = [] then ⟨1, method, [], ' '⟩
    else
      let uri := s.takeWhile (fun c => !isspace c)
      let s := ((s.dropWhile (fun c => !isspace c)).dropWhile isspace)
      if "HTTP/1.".toList.isPrefixOf s then
        match s.drop 7 with
        | [] => ⟨2, method, uri, ' '⟩
        | c :: _ => ⟨3, method, uri, c⟩
      else ⟨2, method, uri, ' '⟩

/-- `save_cache(req, res, res_len)`: the return value and the events. -/
def save_cache (env : Env) (req res : List Char) (res_len : Nat) :
    Bool × List Event :=
  if env.malloc_heap_req then (true, [Event.write_cache (cstr req) res res_len])
  else (false, [])

/-- The end of `serve` after the tee loop (lines 327-337). -/
def serve_finish (env : Env) (req : List Char) (malloc_success : Bool)
    (res_buf : List Char) (res_len : Nat) : List Event :=
  Event.close_server ::
    (if malloc_success ∧ res_len < MAX_OBJECT_SIZE then
      let r := save_cache env req res_buf res_len
      if r.1 then r.2 else r.2 ++ [Event.free_res_buf]
    else [Event.free_res_buf])

/-- The tee loop of `serve` (lines 310-325) followed by the end of `serve`: the
events, and the calls of `memcpy` on the scratch, each with its offset
`res_len` and the bytes copied. `k` counts the writes to the client so far.
Every iteration takes at least one byte from the origin; the first argument
bounds the number of iterations. -/
def serve_tee_run (env : Env) (req : List Char) (malloc_success : Bool) :
    Nat → rio_t → Nat → List Char → Nat → List Event × List (Nat × List Char)
  | 0, _, _, _, _ => ([], [])
  | fuel + 1, rio_server, k, res_buf, res_len =>
    let r := rio_readlineb rio_server MAXLINE
    if r.ret > 0 then
      let line_len := r.ret.toNat
      if env.client_write_ok k then
        if malloc_success ∧ res_len + line_len < MAX_OBJECT_SIZE then
          let t := serve_tee_run env req malloc_success fuel r.rio (k + 1)
            (memcpy res_buf res_len (r.buf.take line_len)) (res_len + line_len)
          (Event.client_write (r.buf.take line_len) :: t.1,
            (res_len, r.buf.take line_len) :: t.2)
        else
          let t := serve_tee_run env req malloc_success fuel r.rio (k + 1) res_buf
            (res_len + line_len)
          (Event.client_write (r.buf.take line_len) :: t.1, t.2)
      else
        ([Event.client_write (r.buf.take line_len), Event.free_res_buf, Event.close_server],
          [])
    else (serve_finish env req malloc_success res_buf res_len, [])

/-- The events of the tee loop and of the end of `serve`. -/
def serve_tee (env : Env) (req : List Char) (malloc_success : Bool) (fuel : Nat)
    (rio_server : rio_t) (k : Nat) (res_buf : List Char) (res_len : Nat) : List Event :=
  (serve_tee_run env req malloc_success fuel rio_server k res_buf res_len).1

/-- The cache-miss branch of `serve` (lines 268-337); `buf` and `method` are
the C strings of the request line and of its method. -/
def serve_miss (env : Env) (buf method host port path header req : List Char) :
    List Event :=
  Event.read_cache_end req ::
    (let g := request_gen MAXLINE host path (cstr header)
    if g.ret < 0 then
      clienterror env.client_write_ok buf "500".toList
        "Internal Server Error".toList "Proxy cannot generate new request".toList
    else
      Event.open_clientfd host port ::
        (match env.open_clientfd host port with
        | none =>
          clienterror env.client_write_ok method "503".toList
            "Service Unavailable".toList "Proxy cannot connect to the server".toList
        | some rio_server =>
          Event.server_write (cstr g.request) ::
            (if env.server_write_ok then
              serve_tee env req env.malloc_res_buf.isSome
                (rio_server.data.length + 1) rio_server 0
                (env.malloc_res_buf.getD []) 0
            else
              clienterror env.client_write_ok method "503".toList
                "Service Unavailable".toList
                "Proxy cannot send request to the server".toList
                ++ [Event.close_server])))

/-- The part of `serve` that follows the check of the request line (lines
231-266), with the cache-miss branch. -/
def serve_request (env : Env) (buf method uri : List Char) (rio_client : rio_t) :
    List Event :=
  if strncmp method "GET".toList 4 ≠ 0 then
    clienterror env.client_write_ok method "501".toList "Not Implemented".toList
      "Proxy does not implement this method".toList
  else
    match parse_uri uri with
    | none =>
      clienterror env.client_write_ok method "400".toList "Bad Request".toList
        "Proxy received a malformed request".toList
    | some (host, port, path) =>
      let h := read_requesthdrs rio_client env.header
      if h.ret then
        clienterror env.client_write_ok buf "400".toList "Bad Request".toList
          "Proxy received a malformed request".toList
      else
        let req := fingerprint host port path
        Event.read_cache_begin req ::
          (match env.read_cache_begin req with
          | some res => [Event.client_write res, Event.read_cache_end req]
          | none => serve_miss env buf method host port path h.header req)

/-- `serve(client)`: the events of one connection whose client stream is
`rio_client`. -/
def serve (env : Env) (rio_client : rio_t) : List Event :=
  let r := rio_readlineb rio_client MAXLINE
  if r.ret ≤ 0 then []
  else
    let buf := cstr r.buf
    let sc := sscanf_request buf
    if sc.ret ≠ 3 ∨ (sc.version ≠ '0' ∧ sc.version ≠ '1') then
      clienterror env.client_write_ok buf "400".toList "Bad Request".toList
        "Proxy received a malformed request".toList
    else serve_request env buf sc.method sc.uri r.rio

/-! ## The grammar of the request line, for the statements -/

/-- A token of the request line: a non-empty run of bytes other than white
space and NUL. -/
def token (t : List Char) : Prop :=
  t ≠ [] ∧ ∀ c ∈ t, isspace c = false ∧ c ≠ '\x00'

instance (t : List Char) : Decidable (token t) := by
  unfold token
  infer_instance

/-- The request line `METHOD SP URI SP HTTP/1.X CRLF`. -/
def request_line (method uri : List Char) (X : Char) : List Char :=
  method ++ ' ' :: (uri ++ ' ' :: ("HTTP/1.".toList ++ X :: "\r\n".toList))

/-- What the scan of the request line accepts: optional white space, the
method, white space, the URI, white space, `HTTP/1.`, a version digit 0 or 1,
and then any bytes. -/
def lax_request_line (s : List Char) : Prop :=
  ∃ ws0 m ws1 u ws2 X tail,
    (∀ c ∈ ws0, isspace c = true)
    ∧ m ≠ [] ∧ (∀ c ∈ m, isspace c = false)
    ∧ ws1 ≠ [] ∧ (∀ c ∈ ws1, isspace c = true)
    ∧ u ≠ [] ∧ (∀ c ∈ u, isspace c = false)
    ∧ ws2 ≠ [] ∧ (∀ c ∈ ws2, isspace c = true)
    ∧ (X = '0' ∨ X = '1')
    ∧ s = ws0 ++ (m ++ (ws1 ++ (u ++ (ws2 ++ ("HTTP/1.".toList ++ X :: tail)))))

/-- The lines of a text, each with its newline; a last line without newline is
kept as it is. -/
def split_lines : List Char → List (List Char)
  | [] => []
  | c :: cs =>
    if c = '\n' then [c] :: split_lines cs
    else
      match split_lines cs with
      | [] => [[c]]
      | l :: ls => (c :: l) :: ls

/-! ## Header blocks, for the statements -/

/-- What `rio_readlineb(rp, buf, MAXLINE)` returns before the end of a stream:
bytes that end with the only newline among them and fit the buffer, or
`MAXLINE - 1` bytes without a newline. -/
def is_line (l : List Char) : Prop :=
  (l.getLast? = some '\n' ∧ '\n' ∉ l.dropLast ∧ l.length < MAXLINE)
    ∨ ('\n' ∉ l ∧ l.length + 1 = MAXLINE)

instance (l : List Char) : Decidable (is_line l) := by
  unfold is_line
  infer_instance

/-- The C string of the line contains one of the four field names somewhere. -/
def hop_header (l : List Char) : Prop :=
  "Connection:".toList <:+: cstr l ∨ "Proxy-Connection:".toList <:+: cstr l
    ∨ "User-Agent:".toList <:+: cstr l ∨ "Host:".toList <:+: cstr l

instance (l : List Char) : Decidable (hop_header l) := by
  unfold hop_header
  infer_instance

/-- The lines that `read_requesthdrs` copies: those that are not dropped. -/
def kept_lines (ls : List (List Char)) : List (List Char) :=
  ls.filter (fun l => decide (¬ hop_header l))

/-- No line of `ls` trips the overflow check of line 130 when the running
total starts at `total`. -/
def hdr_fits : Nat → List (List Char) → Prop
  | _, [] => True
  | total, l :: ls =>
    total + l.length < MAXLINE
      ∧ hdr_fits (if hop_header l then total else total + l.length) ls

instance hdr_fits_decidable : (total : Nat) → (ls : List (List Char)) →
    Decidable (hdr_fits total ls)
  | _, [] => isTrue trivial
  | total, l :: ls =>
    have := hdr_fits_decidable (if hop_header l then total else total + l.length) ls
    (inferInstance : Decidable (_ ∧ _))

/-! ## Sample environments -/

/-- An environment with a zeroed `header` buffer, an empty cache, no reachable
origin and no failing write or allocation. -/
def Env.offline : Env :=
  ⟨List.replicate MAXLINE '\x00', fun _ => none, fun _ _ => none, true,
    fun _ => true, some (List.replicate MAX_OBJECT_SIZE '\x00'), true⟩

/-- An environment with a zeroed `header` buffer, an empty cache, an origin
that answers every request with a short response, and no failing write or
allocation. -/
def Env.origin : Env :=
  ⟨List.replicate MAXLINE '\x00', fun _ => none,
    fun _ _ => some ⟨"HTTP/1.0 200 OK\r\n\r\nhi".toList, false⟩, true,
    fun _ => true, some (List.replicate MAX_OBJECT_SIZE '\x00'), true⟩

/-- The calls that open or close a read session of the cache. -/
def is_cache_read : Event → Bool
  | Event.read_cache_begin _ => true
  | Event.read_cache_end _ => true
  | _ => false

/-! ## The tee loop, for the statements -/

/-- The lines read from the origin: the results of `rio_readlineb` until it
returns 0 or an error. The first argument bounds the number of reads. -/
def read_lines : Nat → rio_t → List (List Char)
  | 0, _ => []
  | fuel + 1, rio =>
    if (rio_readlineb rio MAXLINE).ret > 0 then
      (rio_readlineb rio MAXLINE).buf.take (rio_readlineb rio MAXLINE).ret.toNat
        :: read_lines fuel (rio_readlineb rio MAXLINE).rio
    else []

/-- The lines read from the origin up to the end of its stream. -/
def origin_lines (rio : rio_t) : List (List Char) :=
  read_lines (rio.data.length + 1) rio

/-- What one iteration of the tee loop does to the scratch and to `res_len`
(lines 320-324). -/
def tee_step (malloc_success : Bool) (st : List Char × Nat) (line : List Char) :
    List Char × Nat :=
  (if malloc_success ∧ st.2 + line.length < MAX_OBJECT_SIZE then memcpy st.1 st.2 line
   else st.1, st.2 + line.length)

/-- The scratch and `res_len` after the tee loop has handled `lines`. -/
def tee_scratch (malloc_success : Bool) (res_buf : List Char) (res_len : Nat)
    (lines : List (List Char)) : List Char × Nat :=
  lines.foldl (tee_step malloc_success) (res_buf, res_len)

/-- The calls of `memcpy` that the tee loop makes for `lines` (line 322), each
with its offset in the scratch and the bytes it copies. -/
def tee_copies (malloc_success : Bool) : Nat → List (List Char) → List (Nat × List Char)
  | _, [] => []
  | res_len, line :: lines =>
    if malloc_success ∧ res_len + line.length < MAX_OBJECT_SIZE then
      (res_len, line) :: tee_copies malloc_success (res_len + line.length) lines
    else tee_copies malloc_success (res_len + line.length) lines

/-- The bytes written to the client, in order. -/
def client_bytes : List Event → List Char
  | [] => []
  | Event.client_write bytes :: t => bytes ++ client_bytes t
  | _ :: t => client_bytes t

/-- An environment with a zeroed `header` buffer, an empty cache, an origin
whose response is `data`, and no failing write or allocation. -/
def Env.serving (data : List Char) : Env :=
  ⟨List.replicate MAXLINE '\x00', fun _ => none, fun _ _ => some ⟨data, false⟩, true,
    fun _ => true, some (List.replicate MAX_OBJECT_SIZE '\x00'), true⟩


/-! ## 4.D Cache engine -/

/-- Modelled from the spec: the cache engine (`cache.h`, `cache.c`) is not part
of the sources; only its calls in `proxy.c` are. A cache entry: the
fingerprint, the response bytes and their length, and the active-reader count.
`id` stands for the address of the entry object, which a bytes view points
into. The position in the recency order is the position in `Cache.resident`. -/
structure Entry where
  id : Nat
  fp : List Char
  bytes : List Char
  len : Nat
  readers : Nat
deriving DecidableEq, Repr

/-- Modelled from the spec: the cache. `resident` holds the entries of the
mapping in recency order, most recently used first; `orphaned` holds the
entries evicted while pinned, which are alive but invisible to lookups and not
counted in `used_bytes`. An entry in neither list has been freed. -/
structure Cache where
  max_bytes : Nat
  resident : List Entry
  orphaned : List Entry
  used_bytes : Nat
  next_id : Nat
deriving DecidableEq, Repr

/-- Modelled from the spec: the borrowed view `(bytes_view, len)` that
`read_begin` returns on a hit; `id` is the entry the view points into. -/
structure View where
  id : Nat
  bytes : List Char
  len : Nat
deriving DecidableEq, Repr

/-- Modelled from the spec: `init(max_bytes)`. -/
def Cache.init (max_bytes : Nat) : Cache := ⟨max_bytes, [], [], 0, 0⟩

/-- The entries whose memory has not been released. -/
def Cache.alive (c : Cache) : List Entry := c.resident ++ c.orphaned

/-- Modelled from the spec: `read_begin(fp)`, one critical section: look up the
fingerprint and, on a hit, increment the reader count of the entry and splice
it to the MRU end. `none` is a MISS, which pins nothing. -/
def Cache.read_begin (c : Cache) (fp : List Char) : Cache × Option View :=
  match c.resident.find? (fun e => e.fp = fp) with
  | none => (c, none)
  | some e =>
    ({ c with resident := { e with readers := e.readers + 1 } :: c.resident.erase e },
      some ⟨e.id, e.bytes, e.len⟩)

/-- The decrement of the reader count of the entry `id`. -/
def Entry.unpin (id : Nat) (e : Entry) : Entry :=
  if e.id = id then { e with readers := e.readers - 1 } else e

/-- Modelled from the spec: the entry `id` is unpinned: its reader count is
decremented and, if the entry was evicted while being read and the count
reaches zero, it is released. -/
def Cache.unpin (c : Cache) (id : Nat) : Cache :=
  { c with
    resident := c.resident.map (Entry.unpin id),
    orphaned := (c.orphaned.map (Entry.unpin id)).filter
      (fun e => !(e.id = id ∧ e.readers = 0)) }

/-- Modelled from the spec: the entry that `read_end(fp)` unpins. The call
carries the fingerprint only: the entry is the one the mapping holds under
this fingerprint or, when there is none, an orphaned entry with this
fingerprint. -/
def Cache.find_pinned (c : Cache) (fp : List Char) : Option Entry :=
  match c.resident.find? (fun e => e.fp = fp) with
  | some e => some e
  | none => c.orphaned.find? (fun e => e.fp = fp)

/-- Modelled from the spec: `read_end(fp)`, one critical section: decrement the
reader count of the entry with this fingerprint and release the entry if it was
evicted and the count reaches zero; nothing happens when no entry with this
fingerprint is alive. -/
def Cache.read_end (c : Cache) (fp : List Char) : Cache :=
  match c.find_pinned fp with
  | none => c
  | some e => c.unpin e.id

/-- Modelled from the spec: the eviction of the entry at the LRU tail: it
leaves the mapping and the recency order and `used_bytes` drops by its size;
with a reader count above zero it stays alive, orphaned, otherwise it is
freed. -/
def Cache.evict_tail (c : Cache) : Cache :=
  match c.resident.getLast? with
  | none => c
  | some e =>
    { c with
      resident := c.resident.dropLast,
      orphaned := if e.readers > 0 then e :: c.orphaned else c.orphaned,
      used_bytes := c.used_bytes - e.len }

/-- Modelled from the spec: evict from the LRU tail until
`used_bytes + len ≤ max_bytes`; the first argument bounds the number of
evictions by the number of resident entries. -/
def Cache.evict_until : Nat → Cache → Nat → Cache
  | 0, c, _ => c
  | fuel + 1, c, len =>
    if c.used_bytes + len ≤ c.max_bytes then c
    else Cache.evict_until fuel c.evict_tail len

/-- Modelled from the spec: `write(fp, bytes, len)`, one critical section: a
no-op if an entry with this fingerprint exists; otherwise evict until the
budget fits and insert the new entry at the MRU end; if `max_bytes < len`
everything is evicted and the insert is refused. -/
def Cache.write (c : Cache) (fp bytes : List Char) (len : Nat) : Cache :=
  if c.resident.any (fun e => e.fp = fp) then c
  else
    let c1 := Cache.evict_until c.resident.length c len
    if c1.used_bytes + len ≤ c1.max_bytes then
      { c1 with
        resident := ⟨c1.next_id, fp, bytes, len, 0⟩ :: c1.resident,
        used_bytes := c1.used_bytes + len,
        next_id := c1.next_id + 1 }
    else c1

/-- The view `(id, bytes)` is valid: the entry it points into is alive and
holds these bytes. -/
def Cache.holds (c : Cache) (id : Nat) (bytes : List Char) : Prop :=
  ∃ e ∈ c.alive, e.id = id ∧ e.bytes = bytes

instance (c : Cache) (id : Nat) (bytes : List Char) : Decidable (c.holds id bytes) := by
  unfold Cache.holds
  infer_instance

/-- The entry `id` is alive and pinned, and holds `bytes` under the
fingerprint `fp`. -/
def Cache.pins (c : Cache) (id : Nat) (bytes fp : List Char) : Prop :=
  ∃ e ∈ c.alive, e.id = id ∧ e.bytes = bytes ∧ e.fp = fp ∧ 0 < e.readers

/-- The entries have distinct addresses, all below the next address. -/
structure Cache.wf (c : Cache) : Prop where
  ids_lt : ∀ i ∈ c.alive.map Entry.id, i < c.next_id
  nodup : (c.alive.map Entry.id).Nodup

/-- A call of the cache by the worker `w`, a thread that runs `serve`:
`read_cache_begin(req)`, `read_cache_end(req)` or `write_cache(req, res, len)`.
The calls carry the key and, for a write, the bytes; nothing else. -/
inductive Op where
  | read_begin (w : Nat) (fp : List Char)
  | read_end (w : Nat) (fp : List Char)
  | write (w : Nat) (fp bytes : List Char) (len : Nat)
deriving DecidableEq, Repr

/-- The worker that makes the call. -/
def Op.worker : Op → Nat
  | Op.read_begin w _ => w
  | Op.read_end w _ => w
  | Op.write w _ _ _ => w

/-- The calls of one run of `serve`, in their order: `read_cache_begin(req)`
(line 258); `read_cache_end(req)`, at line 264 after a hit and at line 269
after a miss; and, after a miss, at most one `write_cache` with the same key
(line 91). A run that has not finished has made a first part of them. -/
def worker_follows_serve : List Op → Bool
  | [] => true
  | [Op.read_begin _ _] => true
  | [Op.read_begin _ fp, Op.read_end _ fp2] => fp = fp2
  | [Op.read_begin _ fp, Op.read_end _ fp2, Op.write _ fp3 _ _] => fp = fp2 ∧ fp2 = fp3
  | _ => false

/-- Every worker of the interleaving makes the calls of one run of `serve`. -/
def follows_serve (ops : List Op) : Bool :=
  ops.all (fun op => worker_follows_serve (ops.filter (fun o => o.worker = op.worker)))

/-- What a worker holds between its `read_cache_begin` and its
`read_cache_end`: the result of the lookup. The cache does not see it. -/
structure Session where
  worker : Nat
  view : Option View
deriving DecidableEq, Repr

/-- The cache, and the results that the workers with an open read session
hold. -/
structure System where
  cache : Cache
  sessions : List Session
deriving DecidableEq, Repr

/-- The workers before any call, on an empty cache. -/
def System.init (max_bytes : Nat) : System := ⟨Cache.init max_bytes, []⟩

/-- One call of the cache. The calls are critical sections under the global
mutex, so an interleaving of workers is a sequence of calls. The cache gets
what the call carries; the worker keeps the result of its `read_begin` until
its `read_end`. -/
def System.step (s : System) : Op → System
  | Op.read_begin w fp =>
    ⟨(s.cache.read_begin fp).1, ⟨w, (s.cache.read_begin fp).2⟩ :: s.sessions⟩
  | Op.read_end w fp => ⟨s.cache.read_end fp, s.sessions.filter (fun y => y.worker ≠ w)⟩
  | Op.write _ fp bytes len => ⟨s.cache.write fp bytes len, s.sessions⟩

/-- An interleaving of the workers: a sequence of calls. -/
def System.run (s : System) (ops : List Op) : System := ops.foldl System.step s

/-- The call is paired: a `read_end` comes from a worker with an open session,
and the entry it unpins is the entry that the session pinned, none after a
miss. -/
def System.paired (s : System) : Op → Bool
  | Op.read_end w fp =>
    match s.sessions.find? (fun x => x.worker = w) with
    | none => false
    | some x => (s.cache.find_pinned fp).map Entry.id = x.view.map View.id
  | _ => true

/-- Every call of the interleaving is paired. -/
def System.paired_run : System → List Op → Bool
  | _, [] => true
  | s, op :: ops => s.paired op && (s.step op).paired_run ops

/-- The number of open sessions whose view points into the entry `id`. -/
def sessions_on (ss : List Session) (id : Nat) : Nat :=
  ss.countP (fun x => x.view.map View.id = some id)

/-- The invariant of the reader counts: the reader count of an entry is at
least the number of open sessions on it, and the view of every open session
points into an entry that is alive and holds the bytes of the view. -/
structure System.Inv (s : System) : Prop where
  wf : s.cache.wf
  pinned : ∀ e ∈ s.cache.alive, sessions_on s.sessions e.id ≤ e.readers
  views : ∀ x ∈ s.sessions, ∀ v, x.view = some v → s.cache.holds v.id v.bytes


/-! ## Facts about the C library functions -/

theorem strchr_of_not_mem (c : Char) (s : List Char) (h : c ∉ s) : strchr s c = none := by
  induction s with
  | nil => rfl
  | cons d ds ih =>
    have hd : d ≠ c := fun e => h (by simp [e])
    have hds : c ∉ ds := fun e => h (by simp [e])
    simp [strchr, hd, ih hds]

theorem strchr_append (c : Char) (a b : List Char) (h : c ∉ a) :
    strchr (a ++ c :: b) c = some a.length := by
  induction a with
  | nil => simp [strchr]
  | cons d ds ih =>
    have hd : d ≠ c := fun e => h (by simp [e])
    have hds : c ∉ ds := fun e => h (by simp [e])
    simp [strchr, hd, ih hds]

theorem snprintf_fst (n : Nat) (s : List Char) : (snprintf n s).1 = s.length := rfl

theorem snprintf_snd (n : Nat) (s : List Char) (h : s.length < n) :
    (snprintf n s).2 = s := by
  unfold snprintf
  exact List.take_of_length_le (by omega)

theorem strstr_http (rest : List Char) :
    strstr ("http://".toList ++ rest) "://".toList = some 4 := by
  simp [strstr, List.isPrefixOf]

/-! ## Facts about `parse_uri` -/

theorem parse_port_colon (host port path : List Char) (h : ':' ∉ host) :
    parse_port (host ++ ':' :: port) path
      = if port.length ≥ PORTLEN then none else some (host, port, path) := by
  unfold parse_port
  rw [strchr_append _ _ _ h]
  have e1 : List.drop (host.length + 1) (host ++ ':' :: port) = port := by
    rw [← List.drop_drop]; simp
  have e2 : List.take host.length (host ++ ':' :: port) = host := by simp
  simp only [snprintf_fst, e1, e2]
  split
  · rfl
  · rename_i hlt
    rw [snprintf_snd _ _ (by omega)]

theorem parse_port_plain (host path : List Char) (h : ':' ∉ host) :
    parse_port host path = some (host, "80".toList, path) := by
  unfold parse_port
  rw [strchr_of_not_mem _ _ h]
  rfl

theorem parse_uri_http (rest : List Char) :
    parse_uri ("http://".toList ++ rest)
      = match strchr rest '/' with
        | none =>
          if rest.length ≥ MAXLINE then none
          else parse_port (snprintf MAXLINE rest).2 "/".toList
        | some p =>
          if (rest.take p).length ≥ MAXLINE then none
          else if ('/' :: rest.drop (p + 1)).length ≥ MAXLINE then none
          else parse_port (snprintf MAXLINE (rest.take p)).2
            (snprintf MAXLINE ('/' :: rest.drop (p + 1))).2 := by
  unfold parse_uri
  rw [strstr_http]
  have e : strncmp (List.take 4 ("http://".toList ++ rest)) "http".toList 5 = 0 := by
    simp [strncmp]
  simp only [e]
  have d : List.drop (4 + 3) ("http://".toList ++ rest) = rest := by simp
  simp only [d, snprintf_fst]
  rfl

/-- The authority without a path: `http://host[:port]`. -/
theorem parse_uri_authority (auth : List Char) (h : '/' ∉ auth) :
    parse_uri ("http://".toList ++ auth)
      = if auth.length ≥ MAXLINE then none else parse_port auth "/".toList := by
  rw [parse_uri_http, strchr_of_not_mem _ _ h]
  simp only
  split
  · rfl
  · rename_i hlt
    rw [snprintf_snd _ _ (by omega)]

/-- The authority followed by a path: `http://host[:port]/p`. -/
theorem parse_uri_authority_path (auth p : List Char) (h : '/' ∉ auth) :
    parse_uri ("http://".toList ++ (auth ++ '/' :: p))
      = if auth.length ≥ MAXLINE then none
        else if p.length + 1 ≥ MAXLINE then none
        else parse_port auth ('/' :: p) := by
  rw [parse_uri_http, strchr_append _ _ _ h]
  have e1 : List.drop (auth.length + 1) (auth ++ '/' :: p) = p := by
    rw [← List.drop_drop]; simp
  have e2 : List.take auth.length (auth ++ '/' :: p) = auth := by simp
  simp only [e1, e2, List.length_cons]
  split
  · rfl
  · split
    · rfl
    · rename_i h1 h2
      rw [snprintf_snd _ _ (by omega), snprintf_snd _ _ (by simp; omega)]

theorem strstr_of_absent (needle hay : List Char) (h : ¬ needle <:+: hay) :
    strstr hay needle = none := by
  induction hay with
  | nil =>
    have hp : ¬ needle <+: [] := fun e => h e.isInfix
    simp [strstr, List.isPrefixOf_iff_prefix, hp]
  | cons c cs ih =>
    have hp : ¬ needle <+: c :: cs := fun e => h e.isInfix
    have hi : ¬ needle <:+: cs := fun e => h (List.infix_cons e)
    simp [strstr, List.isPrefixOf_iff_prefix, hp, ih hi]

theorem strstr_first (needle pre rest : List Char)
    (h : ∀ k, k < pre.length → ¬ needle <+: (pre ++ needle ++ rest).drop k) :
    strstr (pre ++ needle ++ rest) needle = some pre.length := by
  induction pre with
  | nil =>
    have hp : needle <+: needle ++ rest := List.prefix_append _ _
    cases hnr : needle ++ rest with
    | nil =>
      rw [hnr] at hp
      simp [strstr, hnr, List.isPrefixOf_iff_prefix, hp]
    | cons c cs =>
      rw [hnr] at hp
      simp [strstr, hnr, List.isPrefixOf_iff_prefix, hp]
  | cons c cs ih =>
    have h0 : ¬ needle <+: c :: (cs ++ needle ++ rest) := by
      have := h 0 (by simp)
      simpa using this
    have hs : ∀ k, k < cs.length → ¬ needle <+: (cs ++ needle ++ rest).drop k := by
      intro k hk
      have := h (k + 1) (by simp; omega)
      simpa using this
    show strstr (c :: (cs ++ needle ++ rest)) needle = some (cs.length + 1)
    rw [strstr, if_neg (by rwa [List.isPrefixOf_iff_prefix]), ih hs]
    rfl

theorem strncmp_self (s : List Char) (n : Nat) : strncmp s s n = 0 := by
  induction s generalizing n with
  | nil => cases n <;> simp [strncmp]
  | cons c cs ih => cases n <;> simp [strncmp, ih]

theorem toNat_ne_zero_of_ne_nul (c : Char) (h : c ≠ '\x00') : c.toNat ≠ 0 := by
  intro e
  apply h
  apply Char.ext
  apply UInt32.ext
  simpa [Char.toNat, UInt32.toNat] using e

theorem toNat_ne_of_ne (a b : Char) (h : a ≠ b) : (a.toNat : Int) - (b.toNat : Int) ≠ 0 := by
  intro e
  apply h
  apply Char.ext
  apply UInt32.ext
  have : a.toNat = b.toNat := by omega
  simpa [Char.toNat, UInt32.toNat] using this

/-- On C strings of length below `n`, `strncmp` is zero only for equal strings. -/
theorem eq_of_strncmp_eq_zero (a b : List Char) (n : Nat)
    (ha : '\x00' ∉ a) (hb : '\x00' ∉ b) (hn : b.length < n)
    (h : strncmp a b n = 0) : a = b := by
  induction a generalizing b n with
  | nil =>
    cases b with
    | nil => rfl
    | cons y ys =>
      cases n with
      | zero => simp at hn
      | succ n =>
        have hy : y ≠ '\x00' := fun e => hb (by simp [e])
        have := toNat_ne_zero_of_ne_nul y hy
        simp [strncmp] at h
        omega
  | cons x xs ih =>
    cases n with
    | zero => simp at hn
    | succ n =>
      have hx : x ≠ '\x00' := fun e => ha (by simp [e])
      cases b with
      | nil =>
        have := toNat_ne_zero_of_ne_nul x hx
        simp [strncmp] at h
        omega
      | cons y ys =>
        by_cases hxy : x = y
        · subst hxy
          simp [strncmp] at h
          have hxs : '\x00' ∉ xs := fun e => ha (by simp [e])
          have hys : '\x00' ∉ ys := fun e => hb (by simp [e])
          rw [ih ys n hxs hys (by simpa using hn) h]
        · have := toNat_ne_of_ne x y hxy
          simp [strncmp, hxy] at h
          omega

theorem not_mem_takeWhile_ne (c : Char) (s : List Char) :
    c ∉ s.takeWhile (fun d => d != c) := by
  intro h
  have := List.mem_takeWhile_imp h
  simp at this

theorem dropWhile_ne_cases (c : Char) (s : List Char) :
    s.dropWhile (fun d => d != c) = [] ∨ ∃ t, s.dropWhile (fun d => d != c) = c :: t := by
  induction s with
  | nil => left; rfl
  | cons d ds ih =>
    by_cases hd : d = c
    · right
      exact ⟨ds, by simp [List.dropWhile, hd]⟩
    · have e : List.dropWhile (fun d => d != c) (d :: ds)
          = List.dropWhile (fun d => d != c) ds :=
        List.dropWhile_cons_of_pos (by simp [hd])
      rw [e]
      exact ih

/-- The port part of the parser in terms of the text around the first colon. -/
theorem parse_port_eq (auth path : List Char) :
    parse_port auth path
      = if PORTLEN ≤ ((auth.dropWhile (fun d => d != ':')).drop 1).length then none
        else some (auth.takeWhile (fun d => d != ':'),
          (match auth.dropWhile (fun d => d != ':') with
           | [] => "80".toList
           | _ :: t => t), path) := by
  have hsplit := List.takeWhile_append_dropWhile (fun d => d != ':') auth
  have hnot := not_mem_takeWhile_ne ':' auth
  rcases dropWhile_ne_cases ':' auth with h | ⟨t, h⟩
  · have hauth : auth.takeWhile (fun d => d != ':') = auth := by
      rw [h] at hsplit
      simpa using hsplit
    rw [hauth] at hnot
    rw [h, hauth, parse_port_plain _ _ hnot]
    simp [PORTLEN]
  · rw [h] at hsplit
    conv_lhs => rw [← hsplit]
    rw [parse_port_colon _ _ _ hnot, h]
    simp

/-- The parser on `http://rest` in terms of the text around the first slash
of `rest`. -/
theorem parse_uri_http_eq (rest : List Char) :
    parse_uri ("http://".toList ++ rest)
      = if MAXLINE ≤ (rest.takeWhile (fun d => d != '/')).length
          ∨ MAXLINE ≤ (rest.dropWhile (fun d => d != '/')).length then none
        else parse_port (rest.takeWhile (fun d => d != '/'))
          (match rest.dropWhile (fun d => d != '/') with
           | [] => "/".toList
           | c :: t => c :: t) := by
  have hsplit := List.takeWhile_append_dropWhile (fun d => d != '/') rest
  have hnot := not_mem_takeWhile_ne '/' rest
  rcases dropWhile_ne_cases '/' rest with h | ⟨t, h⟩
  · have hauth : rest.takeWhile (fun d => d != '/') = rest := by
      rw [h] at hsplit
      simpa using hsplit
    rw [hauth] at hnot
    rw [h, hauth, parse_uri_authority _ hnot]
    simp [MAXLINE]
  · rw [h] at hsplit
    conv_lhs => rw [← hsplit]
    rw [parse_uri_authority_path _ _ hnot, h]
    simp only [List.length_cons, ge_iff_le]
    by_cases h1 : MAXLINE ≤ (rest.takeWhile (fun d => d != '/')).length
    · simp [h1]
    · by_cases h2 : MAXLINE ≤ t.length + 1
      · simp [h1, h2]
      · simp [h1, h2]

/-! ## Facts about the stream reader and the scan of the request line -/

theorem cstr_of_no_nul (s : List Char) (h : '\x00' ∉ s) : cstr s = s := by
  induction s with
  | nil => rfl
  | cons c cs ih =>
    have hc : c ≠ '\x00' := fun e => h (by simp [e])
    have hcs : '\x00' ∉ cs := fun e => h (by simp [e])
    simp [cstr, hc, ih hcs]

theorem rio_scan_line (n : Nat) (body rest : List Char)
    (h : '\n' ∉ body) (hn : body.length < n) :
    rio_scan n (body ++ '\n' :: rest) = (body ++ ['\n'], rest) := by
  induction body generalizing n with
  | nil =>
    cases n with
    | zero => simp at hn
    | succ n => simp [rio_scan]
  | cons c cs ih =>
    cases n with
    | zero => simp at hn
    | succ n =>
      have hc : c ≠ '\n' := fun e => h (by simp [e])
      have hcs : '\n' ∉ cs := fun e => h (by simp [e])
      have hl : cs.length < n := by simpa using hn
      simp [rio_scan, hc, ih n hcs hl]

/-- Reading a line that ends with a newline and fits the buffer. -/
theorem rio_readlineb_line (maxlen : Nat) (body rest : List Char) (f : Bool)
    (h : '\n' ∉ body) (hn : body.length + 1 < maxlen) :
    rio_readlineb ⟨body ++ '\n' :: rest, f⟩ maxlen
      = ⟨((body ++ ['\n']).length : Int), body ++ ['\n'], ⟨rest, f⟩⟩ := by
  unfold rio_readlineb
  simp only
  rw [rio_scan_line _ _ _ h (by omega)]
  simp

theorem split_run (p : Char → Bool) (a : List Char) (c : Char) (b : List Char)
    (ha : ∀ x ∈ a, p x = true) (hc : p c = false) :
    (a ++ c :: b).takeWhile p = a ∧ (a ++ c :: b).dropWhile p = c :: b := by
  induction a with
  | nil => simp [List.takeWhile, List.dropWhile, hc]
  | cons x xs ih =>
    have hx : p x = true := ha x (by simp)
    have hxs : ∀ y ∈ xs, p y = true := fun y hy => ha y (by simp [hy])
    have := ih hxs
    simp [List.takeWhile, List.dropWhile, hx, this.1, this.2]

theorem split_run_end (p : Char → Bool) (a : List Char) (ha : ∀ x ∈ a, p x = true) :
    a.takeWhile p = a ∧ a.dropWhile p = [] := by
  induction a with
  | nil => simp
  | cons x xs ih =>
    have hx : p x = true := ha x (by simp)
    have hxs : ∀ y ∈ xs, p y = true := fun y hy => ha y (by simp [hy])
    have := ih hxs
    simp [List.takeWhile, List.dropWhile, hx, this.1, this.2]

/-- The scan accepts white space before the method, any run of white space
between the tokens, and any bytes after the version digit. -/
theorem sscanf_request_lax (ws0 m ws1 u ws2 : List Char) (v : Char) (tail : List Char)
    (h0 : ∀ c ∈ ws0, isspace c = true)
    (hm : m ≠ []) (hm' : ∀ c ∈ m, isspace c = false)
    (h1 : ws1 ≠ []) (h1' : ∀ c ∈ ws1, isspace c = true)
    (hu : u ≠ []) (hu' : ∀ c ∈ u, isspace c = false)
    (h2 : ws2 ≠ []) (h2' : ∀ c ∈ ws2, isspace c = true) :
    sscanf_request (ws0 ++ (m ++ (ws1 ++ (u ++ (ws2 ++ ("HTTP/1.".toList ++ v :: tail))))))
      = ⟨3, m, u, v⟩ := by
  obtain ⟨m0, mt, rfl⟩ := List.exists_cons_of_ne_nil hm
  obtain ⟨w1, wt1, rfl⟩ := List.exists_cons_of_ne_nil h1
  obtain ⟨u0, ut, rfl⟩ := List.exists_cons_of_ne_nil hu
  obtain ⟨w2, wt2, rfl⟩ := List.exists_cons_of_ne_nil h2
  have hm0 : isspace m0 = false := hm' m0 (by simp)
  have hw1 : isspace w1 = true := h1' w1 (by simp)
  have hu0 : isspace u0 = false := hu' u0 (by simp)
  have hw2 : isspace w2 = true := h2' w2 (by simp)
  have nm : ∀ c ∈ m0 :: mt, (fun c => !isspace c) c = true := fun c hc => by
    simp [hm' c hc]
  have nu : ∀ c ∈ u0 :: ut, (fun c => !isspace c) c = true := fun c hc => by
    simp [hu' c hc]
  unfold sscanf_request
  have s1 := split_run isspace ws0 m0
    (mt ++ (w1 :: wt1 ++ (u0 :: ut ++ (w2 :: wt2 ++ ("HTTP/1.".toList ++ v :: tail))))) h0 hm0
  have s2 := split_run (fun c => !isspace c) (m0 :: mt) w1
    (wt1 ++ (u0 :: ut ++ (w2 :: wt2 ++ ("HTTP/1.".toList ++ v :: tail)))) nm (by simp [hw1])
  have s3 := split_run isspace (w1 :: wt1) u0
    (ut ++ (w2 :: wt2 ++ ("HTTP/1.".toList ++ v :: tail))) h1' hu0
  have s4 := split_run (fun c => !isspace c) (u0 :: ut) w2
    (wt2 ++ ("HTTP/1.".toList ++ v :: tail)) nu (by simp [hw2])
  have s5 := split_run isspace (w2 :: wt2) 'H' ("TTP/1.".toList ++ v :: tail) h2' (by decide)
  simp only [List.cons_append, List.append_assoc] at s1 s2 s3 s4 s5 ⊢
  simp only [s1.2]
  simp only [s2.1, s2.2, s3.2, s4.1, s4.2]
  have e5 : List.dropWhile isspace (w2 :: (wt2 ++ ("HTTP/1.".toList ++ v :: tail)))
      = "HTTP/1.".toList ++ v :: tail := s5.2
  simp only [e5]
  simp [List.isPrefixOf]

theorem request_line_length (m u : List Char) (v : Char) :
    (request_line m u v).length = m.length + u.length + 12 := by
  simp [request_line]
  omega

/-- A request line that matches the grammar and fits the line buffer passes
the check of `serve`, which goes on with the method and the URI. -/
theorem serve_request_line (env : Env) (m u : List Char) (v : Char)
    (rest : List Char) (f : Bool)
    (hm : token m) (hu : token u) (hv : v = '0' ∨ v = '1')
    (hlen : (request_line m u v).length < MAXLINE) :
    serve env ⟨request_line m u v ++ rest, f⟩
      = serve_request env (request_line m u v) m u ⟨rest, f⟩ := by
  have hvs : isspace v = false ∧ v ≠ '\x00' ∧ v ≠ '\n' := by
    rcases hv with rfl | rfl <;> decide
  have hmn : '\n' ∉ m := fun hc => by
    have := (hm.2 _ hc).1
    revert this
    decide
  have hun : '\n' ∉ u := fun hc => by
    have := (hu.2 _ hc).1
    revert this
    decide
  have hm0 : '\x00' ∉ m := fun hc => (hm.2 _ hc).2 rfl
  have hu0 : '\x00' ∉ u := fun hc => (hu.2 _ hc).2 rfl
  have hbody : '\n' ∉ m ++ ' ' :: (u ++ ' ' :: ("HTTP/1.".toList ++ [v, '\r'])) := by
    simp only [List.mem_append, List.mem_cons, not_or]
    refine ⟨hmn, by decide, hun, by decide, by decide, ?_⟩
    simp only [List.mem_singleton, List.not_mem_nil, or_false, not_or]
    exact ⟨fun e => hvs.2.2 e.symm, by decide⟩
  have hnul : '\x00' ∉ request_line m u v := by
    unfold request_line
    simp only [List.mem_append, List.mem_cons, not_or]
    refine ⟨hm0, by decide, hu0, by decide, by decide, fun e => hvs.2.1 e.symm, by decide⟩
  have eline : request_line m u v ++ rest
      = (m ++ ' ' :: (u ++ ' ' :: ("HTTP/1.".toList ++ [v, '\r']))) ++ '\n' :: rest := by
    simp [request_line]
  have eline2 : (m ++ ' ' :: (u ++ ' ' :: ("HTTP/1.".toList ++ [v, '\r']))) ++ ['\n']
      = request_line m u v := by
    simp [request_line]
  have hl : (m ++ ' ' :: (u ++ ' ' :: ("HTTP/1.".toList ++ [v, '\r']))).length + 1
      < MAXLINE := by
    rw [← eline2] at hlen
    simpa using hlen
  have hscan : sscanf_request (request_line m u v) = ⟨3, m, u, v⟩ := by
    have := sscanf_request_lax [] m [' '] u [' '] v "\r\n".toList (by simp) hm.1
      (fun c hc => (hm.2 c hc).1) (by simp) (by simp; decide) hu.1
      (fun c hc => (hu.2 c hc).1) (by simp) (by simp; decide)
    simpa [request_line] using this
  unfold serve
  rw [eline, rio_readlineb_line _ _ _ _ hbody hl, eline2]
  simp only [cstr_of_no_nul _ hnul, hscan]
  have hpos : ¬ ((request_line m u v).length : Int) ≤ 0 := by
    rw [request_line_length]
    omega
  rw [if_neg hpos, if_neg]
  rcases hv with rfl | rfl <;> simp

theorem takeWhile_append_all (p : Char → Bool) (a b : List Char)
    (ha : ∀ x ∈ a, p x = true) : (a ++ b).takeWhile p = a ++ b.takeWhile p := by
  induction a with
  | nil => rfl
  | cons x xs ih =>
    have hx : p x = true := ha x (by simp)
    have hxs : ∀ y ∈ xs, p y = true := fun y hy => ha y (by simp [hy])
    simp [List.takeWhile, hx, ih hxs]

theorem length_le_after_colon (a b : List Char) :
    b.length ≤ (((a ++ ':' :: b).dropWhile (fun d => d != ':')).drop 1).length := by
  induction a with
  | nil => simp [List.dropWhile]
  | cons x xs ih =>
    by_cases hx : x = ':'
    · subst hx
      simp [List.dropWhile]
      omega
    · have e : List.dropWhile (fun d => d != ':') (x :: xs ++ ':' :: b)
          = List.dropWhile (fun d => d != ':') (xs ++ ':' :: b) :=
        List.dropWhile_cons_of_pos (by simp [hx])
      rw [e]
      exact ih

/-- A URI whose authority reaches `MAXLINE` bytes or whose port reaches
`PORTLEN` bytes is refused. -/
theorem parse_uri_too_long (host port path : List Char)
    (hh : '/' ∉ host) (hp : '/' ∉ port)
    (hlen : MAXLINE ≤ (host ++ ":".toList ++ port).length ∨ PORTLEN ≤ port.length) :
    parse_uri ("http://".toList ++ host ++ ":".toList ++ port ++ path) = none := by
  have e : "http://".toList ++ host ++ ":".toList ++ port ++ path
      = "http://".toList ++ ((host ++ ':' :: port) ++ path) := by simp
  have hall : ∀ x ∈ host ++ ':' :: port, (fun d => d != '/') x = true := by
    intro x hx
    simp only [List.mem_append, List.mem_cons] at hx
    rcases hx with hx | hx | hx
    · have : x ≠ '/' := fun e => hh (e ▸ hx)
      simpa using this
    · subst hx
      decide
    · have : x ≠ '/' := fun e => hp (e ▸ hx)
      simpa using this
  have hauth := takeWhile_append_all (fun d => d != '/') (host ++ ':' :: port) path hall
  rw [e, parse_uri_http_eq, parse_port_eq, hauth]
  split_ifs with h1 h2
  · rfl
  · rfl
  · exfalso
    rcases hlen with hl | hl
    · apply h1
      left
      simp only [List.length_append, List.length_cons] at hl ⊢
      have e1 : ":".toList.length = 1 := rfl
      omega
    · apply h2
      have e2 : host ++ ':' :: port ++ List.takeWhile (fun d => d != '/') path
          = host ++ ':' :: (port ++ List.takeWhile (fun d => d != '/') path) := by simp
      rw [e2]
      have := length_le_after_colon host (port ++ List.takeWhile (fun d => d != '/') path)
      simp only [List.length_append] at this
      omega

set_option maxRecDepth 20000 in
theorem clienterror_get_400 (wok : Nat → Bool) :
    clienterror wok "GET".toList "400".toList "Bad Request".toList
        "Proxy received a malformed request".toList
      = Event.client_write ("HTTP/1.0 400 Bad Request\r\nContent-Type: text/html\r\n".toList
            ++ "Content-Length: 214\r\n\r\n".toList)
        :: (if wok 0 then
              [Event.client_write (error_body "GET".toList "400".toList "Bad Request".toList
                "Proxy received a malformed request".toList)]
            else []) := by
  have hb : (snprintf MAXBUF (error_body "GET".toList "400".toList "Bad Request".toList
      "Proxy received a malformed request".toList))
      = (214, error_body "GET".toList "400".toList "Bad Request".toList
        "Proxy received a malformed request".toList) := by rfl
  have hh : (snprintf MAXLINE (error_headers "400".toList "Bad Request".toList 214))
      = (74, "HTTP/1.0 400 Bad Request\r\nContent-Type: text/html\r\n".toList
            ++ "Content-Length: 214\r\n\r\n".toList) := by rfl
  unfold clienterror
  simp only [hb, hh]
  cases wok 0 <;> rfl

theorem parse_uri_long_host (n : Nat) (hn : n + 3 < MAXLINE) :
    parse_uri ("http://".toList ++ List.replicate n 'a' ++ ":".toList ++ "80".toList
        ++ "/".toList)
      = some (List.replicate n 'a', "80".toList, "/".toList) := by
  have hs : '/' ∉ List.replicate n 'a' ++ ':' :: "80".toList := by
    simp only [List.mem_append, List.mem_replicate, List.mem_cons, not_or]
    refine ⟨fun h => absurd h.2 (by decide), by decide, by decide⟩
  have hc : ':' ∉ List.replicate n 'a' := by
    simp only [List.mem_replicate]
    exact fun h => absurd h.2 (by decide)
  have e : "http://".toList ++ List.replicate n 'a' ++ ":".toList ++ "80".toList
      ++ "/".toList
      = "http://".toList ++ ((List.replicate n 'a' ++ ':' :: "80".toList) ++ '/' :: []) := by
    simp
  have l1 : (List.replicate n 'a' ++ ':' :: "80".toList).length = n + 3 := by
    simp
  have l2 : ("80".toList).length = 2 := rfl
  rw [e, parse_uri_authority_path _ _ hs, if_neg (by rw [l1]; omega),
    if_neg (by simp [MAXLINE]), parse_port_colon _ _ _ hc, if_neg (by rw [l2]; simp [PORTLEN])]
  rfl

theorem parse_uri_host_only (h : List Char) (hc : ':' ∉ h) (hs : '/' ∉ h)
    (hl : h.length < MAXLINE) :
    parse_uri ("http://".toList ++ h) = some (h, "80".toList, "/".toList) := by
  rw [parse_uri_authority _ hs, if_neg (by omega), parse_port_plain _ _ hc]

theorem parse_uri_host_path (h p : List Char) (hc : ':' ∉ h) (hs : '/' ∉ h)
    (hl : h.length < MAXLINE) (hp : p.length + 1 < MAXLINE) :
    parse_uri ("http://".toList ++ (h ++ '/' :: p)) = some (h, "80".toList, '/' :: p) := by
  rw [parse_uri_authority_path _ _ hs, if_neg (by omega), if_neg (by omega),
    parse_port_plain _ _ hc]

theorem parse_uri_host_port (h port : List Char) (hc : ':' ∉ h) (hs : '/' ∉ h)
    (hps : '/' ∉ port) (hl : h.length + 1 + port.length < MAXLINE)
    (hp : port.length < PORTLEN) :
    parse_uri ("http://".toList ++ (h ++ ':' :: port)) = some (h, port, "/".toList) := by
  have hauth : '/' ∉ h ++ ':' :: port := by
    simp only [List.mem_append, List.mem_cons, not_or]
    exact ⟨hs, by decide, hps⟩
  rw [parse_uri_authority _ hauth, if_neg (by simp; omega), parse_port_colon _ _ _ hc,
    if_neg (by omega)]

theorem parse_uri_host_port_path (h port p : List Char) (hc : ':' ∉ h) (hs : '/' ∉ h)
    (hps : '/' ∉ port) (hl : h.length + 1 + port.length < MAXLINE)
    (hp : port.length < PORTLEN) (hpl : p.length + 1 < MAXLINE) :
    parse_uri ("http://".toList ++ ((h ++ ':' :: port) ++ '/' :: p))
      = some (h, port, '/' :: p) := by
  have hauth : '/' ∉ h ++ ':' :: port := by
    simp only [List.mem_append, List.mem_cons, not_or]
    exact ⟨hs, by decide, hps⟩
  rw [parse_uri_authority_path _ _ hauth, if_neg (by simp; omega), if_neg (by omega),
    parse_port_colon _ _ _ hc, if_neg (by omega)]

theorem parse_uri_long_host_port (n : Nat) (hn : MAXLINE ≤ n + 3) :
    parse_uri ("http://".toList ++ List.replicate n 'a' ++ ":80".toList) = none := by
  have hs : '/' ∉ List.replicate n 'a' ++ ':' :: "80".toList := by
    simp only [List.mem_append, List.mem_replicate, List.mem_cons, not_or]
    refine ⟨fun h => absurd h.2 (by decide), by decide, by decide⟩
  have e : "http://".toList ++ List.replicate n 'a' ++ ":80".toList
      = "http://".toList ++ (List.replicate n 'a' ++ ':' :: "80".toList) := by simp
  have l1 : (List.replicate n 'a' ++ ':' :: "80".toList).length = n + 3 := by simp
  rw [e, parse_uri_authority _ hs, if_pos (by rw [l1]; exact hn)]

theorem not_mem_replicate_a (c : Char) (n : Nat) (h : c ≠ 'a') :
    c ∉ List.replicate n 'a' := by
  simp only [List.mem_replicate]
  exact fun e => h e.2

/-! ## Facts about the header rewriter -/

theorem strstr_isSome_iff (needle hay : List Char) :
    (strstr hay needle).isSome = true ↔ needle <:+: hay := by
  constructor
  · intro h
    by_contra hn
    rw [strstr_of_absent _ _ hn] at h
    simp at h
  · intro h
    induction hay with
    | nil =>
      have : needle = [] := List.eq_nil_of_infix_nil h
      subst this
      simp [strstr]
    | cons c cs ih =>
      rw [strstr]
      by_cases hp : needle <+: c :: cs
      · rw [if_pos (by rwa [List.isPrefixOf_iff_prefix])]
        rfl
      · rw [if_neg (by rwa [List.isPrefixOf_iff_prefix])]
        rcases List.infix_cons_iff.mp h with h1 | h1
        · exact absurd h1 hp
        · have := ih h1
          cases hs : strstr cs needle with
          | none => rw [hs] at this; simp at this
          | some n => rfl

theorem header_overlap_iff (l : List Char) :
    header_overlap (cstr l) = true ↔ hop_header l := by
  unfold header_overlap hop_header
  simp only [Bool.or_eq_true, strstr_isSome_iff]
  tauto

theorem header_overlap_eq (l : List Char) :
    header_overlap (cstr l) = decide (hop_header l) := by
  by_cases h : hop_header l
  · rw [decide_eq_true h]
    exact (header_overlap_iff l).mpr h
  · rw [decide_eq_false h]
    cases hb : header_overlap (cstr l) with
    | false => rfl
    | true => exact absurd ((header_overlap_iff l).mp hb) h

theorem rio_scan_fst_length (n : Nat) (s : List Char) : (rio_scan n s).1.length ≤ n := by
  induction n generalizing s with
  | zero => simp [rio_scan]
  | succ n ih =>
    cases s with
    | nil => simp [rio_scan]
    | cons c cs =>
      by_cases hc : c = '\n'
      · simp [rio_scan, hc]
      · have := ih cs
        simp [rio_scan, hc]
        omega

theorem rio_scan_append (n : Nat) (s : List Char) :
    (rio_scan n s).1 ++ (rio_scan n s).2 = s := by
  induction n generalizing s with
  | zero => simp [rio_scan]
  | succ n ih =>
    cases s with
    | nil => simp [rio_scan]
    | cons c cs =>
      by_cases hc : c = '\n'
      · simp [rio_scan, hc]
      · simp [rio_scan, hc, ih cs]

theorem rio_scan_full (n : Nat) (l rest : List Char) (h : '\n' ∉ l) (hn : l.length = n) :
    rio_scan n (l ++ rest) = (l, rest) := by
  induction l generalizing n with
  | nil =>
    subst hn
    simp [rio_scan]
  | cons c cs ih =>
    cases n with
    | zero => simp at hn
    | succ n =>
      have hc : c ≠ '\n' := fun e => h (by simp [e])
      have hcs : '\n' ∉ cs := fun e => h (by simp [e])
      have hl : cs.length = n := by simpa using hn
      simp [rio_scan, hc, ih n hcs hl]

/-- The value returned by the reader is the number of bytes it stored. -/
theorem rio_readlineb_ret (rp : rio_t) (maxlen : Nat)
    (h : 0 < (rio_readlineb rp maxlen).ret) :
    (rio_readlineb rp maxlen).ret = ((rio_readlineb rp maxlen).buf.length : Int) := by
  unfold rio_readlineb at h ⊢
  simp only at h ⊢
  split_ifs at h ⊢ with h1 h2
  · simp at h
  · rfl
  · rfl

/-- A read that returns bytes leaves a shorter stream. -/
theorem rio_readlineb_shrinks (rp : rio_t) (maxlen : Nat)
    (h : 0 < (rio_readlineb rp maxlen).ret) :
    (rio_readlineb rp maxlen).rio.data.length < rp.data.length := by
  have happ := rio_scan_append (maxlen - 1) rp.data
  have hlen := congrArg List.length happ
  simp only [List.length_append] at hlen
  unfold rio_readlineb at h ⊢
  simp only at h ⊢
  split_ifs at h ⊢ with h1 h2
  · simp at h
  · simp only [List.length_nil]
    have : 0 < (rio_scan (maxlen - 1) rp.data).1.length := by
      simp only [Nat.cast_pos] at h
      exact h
    omega
  · simp only
    have : 0 < (rio_scan (maxlen - 1) rp.data).1.length := by
      simp only [Nat.cast_pos] at h
      exact h
    omega

/-- The bound on the iterations does not matter once it exceeds the length of
the stream. -/
theorem read_requesthdrs_loop_fuel (fuel1 fuel2 : Nat) (rp : rio_t)
    (header : List Char) (total : Nat)
    (h1 : rp.data.length < fuel1) (h2 : rp.data.length < fuel2) :
    read_requesthdrs_loop fuel1 rp header total
      = read_requesthdrs_loop fuel2 rp header total := by
  induction fuel1 generalizing fuel2 rp header total with
  | zero => simp at h1
  | succ n ih =>
    cases fuel2 with
    | zero => simp at h2
    | succ m =>
      unfold read_requesthdrs_loop
      simp only
      by_cases hr : (rio_readlineb rp MAXLINE).ret ≤ 0
      · simp only [if_pos hr]
      · have hpos : 0 < (rio_readlineb rp MAXLINE).ret := by omega
        have hs := rio_readlineb_shrinks rp MAXLINE hpos
        have e1 := fun hd tt => ih m (rio_readlineb rp MAXLINE).rio hd tt
          (by omega) (by omega)
        simp only [if_neg hr, e1]

theorem nul_not_mem_cstr (s : List Char) : '\x00' ∉ cstr s := by
  induction s with
  | nil => simp [cstr]
  | cons c cs ih =>
    by_cases hc : c = '\x00'
    · simp [cstr, hc]
    · simp only [cstr, if_neg hc, List.mem_cons, not_or]
      exact ⟨fun e => hc e.symm, ih⟩

theorem is_line_pos (l : List Char) (h : is_line l) : 0 < l.length := by
  rcases h with ⟨h1, _, _⟩ | ⟨_, h2⟩
  · cases l with
    | nil => simp at h1
    | cons c cs => simp
  · have : 0 < MAXLINE - 1 := by decide
    omega

theorem is_line_lt (l : List Char) (h : is_line l) : l.length < MAXLINE := by
  rcases h with ⟨_, _, h3⟩ | ⟨_, h2⟩
  · exact h3
  · omega

/-- Reading from a stream that starts with a line returns that line. -/
theorem rio_readlineb_is_line (l rest : List Char) (f : Bool) (h : is_line l) :
    rio_readlineb ⟨l ++ rest, f⟩ MAXLINE = ⟨(l.length : Int), l, ⟨rest, f⟩⟩ := by
  rcases h with ⟨h1, h2, h3⟩ | ⟨h1, h2⟩
  · have hl : l = l.dropLast ++ ['\n'] := by
      have := List.dropLast_append_getLast? '\n' (by simpa using h1)
      exact this.symm
    have hlen : l.dropLast.length + 1 < MAXLINE := by
      have := congrArg List.length hl
      simp only [List.length_append, List.length_singleton] at this
      omega
    have := rio_readlineb_line MAXLINE l.dropLast rest f h2 hlen
    have e : l ++ rest = l.dropLast ++ '\n' :: rest := by
      conv_lhs => rw [hl]
      simp
    rw [e, this, ← hl]
  · unfold rio_readlineb
    simp only
    rw [rio_scan_full (MAXLINE - 1) l rest h1 (by omega)]
    have : ¬ (l.getLast? ≠ some '\n' ∧ l.length < MAXLINE - 1) := by
      intro hc
      omega
    simp only [if_neg this]

theorem cstr_eq_cons (l s : List Char) (a : Char) (h : cstr l = a :: s) :
    ∃ t, l = a :: t ∧ cstr t = s := by
  cases l with
  | nil => simp [cstr] at h
  | cons c cs =>
    by_cases hc : c = '\x00'
    · simp [cstr, hc] at h
    · simp only [cstr, if_neg hc, List.cons.injEq] at h
      exact ⟨cs, by rw [h.1], h.2⟩

theorem strncmp_crlf (l : List Char) (h : is_line l) :
    strncmp (cstr l) "\r\n".toList 3 = 0 ↔ l = "\r\n".toList := by
  constructor
  · intro h0
    have hc := eq_of_strncmp_eq_zero (cstr l) "\r\n".toList 3 (nul_not_mem_cstr l)
      (by decide) (by decide) h0
    have hc2 : cstr l = ['\r', '\n'] := hc
    obtain ⟨t1, rfl, h1⟩ := cstr_eq_cons _ _ _ hc2
    obtain ⟨t2, rfl, _⟩ := cstr_eq_cons _ _ _ h1
    cases t2 with
    | nil => rfl
    | cons c t =>
      exfalso
      rcases h with ⟨_, h2, _⟩ | ⟨h1, _⟩
      · apply h2
        simp [List.dropLast]
      · apply h1
        simp
  · intro e
    subst e
    decide

theorem memcpy_nil (dst : List Char) (off : Nat) : memcpy dst off [] = dst := by
  simp [memcpy]

theorem length_memcpy (dst : List Char) (off : Nat) (src : List Char)
    (h : off ≤ dst.length) : off + src.length ≤ (memcpy dst off src).length := by
  simp [memcpy]
  omega

theorem memcpy_memcpy (dst : List Char) (off : Nat) (a b : List Char)
    (h : off ≤ dst.length) :
    memcpy (memcpy dst off a) (off + a.length) b = memcpy dst off (a ++ b) := by
  unfold memcpy
  have h1 : (List.take off dst).length = off := by simp [h]
  have e1 : List.take (off + a.length) (List.take off dst ++ a ++ List.drop (off + a.length) dst)
      = List.take off dst ++ a := by
    rw [List.take_append_eq_append_take]
    simp [h1]
  have e2 : List.drop (off + a.length + b.length)
      (List.take off dst ++ a ++ List.drop (off + a.length) dst)
      = List.drop (off + (a ++ b).length) dst := by
    rw [List.drop_append_eq_append_drop]
    simp only [List.length_append, h1]
    have z : List.drop (off + a.length + b.length) (List.take off dst ++ a) = [] := by
      apply List.drop_of_length_le
      simp [h1]
    rw [z]
    simp only [List.nil_append, List.drop_drop]
    congr 1
    omega
  rw [e1, e2]
  simp

theorem take_memcpy_zero (dst src : List Char) :
    (memcpy dst 0 src).take src.length = src := by
  simp [memcpy]

/-- One iteration of the loop on a stream that starts with a line. -/
theorem read_requesthdrs_loop_step (fuel : Nat) (l rest : List Char) (f : Bool)
    (header : List Char) (total : Nat) (h : is_line l) :
    read_requesthdrs_loop (fuel + 1) ⟨l ++ rest, f⟩ header total
      = if total + l.length ≥ MAXLINE then ⟨false, header, total, ⟨rest, f⟩⟩
        else if hop_header l then
          if l ≠ "\r\n".toList then read_requesthdrs_loop fuel ⟨rest, f⟩ header total
          else ⟨false, header, total, ⟨rest, f⟩⟩
        else
          if l ≠ "\r\n".toList then
            read_requesthdrs_loop fuel ⟨rest, f⟩ (memcpy header total l) (total + l.length)
          else ⟨false, memcpy header total l, total + l.length, ⟨rest, f⟩⟩ := by
  have hpos := is_line_pos l h
  rw [read_requesthdrs_loop]
  simp only [rio_readlineb_is_line l rest f h, header_overlap_eq, Int.toNat_ofNat,
    List.take_length, decide_eq_true_eq]
  have hr : ¬ ((l.length : Int) ≤ 0) := by omega
  have hc : (strncmp (cstr l) "\r\n".toList 3 ≠ 0) ↔ l ≠ "\r\n".toList :=
    not_congr (strncmp_crlf l h)
  simp only [if_neg hr, hc]

theorem kept_lines_cons_drop (l : List Char) (ls : List (List Char)) (h : hop_header l) :
    kept_lines (l :: ls) = kept_lines ls := by
  simp [kept_lines, List.filter, h]

theorem kept_lines_cons_keep (l : List Char) (ls : List (List Char)) (h : ¬ hop_header l) :
    kept_lines (l :: ls) = l :: kept_lines ls := by
  simp [kept_lines, List.filter, h]

/-- The loop on a stream that starts with the lines `ls`, none of which is the
terminator or trips the overflow check: the lines that are not dropped are
copied one after the other, and the loop goes on with the rest of the stream. -/
theorem read_requesthdrs_loop_lines (ls : List (List Char)) (tail : List Char) (f : Bool)
    (fuel : Nat) (header : List Char) (total : Nat)
    (hls : ∀ l ∈ ls, is_line l ∧ l ≠ "\r\n".toList)
    (hfit : hdr_fits total ls)
    (hfuel : (ls.flatten ++ tail).length < fuel)
    (hh : total ≤ header.length) :
    read_requesthdrs_loop fuel ⟨ls.flatten ++ tail, f⟩ header total
      = read_requesthdrs_loop (tail.length + 1) ⟨tail, f⟩
          (memcpy header total (kept_lines ls).flatten)
          (total + (kept_lines ls).flatten.length) := by
  induction ls generalizing fuel header total with
  | nil =>
    simp only [List.flatten_nil, List.nil_append, kept_lines, List.filter_nil, memcpy_nil,
      List.length_nil, Nat.add_zero]
    exact read_requesthdrs_loop_fuel _ _ _ _ _ (by simpa using hfuel) (by simp)
  | cons l ls ih =>
    have hl := hls l (by simp)
    have hls2 : ∀ x ∈ ls, is_line x ∧ x ≠ "\r\n".toList := fun x hx => hls x (by simp [hx])
    cases fuel with
    | zero => simp at hfuel
    | succ n =>
      have e : (l :: ls).flatten ++ tail = l ++ (ls.flatten ++ tail) := by simp
      have hfuel2 : (ls.flatten ++ tail).length < n := by
        rw [e] at hfuel
        simp only [List.length_append] at hfuel ⊢
        have := is_line_pos l hl.1
        omega
      rw [e, read_requesthdrs_loop_step n l _ f header total hl.1]
      have hfit1 : ¬ (total + l.length ≥ MAXLINE) := by
        have := hfit.1
        omega
      rw [if_neg hfit1]
      by_cases hd : hop_header l
      · have hfit2 : hdr_fits total ls := by
          have := hfit.2
          rwa [if_pos hd] at this
        rw [if_pos hd, if_pos hl.2, kept_lines_cons_drop l ls hd]
        exact ih n header total hls2 hfit2 hfuel2 hh
      · have hfit2 : hdr_fits (total + l.length) ls := by
          have := hfit.2
          rwa [if_neg hd] at this
        rw [if_neg hd, if_pos hl.2, kept_lines_cons_keep l ls hd]
        rw [ih n (memcpy header total l) (total + l.length) hls2 hfit2 hfuel2
          (length_memcpy header total l hh), memcpy_memcpy header total l _ hh]
        simp only [List.flatten_cons, List.length_append, Nat.add_assoc]

/-- The running total after the lines `ls` is the number of bytes kept. -/
theorem read_requesthdrs_terminated (ls : List (List Char)) (rest : List Char) (f : Bool)
    (header : List Char)
    (hls : ∀ l ∈ ls, is_line l ∧ l ≠ "\r\n".toList)
    (hfit : hdr_fits 0 ls)
    (hterm : (kept_lines ls).flatten.length + 2 < MAXLINE) :
    read_requesthdrs ⟨ls.flatten ++ ("\r\n".toList ++ rest), f⟩ header
      = ⟨false, memcpy header 0 ((kept_lines ls).flatten ++ "\r\n".toList),
          ((kept_lines ls).flatten ++ "\r\n".toList).length, ⟨rest, f⟩⟩ := by
  unfold read_requesthdrs
  rw [read_requesthdrs_loop_lines ls _ f _ header 0 hls hfit (by simp) (by simp)]
  have hcr : is_line "\r\n".toList := by decide
  have e : ("\r\n".toList ++ rest).length + 1 = (rest.length + 2) + 1 := by
    simp
  rw [e, read_requesthdrs_loop_step _ _ rest f _ _ hcr]
  have h1 : ¬ (0 + (kept_lines ls).flatten.length + "\r\n".toList.length ≥ MAXLINE) := by
    have : "\r\n".toList.length = 2 := rfl
    omega
  have h2 : ¬ hop_header "\r\n".toList := by decide
  rw [if_neg h1, if_neg h2, if_neg (by simp)]
  have hz : (0 : Nat) ≤ header.length := Nat.zero_le _
  have := memcpy_memcpy header 0 (kept_lines ls).flatten "\r\n".toList hz
  simp only [Nat.zero_add] at this ⊢
  rw [this]
  simp

theorem take_total_terminated (header out : List Char) :
    (memcpy header 0 out).take out.length = out :=
  take_memcpy_zero header out

theorem rio_scan_nil (n : Nat) : rio_scan n [] = ([], []) := by
  cases n <;> rfl

/-- At the end of a stream without error the loop reports a failure. -/
theorem read_requesthdrs_loop_eof (fuel : Nat) (header : List Char) (total : Nat) :
    read_requesthdrs_loop (fuel + 1) ⟨[], false⟩ header total
      = ⟨true, header, total, ⟨[], false⟩⟩ := by
  rw [read_requesthdrs_loop]
  have e : rio_readlineb ⟨[], false⟩ MAXLINE = ⟨0, [], ⟨[], false⟩⟩ := by
    unfold rio_readlineb
    simp only [rio_scan_nil]
    rw [if_pos]
    · rfl
    · exact ⟨by simp, by decide⟩
  simp only [e]
  rfl

theorem is_line_long (n : Nat) (h : n + 1 < MAXLINE) :
    is_line (List.replicate n 'a' ++ ['\n']) := by
  left
  refine ⟨by simp, ?_, by simpa using h⟩
  rw [List.dropLast_concat]
  exact not_mem_replicate_a _ _ (by decide)

theorem mem_long_line (n : Nat) (c : Char) (h : c ∈ List.replicate n 'a' ++ ['\n']) :
    c = 'a' ∨ c = '\n' := by
  simp only [List.mem_append, List.mem_replicate, List.mem_singleton] at h
  rcases h with h | h
  · exact Or.inl h.2
  · exact Or.inr h

theorem not_hop_header_long (n : Nat) : ¬ hop_header (List.replicate n 'a' ++ ['\n']) := by
  have hnul : '\x00' ∉ List.replicate n 'a' ++ ['\n'] := fun h => by
    rcases mem_long_line n _ h with e | e <;> revert e <;> decide
  have hcol : ':' ∉ List.replicate n 'a' ++ ['\n'] := fun h => by
    rcases mem_long_line n _ h with e | e <;> revert e <;> decide
  unfold hop_header
  rw [cstr_of_no_nul _ hnul]
  intro h
  rcases h with h | h | h | h <;> exact hcol (h.subset (by decide))

theorem long_line_ne_crlf (n : Nat) : List.replicate n 'a' ++ ['\n'] ≠ "\r\n".toList := by
  intro h
  have : '\r' ∈ List.replicate n 'a' ++ ['\n'] := by
    rw [h]
    decide
  rcases mem_long_line n _ this with e | e <;> revert e <;> decide

/-- A header block made of one long line and the terminator: the terminator
trips the overflow check, and the function returns `false`. -/
theorem read_requesthdrs_long (n : Nat) (h1 : n + 1 < MAXLINE) (h2 : MAXLINE ≤ n + 3)
    (header : List Char) :
    read_requesthdrs ⟨List.replicate n 'a' ++ "\n".toList ++ "\r\n".toList, false⟩ header
      = ⟨false, memcpy header 0 (List.replicate n 'a' ++ ['\n']), n + 1, ⟨[], false⟩⟩ := by
  have hl := is_line_long n h1
  have hk : kept_lines [List.replicate n 'a' ++ ['\n']] = [List.replicate n 'a' ++ ['\n']] :=
    kept_lines_cons_keep _ [] (not_hop_header_long n)
  have e : List.replicate n 'a' ++ "\n".toList ++ "\r\n".toList
      = [List.replicate n 'a' ++ ['\n']].flatten ++ "\r\n".toList := by
    simp
  have hfit : hdr_fits 0 [List.replicate n 'a' ++ ['\n']] := by
    refine ⟨?_, trivial⟩
    simpa using h1
  unfold read_requesthdrs
  rw [e, read_requesthdrs_loop_lines [List.replicate n 'a' ++ ['\n']] "\r\n".toList false _
    header 0 (fun l hl2 => by
      simp only [List.mem_singleton] at hl2
      subst hl2
      exact ⟨hl, long_line_ne_crlf n⟩) hfit (by simp) (by simp), hk]
  have hcr : is_line "\r\n".toList := by decide
  have e2 : "\r\n".toList = "\r\n".toList ++ [] := by simp
  have e3 : "\r\n".toList.length + 1 = 2 + 1 := rfl
  rw [e3]
  conv_lhs => rw [e2]
  rw [read_requesthdrs_loop_step _ _ [] false _ _ hcr, if_pos]
  · simp
  · have : "\r\n".toList.length = 2 := rfl
    simp only [List.flatten_cons, List.flatten_nil, List.append_nil, List.length_append,
      List.length_replicate, List.length_singleton, this]
    omega

/-- The output of the long line alone, read again: the stream ends before a
terminator, and the function returns `true`. -/
theorem read_requesthdrs_long_again (n : Nat) (h1 : n + 1 < MAXLINE) (header : List Char) :
    (read_requesthdrs ⟨List.replicate n 'a' ++ ['\n'], false⟩ header).ret = true := by
  have hl := is_line_long n h1
  have hk : kept_lines [List.replicate n 'a' ++ ['\n']] = [List.replicate n 'a' ++ ['\n']] :=
    kept_lines_cons_keep _ [] (not_hop_header_long n)
  have e : List.replicate n 'a' ++ ['\n']
      = [List.replicate n 'a' ++ ['\n']].flatten ++ [] := by
    simp
  have hfit : hdr_fits 0 [List.replicate n 'a' ++ ['\n']] := by
    refine ⟨?_, trivial⟩
    simpa using h1
  unfold read_requesthdrs
  rw [e, read_requesthdrs_loop_lines [List.replicate n 'a' ++ ['\n']] [] false _
    header 0 (fun l hl2 => by
      simp only [List.mem_singleton] at hl2
      subst hl2
      exact ⟨hl, long_line_ne_crlf n⟩) hfit (by simp) (by simp)]
  simp only [List.length_nil, Nat.zero_add]
  rw [read_requesthdrs_loop_eof]

theorem hdr_fits_kept (total : Nat) (ls : List (List Char)) (h : hdr_fits total ls) :
    hdr_fits total (kept_lines ls) := by
  induction ls generalizing total with
  | nil => exact h
  | cons l ls ih =>
    by_cases hd : hop_header l
    · rw [kept_lines_cons_drop l ls hd]
      have := h.2
      rw [if_pos hd] at this
      exact ih total this
    · rw [kept_lines_cons_keep l ls hd]
      have := h.2
      rw [if_neg hd] at this
      refine ⟨h.1, ?_⟩
      rw [if_neg hd]
      exact ih _ this

theorem kept_lines_idem (ls : List (List Char)) : kept_lines (kept_lines ls) = kept_lines ls := by
  simp [kept_lines, List.filter_filter]

/-- When the terminator is reached, stripping is idempotent: the output, read
again, is accepted and reproduced. -/
theorem read_requesthdrs_idempotent_of_terminated (ls : List (List Char))
    (rest : List Char) (f : Bool) (header header2 : List Char)
    (hls : ∀ l ∈ ls, is_line l ∧ l ≠ "\r\n".toList)
    (hfit : hdr_fits 0 ls)
    (hterm : (kept_lines ls).flatten.length + 2 < MAXLINE) :
    read_requesthdrs
        ⟨(read_requesthdrs ⟨ls.flatten ++ ("\r\n".toList ++ rest), f⟩ header).header.take
          (read_requesthdrs ⟨ls.flatten ++ ("\r\n".toList ++ rest), f⟩ header).total, false⟩
        header2
      = ⟨false, memcpy header2 0 ((kept_lines ls).flatten ++ "\r\n".toList),
          ((kept_lines ls).flatten ++ "\r\n".toList).length, ⟨[], false⟩⟩ := by
  rw [read_requesthdrs_terminated ls rest f header hls hfit hterm]
  simp only [take_total_terminated]
  have hls2 : ∀ l ∈ kept_lines ls, is_line l ∧ l ≠ "\r\n".toList := fun l hl =>
    hls l (List.mem_of_mem_filter hl)
  have := read_requesthdrs_terminated (kept_lines ls) [] false header2 hls2
    (hdr_fits_kept 0 ls hfit) (by rw [kept_lines_idem]; exact hterm)
  rw [kept_lines_idem] at this
  simpa using this

/-! ## Facts about the request builder and the error responder -/

theorem error_body_length (cause errnum shortmsg longmsg : List Char) :
    (error_body cause errnum shortmsg longmsg).length
      = cause.length + errnum.length + shortmsg.length + longmsg.length + 163 := by
  simp [error_body]
  omega

theorem request_text_length (host path header : List Char) :
    (request_text host path header).length
      = path.length + host.length + header.length + 153 := by
  simp [request_text, header_user_agent]
  omega

theorem error_headers_length (errnum shortmsg : List Char) (bodylen : Nat) :
    (error_headers errnum shortmsg bodylen).length
      = errnum.length + shortmsg.length + (Nat.repr bodylen).length + 57 := by
  simp [error_headers]
  omega

/-- The error responder: nothing is written when the body or the headers do
not fit their buffers; otherwise the headers are written, then the body if the
first write succeeded. -/
theorem clienterror_eq (wok : Nat → Bool) (cause errnum shortmsg longmsg : List Char) :
    clienterror wok cause errnum shortmsg longmsg
      = if MAXBUF ≤ (error_body cause errnum shortmsg longmsg).length then []
        else if MAXLINE ≤ (error_headers errnum shortmsg
            (error_body cause errnum shortmsg longmsg).length).length then []
        else Event.client_write (error_headers errnum shortmsg
              (error_body cause errnum shortmsg longmsg).length)
          :: (if wok 0 then
                [Event.client_write (error_body cause errnum shortmsg longmsg)]
              else []) := by
  unfold clienterror
  simp only [snprintf_fst, ge_iff_le]
  split_ifs with h1 h2 h3
  · rfl
  · rfl
  · rw [snprintf_snd _ _ (by omega), snprintf_snd _ _ (by omega)]
    simp
  · rw [snprintf_snd _ _ (by omega)]
    simp

/-- A body shorter than `MAXBUF` has a length of at most four digits, so the
headers of a short status line fit the line buffer. -/
theorem error_headers_fit (errnum shortmsg : List Char) (bodylen : Nat)
    (hb : bodylen < MAXBUF) (hs : errnum.length + shortmsg.length + 61 < MAXLINE) :
    ¬ MAXLINE ≤ (error_headers errnum shortmsg bodylen).length := by
  have := Nat.repr_length bodylen 4 (by decide) (by
    have : MAXBUF = 8192 := rfl
    omega)
  rw [error_headers_length]
  omega

theorem cstr_append_nul (a t : List Char) (h : '\x00' ∉ a) :
    cstr (a ++ '\x00' :: t) = a := by
  induction a with
  | nil => simp [cstr]
  | cons c cs ih =>
    have hc : c ≠ '\x00' := fun e => h (by simp [e])
    have hcs : '\x00' ∉ cs := fun e => h (by simp [e])
    simp [cstr, hc, ih hcs]

/-- In a zeroed buffer the bytes copied to its start are followed by a NUL. -/
theorem cstr_memcpy_zeroed (n : Nat) (out : List Char) (h : '\x00' ∉ out)
    (hl : out.length < n) :
    cstr (memcpy (List.replicate n '\x00') 0 out) = out := by
  unfold memcpy
  obtain ⟨k, hk⟩ : ∃ k, n - out.length = k + 1 := ⟨n - out.length - 1, by omega⟩
  simp only [List.take_zero, List.nil_append, Nat.zero_add, List.drop_replicate, hk,
    List.replicate_succ]
  exact cstr_append_nul _ _ h

theorem request_gen_ret (limit : Nat) (host path header : List Char) :
    (request_gen limit host path header).ret
      = if limit ≤ (request_text host path header).length then -1 else 0 := by
  unfold request_gen
  simp only [snprintf_fst, ge_iff_le]

/-- A `GET` request whose URI parses and whose header block is accepted, on a
cache miss: `serve` reaches the request builder. -/
theorem serve_get_miss (env : Env) (uri : List Char) (X : Char) (hdrs : List Char)
    (f : Bool) (host port path : List Char)
    (hu : token uri) (hX : X = '0' ∨ X = '1')
    (hfit : (request_line "GET".toList uri X).length < MAXLINE)
    (hp : parse_uri uri = some (host, port, path))
    (hr : (read_requesthdrs ⟨hdrs, f⟩ env.header).ret = false)
    (hmiss : env.read_cache_begin (fingerprint host port path) = none) :
    serve env ⟨request_line "GET".toList uri X ++ hdrs, f⟩
      = Event.read_cache_begin (fingerprint host port path)
        :: serve_miss env (request_line "GET".toList uri X) "GET".toList host port path
          (read_requesthdrs ⟨hdrs, f⟩ env.header).header (fingerprint host port path) := by
  rw [serve_request_line env _ _ X hdrs f (by decide) hu hX hfit]
  unfold serve_request
  rw [if_neg (by decide), hp]
  simp only [hr, hmiss]
  rfl

/-- When the request builder fails, `serve` hands a 500 to the error responder
and stops. -/
theorem serve_get_gen_fails (env : Env) (uri : List Char) (X : Char) (hdrs : List Char)
    (f : Bool) (host port path : List Char)
    (hu : token uri) (hX : X = '0' ∨ X = '1')
    (hfit : (request_line "GET".toList uri X).length < MAXLINE)
    (hp : parse_uri uri = some (host, port, path))
    (hr : (read_requesthdrs ⟨hdrs, f⟩ env.header).ret = false)
    (hmiss : env.read_cache_begin (fingerprint host port path) = none)
    (hg : (request_gen MAXLINE host path
      (cstr (read_requesthdrs ⟨hdrs, f⟩ env.header).header)).ret = -1) :
    serve env ⟨request_line "GET".toList uri X ++ hdrs, f⟩
      = Event.read_cache_begin (fingerprint host port path)
        :: Event.read_cache_end (fingerprint host port path)
        :: (if MAXBUF ≤ (error_body (request_line "GET".toList uri X) "500".toList
              "Internal Server Error".toList
              "Proxy cannot generate new request".toList).length then []
            else Event.client_write (error_headers "500".toList
                "Internal Server Error".toList
                (error_body (request_line "GET".toList uri X) "500".toList
                  "Internal Server Error".toList
                  "Proxy cannot generate new request".toList).length)
              :: (if env.client_write_ok 0 then
                    [Event.client_write (error_body (request_line "GET".toList uri X)
                      "500".toList "Internal Server Error".toList
                      "Proxy cannot generate new request".toList)]
                  else [])) := by
  rw [serve_get_miss env uri X hdrs f host port path hu hX hfit hp hr hmiss]
  unfold serve_miss
  simp only [hg]
  rw [if_pos (by decide), clienterror_eq]
  by_cases hb : MAXBUF ≤ (error_body (request_line "GET".toList uri X) "500".toList
      "Internal Server Error".toList "Proxy cannot generate new request".toList).length
  · simp only [if_pos hb]
  · simp only [if_neg hb]
    rw [if_neg (error_headers_fit _ _ _ (by omega) (by decide))]

theorem read_requesthdrs_crlf (header rest : List Char) (f : Bool) :
    read_requesthdrs ⟨"\r\n".toList ++ rest, f⟩ header
      = ⟨false, memcpy header 0 "\r\n".toList, 2, ⟨rest, f⟩⟩ := by
  have := read_requesthdrs_terminated [] rest f header (by simp) trivial (by decide)
  simpa [kept_lines] using this

theorem token_long_uri (n : Nat) : token ("http://h/".toList ++ List.replicate n 'a') := by
  refine ⟨by simp, ?_⟩
  intro c hc
  simp only [List.mem_append, List.mem_replicate] at hc
  rcases hc with hc | hc
  · revert c
    decide
  · rw [hc.2]
    decide

theorem parse_uri_long_path (n : Nat) (h : n + 1 < MAXLINE) :
    parse_uri ("http://h/".toList ++ List.replicate n 'a')
      = some ("h".toList, "80".toList, '/' :: List.replicate n 'a') := by
  have := parse_uri_host_path "h".toList (List.replicate n 'a') (by decide) (by decide)
    (by decide) (by simpa using h)
  exact this

/-- A request line so long that the upstream request overflows and that the
body of the error response overflows as well: `serve` writes nothing. -/
theorem serve_long_request (n : Nat) (h1 : n + 24 < MAXLINE) (h2 : MAXLINE ≤ n + 157) :
    serve Env.offline ⟨request_line "GET".toList
        ("http://h/".toList ++ List.replicate n 'a') '1' ++ "\r\n".toList, false⟩
      = [Event.read_cache_begin
          (fingerprint "h".toList "80".toList ('/' :: List.replicate n 'a')),
        Event.read_cache_end
          (fingerprint "h".toList "80".toList ('/' :: List.replicate n 'a'))] := by
  have hlen : (request_line "GET".toList ("http://h/".toList ++ List.replicate n 'a')
      '1').length = n + 24 := by
    rw [request_line_length]
    simp
    omega
  have hhdr : read_requesthdrs ⟨"\r\n".toList, false⟩ Env.offline.header
      = ⟨false, memcpy (List.replicate MAXLINE '\x00') 0 "\r\n".toList, 2, ⟨[], false⟩⟩ := by
    have := read_requesthdrs_crlf Env.offline.header [] false
    simpa using this
  have hc : cstr (memcpy (List.replicate MAXLINE '\x00') 0 "\r\n".toList) = "\r\n".toList :=
    cstr_memcpy_zeroed MAXLINE _ (by decide) (by decide)
  have hg : (request_gen MAXLINE "h".toList ('/' :: List.replicate n 'a')
      (cstr (read_requesthdrs ⟨"\r\n".toList, false⟩ Env.offline.header).header)).ret
      = -1 := by
    rw [hhdr]
    simp only [hc]
    rw [request_gen_ret, request_text_length, if_pos]
    simp
    omega
  rw [serve_get_gen_fails Env.offline _ '1' _ false "h".toList "80".toList
    ('/' :: List.replicate n 'a') (token_long_uri n) (Or.inr rfl) (by rw [hlen]; exact h1)
    (parse_uri_long_path n (by omega)) (by rw [hhdr]) rfl hg]
  rw [if_pos]
  rw [error_body_length, hlen]
  have : MAXBUF = MAXLINE := rfl
  simp only [String.toList, List.length_cons, List.length_nil]
  omega

/-- A header block made of one long line and the terminator that fits the
buffer. -/
theorem read_requesthdrs_long_ok (n : Nat) (h1 : n + 3 < MAXLINE) (header : List Char) :
    read_requesthdrs ⟨List.replicate n 'a' ++ "\n".toList ++ "\r\n".toList, false⟩ header
      = ⟨false, memcpy header 0 (List.replicate n 'a' ++ "\n".toList ++ "\r\n".toList),
          n + 3, ⟨[], false⟩⟩ := by
  have hl := is_line_long n (by omega)
  have hk : kept_lines [List.replicate n 'a' ++ ['\n']] = [List.replicate n 'a' ++ ['\n']] :=
    kept_lines_cons_keep _ [] (not_hop_header_long n)
  have hfit : hdr_fits 0 [List.replicate n 'a' ++ ['\n']] := by
    refine ⟨?_, trivial⟩
    simp only [Nat.zero_add, List.length_append, List.length_replicate, List.length_singleton]
    omega
  have := read_requesthdrs_terminated [List.replicate n 'a' ++ ['\n']] [] false header
    (fun l hl2 => by
      simp only [List.mem_singleton] at hl2
      subst hl2
      exact ⟨hl, long_line_ne_crlf n⟩) hfit (by
      rw [hk]
      simp only [List.flatten_cons, List.flatten_nil, List.append_nil, List.length_append,
        List.length_replicate, List.length_singleton]
      omega)
  rw [hk] at this
  have e1 : "\n".toList = ['\n'] := rfl
  have e2 : ("\r\n".toList).length = 2 := rfl
  simpa [e1, e2, Nat.add_assoc] using this

/-- The request builder fails on the header block of one line of 8100 bytes. -/
theorem request_gen_long_header :
    (request_gen MAXLINE "x".toList "/".toList
      (cstr (read_requesthdrs
        ⟨List.replicate 8100 'a' ++ "\n".toList ++ "\r\n".toList, false⟩
        Env.offline.header).header)).ret = -1 := by
  rw [read_requesthdrs_long_ok 8100 (by decide)]
  have hn : '\x00' ∉ List.replicate 8100 'a' ++ "\n".toList ++ "\r\n".toList := by
    simp only [List.mem_append, List.mem_replicate, not_or]
    exact ⟨⟨fun h => absurd h.2 (by decide), by decide⟩, by decide⟩
  have hl : (List.replicate 8100 'a' ++ "\n".toList ++ "\r\n".toList).length = 8103 := by
    simp only [List.length_append, List.length_replicate]
    rfl
  have hc : cstr (memcpy Env.offline.header 0
      (List.replicate 8100 'a' ++ "\n".toList ++ "\r\n".toList))
      = List.replicate 8100 'a' ++ "\n".toList ++ "\r\n".toList :=
    cstr_memcpy_zeroed MAXLINE _ hn (by rw [hl]; decide)
  simp only [hc]
  rw [request_gen_ret, request_text_length, hl, if_pos (by decide)]

/-! ## Facts about the check of the request line -/

theorem dropWhile_head_false (p : Char → Bool) (l : List Char) (c : Char) (t : List Char)
    (h : l.dropWhile p = c :: t) : p c = false := by
  induction l with
  | nil => simp at h
  | cons x xs ih =>
    by_cases hx : p x = true
    · rw [List.dropWhile_cons_of_pos hx] at h
      exact ih h
    · rw [List.dropWhile_cons_of_neg hx] at h
      simp only [List.cons.injEq] at h
      rw [← h.1]
      simpa using hx

theorem takeWhile_ne_nil (p : Char → Bool) (c : Char) (t : List Char) (h : p c = true) :
    (c :: t).takeWhile p ≠ [] := by
  simp [List.takeWhile, h]

/-- The scan assigns its three receivers, with a version digit 0 or 1, exactly
on the lines of the lax grammar. -/
theorem lax_request_line_iff (s : List Char) :
    lax_request_line s
      ↔ (sscanf_request s).ret = 3
        ∧ ((sscanf_request s).version = '0' ∨ (sscanf_request s).version = '1') := by
  constructor
  · rintro ⟨ws0, m, ws1, u, ws2, X, tail, h0, hm, hm', h1, h1', hu, hu', h2, h2', hX, rfl⟩
    rw [sscanf_request_lax ws0 m ws1 u ws2 X tail h0 hm hm' h1 h1' hu hu' h2 h2']
    exact ⟨rfl, hX⟩
  · intro h
    unfold sscanf_request at h
    simp only at h
    -- the text after the leading white space
    cases hs1 : s.dropWhile isspace with
    | nil =>
      rw [hs1] at h
      simp at h
    | cons a s1 =>
      rw [hs1] at h
      simp only [reduceCtorEq, if_false] at h
      have ha : isspace a = false := dropWhile_head_false _ _ _ _ hs1
      cases hs2 : ((a :: s1).dropWhile (fun c => !isspace c)).dropWhile isspace with
      | nil =>
        rw [hs2] at h
        simp at h
      | cons b s2 =>
        rw [hs2] at h
        simp only [reduceCtorEq, if_false] at h
        have hb : isspace b = false := dropWhile_head_false _ _ _ _ hs2
        by_cases hp : "HTTP/1.".toList.isPrefixOf
            (((b :: s2).dropWhile (fun c => !isspace c)).dropWhile isspace) = true
        · rw [if_pos hp] at h
          obtain ⟨t, ht⟩ := List.isPrefixOf_iff_prefix.mp hp
          have hdrop : List.drop 7
              (((b :: s2).dropWhile (fun c => !isspace c)).dropWhile isspace) = t := by
            rw [← ht]
            rfl
          rw [hdrop] at h
          cases t with
          | nil => simp at h
          | cons X tail =>
            simp only [true_and] at h
            -- the two runs of white space between the tokens are not empty
            have hd1 : (a :: s1).dropWhile (fun c => !isspace c) ≠ [] := by
              intro e
              rw [e] at hs2
              simp at hs2
            obtain ⟨w1, d1, hw1⟩ := List.exists_cons_of_ne_nil hd1
            have hw1s : isspace w1 = true := by
              have := dropWhile_head_false _ _ _ _ hw1
              simpa using this
            have hd2 : (b :: s2).dropWhile (fun c => !isspace c) ≠ [] := by
              intro e
              rw [e] at ht
              simp at ht
            obtain ⟨w2, d2, hw2⟩ := List.exists_cons_of_ne_nil hd2
            have hw2s : isspace w2 = true := by
              have := dropWhile_head_false _ _ _ _ hw2
              simpa using this
            refine ⟨s.takeWhile isspace, (a :: s1).takeWhile (fun c => !isspace c),
              (w1 :: d1).takeWhile isspace, (b :: s2).takeWhile (fun c => !isspace c),
              (w2 :: d2).takeWhile isspace, X, tail, ?_, ?_, ?_, ?_, ?_, ?_, ?_, ?_, ?_,
              h, ?_⟩
            · exact fun c hc => List.mem_takeWhile_imp hc
            · exact takeWhile_ne_nil _ _ _ (by simp [ha])
            · intro c hc
              have := List.mem_takeWhile_imp hc
              simpa using this
            · exact takeWhile_ne_nil _ _ _ hw1s
            · exact fun c hc => List.mem_takeWhile_imp hc
            · exact takeWhile_ne_nil _ _ _ (by simp [hb])
            · intro c hc
              have := List.mem_takeWhile_imp hc
              simpa using this
            · exact takeWhile_ne_nil _ _ _ hw2s
            · exact fun c hc => List.mem_takeWhile_imp hc
            · have e3 : (w2 :: d2).takeWhile isspace ++ ("HTTP/1.".toList ++ X :: tail)
                  = w2 :: d2 := by
                rw [ht, ← hw2]
                exact List.takeWhile_append_dropWhile _ _
              have e2 : (b :: s2).takeWhile (fun c => !isspace c) ++ (w2 :: d2) = b :: s2 := by
                rw [← hw2]
                exact List.takeWhile_append_dropWhile _ _
              have e1 : (w1 :: d1).takeWhile isspace ++ (b :: s2) = w1 :: d1 := by
                rw [← hs2, hw1]
                exact List.takeWhile_append_dropWhile _ _
              have e0 : (a :: s1).takeWhile (fun c => !isspace c) ++ (w1 :: d1) = a :: s1 := by
                rw [← hw1]
                exact List.takeWhile_append_dropWhile _ _
              rw [e3, e2, e1, e0, ← hs1]
              exact (List.takeWhile_append_dropWhile _ _).symm
        · rw [if_neg hp] at h
          simp at h

/-- A line of the strict grammar is a line of the lax grammar. -/
theorem lax_of_request_line (m u : List Char) (X : Char)
    (hm : token m) (hu : token u) (hX : X = '0' ∨ X = '1') :
    lax_request_line (request_line m u X) :=
  ⟨[], m, [' '], u, [' '], X, "\r\n".toList, by simp, hm.1, fun c hc => (hm.2 c hc).1,
    by simp, by simp; decide, hu.1, fun c hc => (hu.2 c hc).1, by simp, by simp; decide, hX,
    by simp [request_line]⟩

/-- A first line outside the lax grammar is handed to the error responder with
the status 400. -/
theorem serve_rejects (env : Env) (rio : rio_t)
    (hr : 0 < (rio_readlineb rio MAXLINE).ret)
    (hl : ¬ lax_request_line (cstr (rio_readlineb rio MAXLINE).buf)) :
    serve env rio
      = clienterror env.client_write_ok (cstr (rio_readlineb rio MAXLINE).buf) "400".toList
          "Bad Request".toList "Proxy received a malformed request".toList := by
  unfold serve
  simp only
  rw [if_neg (by omega), if_pos]
  by_contra hc
  apply hl
  rw [lax_request_line_iff]
  constructor
  · by_contra h3
    exact hc (Or.inl h3)
  · by_contra hv
    apply hc
    right
    constructor
    · exact fun e => hv (Or.inl e)
    · exact fun e => hv (Or.inr e)

/-- A first line of the lax grammar passes the check. -/
theorem serve_accepts (env : Env) (rio : rio_t)
    (hr : 0 < (rio_readlineb rio MAXLINE).ret)
    (hl : lax_request_line (cstr (rio_readlineb rio MAXLINE).buf)) :
    serve env rio
      = serve_request env (cstr (rio_readlineb rio MAXLINE).buf)
          (sscanf_request (cstr (rio_readlineb rio MAXLINE).buf)).method
          (sscanf_request (cstr (rio_readlineb rio MAXLINE).buf)).uri
          (rio_readlineb rio MAXLINE).rio := by
  rw [lax_request_line_iff] at hl
  unfold serve
  simp only
  rw [if_neg (by omega), if_neg]
  intro hc
  rcases hc with hc | hc
  · exact hc hl.1
  · rcases hl.2 with e | e
    · exact hc.1 e
    · exact hc.2 e

theorem sscanf_request_single (m ws : List Char)
    (hm : m ≠ []) (hm' : ∀ c ∈ m, isspace c = false) (hws : ∀ c ∈ ws, isspace c = true) :
    (sscanf_request (m ++ ws)).ret = 1 := by
  obtain ⟨m0, mt, rfl⟩ := List.exists_cons_of_ne_nil hm
  have hm0 : isspace m0 = false := hm' m0 (by simp)
  have nm : ∀ c ∈ m0 :: mt, (fun c => !isspace c) c = true := fun c hc => by
    simp [hm' c hc]
  have s1 : (m0 :: mt ++ ws).dropWhile isspace = m0 :: mt ++ ws := by
    simp [List.dropWhile, hm0]
  have s2 : ((m0 :: mt ++ ws).dropWhile (fun c => !isspace c)).dropWhile isspace = [] := by
    cases ws with
    | nil =>
      have := split_run_end (fun c => !isspace c) (m0 :: mt) nm
      simp only [List.append_nil]
      rw [this.2]
      rfl
    | cons w wt =>
      have hw : isspace w = true := hws w (by simp)
      have := split_run (fun c => !isspace c) (m0 :: mt) w wt nm (by simp [hw])
      rw [this.2]
      exact (split_run_end isspace (w :: wt) hws).2
  unfold sscanf_request
  simp only [s1, s2]
  simp

/-- A first line made of one long token: the body of the 400 response
overflows `MAXBUF`, and nothing is written. -/
theorem serve_long_line (env : Env) (n : Nat) (h1 : n + 3 < MAXLINE)
    (h2 : MAXBUF ≤ n + 214) :
    serve env ⟨List.replicate (n + 1) 'a' ++ "\r\n".toList, false⟩ = [] := by
  have hnl : '\n' ∉ List.replicate (n + 1) 'a' ++ ['\r'] := by
    simp only [List.mem_append, List.mem_replicate, List.mem_singleton, not_or]
    exact ⟨fun h => absurd h.2 (by decide), by decide⟩
  have hnul : '\x00' ∉ (List.replicate (n + 1) 'a' ++ ['\r']) ++ ['\n'] := by
    simp only [List.mem_append, List.mem_replicate, List.mem_singleton, not_or]
    exact ⟨⟨fun h => absurd h.2 (by decide), by decide⟩, by decide⟩
  have e : List.replicate (n + 1) 'a' ++ "\r\n".toList
      = (List.replicate (n + 1) 'a' ++ ['\r']) ++ '\n' :: [] := by
    simp
  have hread := rio_readlineb_line MAXLINE (List.replicate (n + 1) 'a' ++ ['\r']) [] false
    hnl (by simp; omega)
  have hsc : (sscanf_request (List.replicate (n + 1) 'a' ++ "\r\n".toList)).ret = 1 :=
    sscanf_request_single (List.replicate (n + 1) 'a') "\r\n".toList (by simp)
      (fun c hc => by
        rw [List.eq_of_mem_replicate hc]
        decide)
      (by decide)
  have hlen : ((List.replicate (n + 1) 'a' ++ ['\r']) ++ ['\n']).length = n + 3 := by
    simp
  have hret : 0 < (rio_readlineb
      ⟨(List.replicate (n + 1) 'a' ++ ['\r']) ++ '\n' :: [], false⟩ MAXLINE).ret := by
    rw [hread, hlen]
    show (0 : Int) < ((n + 3 : Nat) : Int)
    omega
  rw [e, serve_rejects env _ hret]
  · rw [hread, cstr_of_no_nul _ hnul, clienterror_eq, if_pos]
    rw [error_body_length, hlen]
    simp only [String.toList, List.length_cons, List.length_nil]
    omega
  · rw [hread, cstr_of_no_nul _ hnul, lax_request_line_iff]
    intro hc
    have e2 : (List.replicate (n + 1) 'a' ++ ['\r']) ++ ['\n']
        = List.replicate (n + 1) 'a' ++ "\r\n".toList := by simp
    rw [e2, hsc] at hc
    exact absurd hc.1 (by decide)

/-! ## Facts about the upstream request -/

theorem parse_port_mem (a p host port path : List Char)
    (h : parse_port a p = some (host, port, path)) :
    (∀ c ∈ host, c ∈ a) ∧ path = p := by
  unfold parse_port at h
  split at h
  · rename_i pos _
    simp only at h
    split_ifs at h
    simp only [Option.some.injEq, Prod.mk.injEq] at h
    refine ⟨fun c hc => ?_, h.2.2.symm⟩
    rw [← h.1] at hc
    exact List.mem_of_mem_take hc
  · simp only [Option.some.injEq, Prod.mk.injEq] at h
    refine ⟨fun c hc => ?_, h.2.2.symm⟩
    rw [← h.1] at hc
    exact hc

/-- The host and the path returned by the parser are made of bytes of the URI,
the leading slash of the path apart. -/
theorem parse_uri_mem (uri host port path : List Char)
    (h : parse_uri uri = some (host, port, path)) :
    (∀ c ∈ host, c ∈ uri) ∧ (∀ c ∈ path, c ∈ uri ∨ c = '/') := by
  unfold parse_uri at h
  split at h
  · simp at h
  · rename_i pos _
    split_ifs at h
    simp only at h
    split at h
    · split_ifs at h
      obtain ⟨h1, h2⟩ := parse_port_mem _ _ _ _ _ h
      constructor
      · intro c hc
        have := h1 c hc
        unfold snprintf at this
        exact List.mem_of_mem_drop (List.mem_of_mem_take this)
      · intro c hc
        rw [h2] at hc
        right
        revert hc
        revert c
        decide
    · rename_i p _
      split_ifs at h
      obtain ⟨h1, h2⟩ := parse_port_mem _ _ _ _ _ h
      constructor
      · intro c hc
        have := h1 c hc
        unfold snprintf at this
        exact List.mem_of_mem_drop (List.mem_of_mem_take (List.mem_of_mem_take this))
      · intro c hc
        rw [h2] at hc
        unfold snprintf at hc
        have := List.mem_of_mem_take hc
        simp only [List.mem_cons] at this
        rcases this with e | e
        · exact Or.inr e
        · exact Or.inl (List.mem_of_mem_drop (List.mem_of_mem_drop e))

theorem split_lines_line (body rest : List Char) (h : '\n' ∉ body) :
    split_lines (body ++ '\n' :: rest) = (body ++ ['\n']) :: split_lines rest := by
  induction body with
  | nil => simp [split_lines]
  | cons c cs ih =>
    have hc : c ≠ '\n' := fun e => h (by simp [e])
    have hcs : '\n' ∉ cs := fun e => h (by simp [e])
    simp [split_lines, hc, ih hcs]

/-- Lines that end with their only newline are recovered from their
concatenation. -/
theorem split_lines_flatten (ks : List (List Char)) (rest : List Char)
    (h : ∀ l ∈ ks, l.getLast? = some '\n' ∧ '\n' ∉ l.dropLast) :
    split_lines (ks.flatten ++ rest) = ks ++ split_lines rest := by
  induction ks with
  | nil => simp
  | cons l ks ih =>
    have hl := h l (by simp)
    have hks : ∀ x ∈ ks, x.getLast? = some '\n' ∧ '\n' ∉ x.dropLast := fun x hx =>
      h x (by simp [hx])
    have e : l = l.dropLast ++ ['\n'] :=
      (List.dropLast_append_getLast? '\n' (by simpa using hl.1)).symm
    have e2 : (l :: ks).flatten ++ rest = l.dropLast ++ '\n' :: (ks.flatten ++ rest) := by
      conv_lhs => rw [e]
      simp
    rw [e2, split_lines_line _ _ hl.2, ih hks, ← e]
    rfl

theorem length_le_flatten (l : List Char) (ks : List (List Char)) (h : l ∈ ks) :
    l.length ≤ ks.flatten.length := by
  induction ks with
  | nil => simp at h
  | cons k ks ih =>
    simp only [List.mem_cons] at h
    simp only [List.flatten_cons, List.length_append]
    rcases h with rfl | h
    · omega
    · have := ih h
      omega

theorem not_mem_flatten (c : Char) (ks : List (List Char)) (h : ∀ l ∈ ks, c ∉ l) :
    c ∉ ks.flatten := by
  intro hc
  obtain ⟨l, hl, hcl⟩ := List.mem_flatten.mp hc
  exact h l hl hcl

theorem cstr_memcpy_terminated (header out : List Char) (h : '\x00' ∉ out)
    (hn : (header.drop out.length).head? = some '\x00') :
    cstr (memcpy header 0 out) = out := by
  unfold memcpy
  cases hd : header.drop out.length with
  | nil =>
    rw [hd] at hn
    simp at hn
  | cons x t =>
    rw [hd] at hn
    simp only [List.head?_cons, Option.some.injEq] at hn
    subst hn
    simp only [List.take_zero, List.nil_append, Nat.zero_add, hd]
    exact cstr_append_nul _ _ h

theorem request_gen_request (limit : Nat) (host path header : List Char)
    (h : (request_gen limit host path header).ret = 0) :
    (request_gen limit host path header).request = request_text host path header := by
  rw [request_gen_ret] at h
  split_ifs at h with hl
  unfold request_gen
  exact snprintf_snd _ _ (by omega)

/-- On a cache miss, with the upstream request built and the origin reached,
`serve` sends the request to the origin. -/
theorem serve_get_forward (env : Env) (uri : List Char) (X : Char) (hdrs : List Char)
    (f : Bool) (host port path : List Char) (rio_server : rio_t)
    (hu : token uri) (hX : X = '0' ∨ X = '1')
    (hfit : (request_line "GET".toList uri X).length < MAXLINE)
    (hp : parse_uri uri = some (host, port, path))
    (hr : (read_requesthdrs ⟨hdrs, f⟩ env.header).ret = false)
    (hmiss : env.read_cache_begin (fingerprint host port path) = none)
    (hg : (request_gen MAXLINE host path
      (cstr (read_requesthdrs ⟨hdrs, f⟩ env.header).header)).ret = 0)
    (ho : env.open_clientfd host port = some rio_server) :
    ∃ tl, serve env ⟨request_line "GET".toList uri X ++ hdrs, f⟩
      = Event.read_cache_begin (fingerprint host port path)
        :: Event.read_cache_end (fingerprint host port path)
        :: Event.open_clientfd host port
        :: Event.server_write (cstr (request_text host path
            (cstr (read_requesthdrs ⟨hdrs, f⟩ env.header).header)))
        :: tl := by
  rw [serve_get_miss env uri X hdrs f host port path hu hX hfit hp hr hmiss]
  unfold serve_miss
  simp only [hg, ho, request_gen_request _ _ _ _ hg]
  rw [if_neg (by decide)]
  exact ⟨_, rfl⟩

theorem request_text_nested (host path header : List Char) :
    request_text host path header
      = ("GET ".toList ++ path ++ " HTTP/1.0\r".toList) ++ '\n'
        :: (("Host: ".toList ++ host ++ "\r".toList) ++ '\n'
        :: ("Connection: close\r".toList ++ '\n'
        :: ("Proxy-Connection: close\r".toList ++ '\n'
        :: (("User-Agent: ".toList ++ header_user_agent ++ "\r".toList) ++ '\n'
        :: header)))) := by
  simp [request_text]

/-- The lines of the upstream request. -/
theorem split_lines_request_text (host path : List Char) (ks : List (List Char))
    (hpath : '\n' ∉ path) (hhost : '\n' ∉ host)
    (hks : ∀ l ∈ ks, l.getLast? = some '\n' ∧ '\n' ∉ l.dropLast) :
    split_lines (request_text host path (ks.flatten ++ "\r\n".toList))
      = ("GET ".toList ++ path ++ " HTTP/1.0\r\n".toList)
        :: ("Host: ".toList ++ host ++ "\r\n".toList)
        :: "Connection: close\r\n".toList
        :: "Proxy-Connection: close\r\n".toList
        :: ("User-Agent: ".toList ++ header_user_agent ++ "\r\n".toList)
        :: (ks ++ ["\r\n".toList]) := by
  have h1 : '\n' ∉ "GET ".toList ++ path ++ " HTTP/1.0\r".toList := by
    simp only [List.mem_append, not_or]
    exact ⟨⟨by decide, hpath⟩, by decide⟩
  have h2 : '\n' ∉ "Host: ".toList ++ host ++ "\r".toList := by
    simp only [List.mem_append, not_or]
    exact ⟨⟨by decide, hhost⟩, by decide⟩
  have h3 : '\n' ∉ "Connection: close\r".toList := by decide
  have h4 : '\n' ∉ "Proxy-Connection: close\r".toList := by decide
  have h5 : '\n' ∉ "User-Agent: ".toList ++ header_user_agent ++ "\r".toList := by decide
  have h6 : split_lines "\r\n".toList = ["\r\n".toList] := by decide
  rw [request_text_nested, split_lines_line _ _ h1, split_lines_line _ _ h2,
    split_lines_line _ _ h3, split_lines_line _ _ h4, split_lines_line _ _ h5,
    split_lines_flatten ks _ hks, h6]
  simp

/-- Among the lines of the upstream request exactly one begins with `Host:`
and exactly one with `User-Agent:`, when none of the pass-through lines
contains these names. -/
theorem request_text_fixed_lines (host path : List Char) (ks : List (List Char))
    (hpath : '\n' ∉ path) (hhost : '\n' ∉ host)
    (hks : ∀ l ∈ ks, l.getLast? = some '\n' ∧ '\n' ∉ l.dropLast)
    (hh : ∀ l ∈ ks, ¬ "Host:".toList <:+: l)
    (hua : ∀ l ∈ ks, ¬ "User-Agent:".toList <:+: l) :
    (split_lines (request_text host path (ks.flatten ++ "\r\n".toList))).filter
        (fun l => "Host:".toList.isPrefixOf l)
      = ["Host: ".toList ++ host ++ "\r\n".toList]
    ∧ (split_lines (request_text host path (ks.flatten ++ "\r\n".toList))).filter
        (fun l => "User-Agent:".toList.isPrefixOf l)
      = ["User-Agent: ".toList ++ header_user_agent ++ "\r\n".toList] := by
  rw [split_lines_request_text host path ks hpath hhost hks]
  constructor
  · simp [List.filter_cons, List.isPrefixOf, header_user_agent]
    exact fun l hl hp => hh l hl hp.isInfix
  · simp [List.filter_cons, List.isPrefixOf, header_user_agent]
    exact fun l hl hp => hua l hl hp.isInfix

/-! ## Facts about the method check -/

theorem token_replicate_a (n : Nat) : token (List.replicate (n + 1) 'a') := by
  refine ⟨by simp, ?_⟩
  intro c hc
  rw [List.eq_of_mem_replicate hc]
  decide

/-- A well-formed request line whose method is not `GET` is handed to the
error responder with the status 501 and the method as cause. -/
theorem serve_method_rejected (env : Env) (m u : List Char) (X : Char)
    (rest : List Char) (f : Bool)
    (hm : token m) (hu : token u) (hX : X = '0' ∨ X = '1')
    (hfit : (request_line m u X).length < MAXLINE) (hne : m ≠ "GET".toList) :
    serve env ⟨request_line m u X ++ rest, f⟩
      = if MAXBUF ≤ (error_body m "501".toList "Not Implemented".toList
            "Proxy does not implement this method".toList).length then []
        else Event.client_write (error_headers "501".toList "Not Implemented".toList
            (error_body m "501".toList "Not Implemented".toList
              "Proxy does not implement this method".toList).length)
          :: (if env.client_write_ok 0 then
                [Event.client_write (error_body m "501".toList "Not Implemented".toList
                  "Proxy does not implement this method".toList)]
              else []) := by
  have hm0 : '\x00' ∉ m := fun hc => (hm.2 _ hc).2 rfl
  have hcmp : strncmp m "GET".toList 4 ≠ 0 := fun h0 =>
    hne (eq_of_strncmp_eq_zero m "GET".toList 4 hm0 (by decide) (by decide) h0)
  rw [serve_request_line env m u X rest f hm hu hX hfit]
  unfold serve_request
  rw [if_pos hcmp, clienterror_eq]
  by_cases hb : MAXBUF ≤ (error_body m "501".toList "Not Implemented".toList
      "Proxy does not implement this method".toList).length
  · simp only [if_pos hb]
  · simp only [if_neg hb]
    rw [if_neg (error_headers_fit _ _ _ (by omega) (by decide))]

/-- A method token so long that the body of the 501 response overflows
`MAXBUF`: nothing is written. -/
theorem serve_long_method (env : Env) (n : Nat) (h1 : n + 22 < MAXLINE)
    (h2 : MAXBUF ≤ n + 218) :
    serve env ⟨request_line (List.replicate (n + 1) 'a') "http://x/".toList '1'
        ++ "\r\n".toList, false⟩ = [] := by
  have hne : List.replicate (n + 1) 'a' ≠ "GET".toList := by
    intro h
    have : 'G' ∈ List.replicate (n + 1) 'a' := by
      rw [h]
      decide
    exact absurd (List.eq_of_mem_replicate this) (by decide)
  have hlen : (request_line (List.replicate (n + 1) 'a') "http://x/".toList '1').length
      = n + 22 := by
    rw [request_line_length]
    simp
  rw [serve_method_rejected env _ _ '1' _ false (token_replicate_a n) (by decide)
    (Or.inr rfl) (by rw [hlen]; exact h1) hne, if_pos]
  rw [error_body_length]
  simp only [List.length_replicate, String.toList, List.length_cons, List.length_nil]
  omega

theorem infix_append_left (x a b : List Char) (h : x <:+: a) : x <:+: a ++ b :=
  h.trans (List.prefix_append a b).isInfix

/-! ## Facts about the read sessions -/

theorem clienterror_no_cache_read (wok : Nat → Bool)
    (cause errnum shortmsg longmsg : List Char) :
    (clienterror wok cause errnum shortmsg longmsg).filter is_cache_read = [] := by
  rw [clienterror_eq]
  split_ifs <;> simp [is_cache_read]

theorem serve_finish_no_cache_read (env : Env) (req : List Char) (ms : Bool)
    (res_buf : List Char) (res_len : Nat) :
    (serve_finish env req ms res_buf res_len).filter is_cache_read = [] := by
  unfold serve_finish save_cache
  split_ifs <;> simp [is_cache_read]

theorem serve_tee_zero (env : Env) (req : List Char) (ms : Bool) (rio : rio_t) (k : Nat)
    (res_buf : List Char) (res_len : Nat) :
    serve_tee env req ms 0 rio k res_buf res_len = [] := rfl

/-- One iteration of the tee loop, on the events. -/
theorem serve_tee_succ (env : Env) (req : List Char) (ms : Bool) (fuel : Nat) (rio : rio_t)
    (k : Nat) (res_buf : List Char) (res_len : Nat) :
    serve_tee env req ms (fuel + 1) rio k res_buf res_len
      = (let r := rio_readlineb rio MAXLINE
        if r.ret > 0 then
          let line_len := r.ret.toNat
          Event.client_write (r.buf.take line_len) ::
            (if env.client_write_ok k then
              serve_tee env req ms fuel r.rio (k + 1)
                (if ms ∧ res_len + line_len < MAX_OBJECT_SIZE then
                  memcpy res_buf res_len (r.buf.take line_len)
                 else res_buf)
                (res_len + line_len)
            else [Event.free_res_buf, Event.close_server])
        else serve_finish env req ms res_buf res_len) := by
  unfold serve_tee
  rw [serve_tee_run]
  simp only
  split_ifs <;> rfl

theorem serve_tee_no_cache_read (env : Env) (req : List Char) (ms : Bool) (fuel : Nat)
    (rio : rio_t) (k : Nat) (res_buf : List Char) (res_len : Nat) :
    (serve_tee env req ms fuel rio k res_buf res_len).filter is_cache_read = [] := by
  induction fuel generalizing rio k res_buf res_len with
  | zero => simp [serve_tee_zero]
  | succ n ih =>
    rw [serve_tee_succ]
    simp only
    by_cases h : (rio_readlineb rio MAXLINE).ret > 0
    · rw [if_pos h]
      by_cases hk : env.client_write_ok k = true
      · rw [if_pos hk]
        simp only [List.filter_cons, is_cache_read, Bool.false_eq_true, if_false, ih]
      · rw [if_neg hk]
        simp [is_cache_read]
    · rw [if_neg h]
      exact serve_finish_no_cache_read _ _ _ _ _

/-- After the `read_cache_end` of the miss branch no read session is opened or
closed. -/
theorem serve_miss_sessions (env : Env) (buf method host port path header req : List Char) :
    ∃ rest, serve_miss env buf method host port path header req
        = Event.read_cache_end req :: rest
      ∧ rest.filter is_cache_read = [] := by
  unfold serve_miss
  refine ⟨_, rfl, ?_⟩
  simp only
  by_cases hg : (request_gen MAXLINE host path (cstr header)).ret < 0
  · rw [if_pos hg]
    exact clienterror_no_cache_read _ _ _ _ _
  · rw [if_neg hg]
    cases env.open_clientfd host port with
    | none =>
      simp only [List.filter_cons, is_cache_read, Bool.false_eq_true, if_false,
        clienterror_no_cache_read]
    | some rio_server =>
      by_cases hw : env.server_write_ok = true
      · simp only [hw, if_true, List.filter_cons, is_cache_read, Bool.false_eq_true,
          if_false, serve_tee_no_cache_read]
      · simp only [hw, if_false, List.filter_cons, is_cache_read, Bool.false_eq_true,
          List.filter_append, clienterror_no_cache_read, List.filter_nil, List.append_nil]

/-! ## Facts about the tee loop -/

theorem rio_readlineb_take (rio : rio_t) (maxlen : Nat)
    (h : 0 < (rio_readlineb rio maxlen).ret) :
    (rio_readlineb rio maxlen).buf.take (rio_readlineb rio maxlen).ret.toNat
      = (rio_readlineb rio maxlen).buf := by
  rw [rio_readlineb_ret rio maxlen h]
  simp

theorem rio_readlineb_toNat (rio : rio_t) (maxlen : Nat)
    (h : 0 < (rio_readlineb rio maxlen).ret) :
    (rio_readlineb rio maxlen).ret.toNat = (rio_readlineb rio maxlen).buf.length := by
  rw [rio_readlineb_ret rio maxlen h]
  simp

theorem tee_scratch_snd (ms : Bool) (buf : List Char) (len : Nat) (lines : List (List Char)) :
    (tee_scratch ms buf len lines).2 = len + lines.flatten.length := by
  unfold tee_scratch
  induction lines generalizing buf len with
  | nil => simp
  | cons l ls ih =>
    simp only [List.foldl_cons, List.flatten_cons, List.length_append]
    rw [tee_step, ih]
    omega

theorem tee_scratch_cons (ms : Bool) (buf : List Char) (len : Nat) (l : List Char)
    (ls : List (List Char)) :
    tee_scratch ms buf len (l :: ls)
      = tee_scratch ms
          (if ms ∧ len + l.length < MAX_OBJECT_SIZE then memcpy buf len l else buf)
          (len + l.length) ls := by
  simp [tee_scratch, tee_step]

/-- The tee loop when no write to the client fails: every line read from the
origin is written to the client, then the end of `serve` runs on the scratch
the loop has filled. -/
theorem serve_tee_relay (env : Env) (req : List Char) (ms : Bool)
    (hw : ∀ j, env.client_write_ok j = true)
    (fuel : Nat) (rio : rio_t) (k : Nat) (buf : List Char) (len : Nat)
    (hf : rio.data.length < fuel) :
    serve_tee env req ms fuel rio k buf len
      = (read_lines fuel rio).map Event.client_write
        ++ serve_finish env req ms (tee_scratch ms buf len (read_lines fuel rio)).1
            (tee_scratch ms buf len (read_lines fuel rio)).2 := by
  induction fuel generalizing rio k buf len with
  | zero => simp at hf
  | succ n ih =>
    rw [serve_tee_succ, read_lines]
    simp only
    by_cases h : (rio_readlineb rio MAXLINE).ret > 0
    · have hs := rio_readlineb_shrinks rio MAXLINE h
      rw [if_pos h, if_pos h, if_pos (hw k), tee_scratch_cons]
      simp only [List.map_cons, List.cons_append]
      rw [ih _ _ _ _ (by omega)]
      simp only [rio_readlineb_toNat rio MAXLINE h, List.take_length]
    · rw [if_neg h, if_neg h]
      simp [tee_scratch]

theorem rio_scan_exhausted (n : Nat) (s : List Char)
    (h : (rio_scan n s).1.getLast? ≠ some '\n' ∧ (rio_scan n s).1.length < n) :
    (rio_scan n s).2 = [] := by
  induction n generalizing s with
  | zero => simp at h
  | succ n ih =>
    cases s with
    | nil => simp [rio_scan]
    | cons c cs =>
      by_cases hc : c = '\n'
      · simp [rio_scan, hc] at h
      · simp only [rio_scan, if_neg hc] at h ⊢
        apply ih
        constructor
        · intro hl
          apply h.1
          cases hr : (rio_scan n cs).1 with
          | nil => rw [hr] at hl; simp at hl
          | cons x xs =>
            rw [hr] at hl
            simp only [List.getLast?_cons_cons]
            exact hl
        · simpa using h.2

/-- Reading from a stream that does not end with an error: the bytes returned
and the bytes left are the stream, and nothing is returned only at its end. -/
theorem rio_readlineb_no_error (rio : rio_t) (maxlen : Nat) (he : rio.fails = false)
    (hm : 1 < maxlen) :
    (rio_readlineb rio maxlen).buf ++ (rio_readlineb rio maxlen).rio.data = rio.data
    ∧ (rio_readlineb rio maxlen).rio.fails = false
    ∧ (rio_readlineb rio maxlen).ret = ((rio_readlineb rio maxlen).buf.length : Int)
    ∧ ((rio_readlineb rio maxlen).buf = [] → rio.data = []) := by
  obtain ⟨data, fails⟩ := rio
  simp only at he
  subst he
  have happ := rio_scan_append (maxlen - 1) data
  unfold rio_readlineb
  simp only
  by_cases h1 : (rio_scan (maxlen - 1) data).1.getLast? ≠ some '\n'
      ∧ (rio_scan (maxlen - 1) data).1.length < maxlen - 1
  · rw [if_pos h1]
    simp only [Bool.false_eq_true, if_false, List.append_nil]
    have h2 := rio_scan_exhausted _ _ h1
    rw [h2, List.append_nil] at happ
    exact ⟨happ, trivial, trivial, fun h => by rw [← happ, h]⟩
  · rw [if_neg h1]
    refine ⟨happ, rfl, rfl, fun h => ?_⟩
    exfalso
    apply h1
    simp only at h
    rw [h]
    exact ⟨by simp, by simp; omega⟩

/-- Without an I/O error the lines read are the whole stream. -/
theorem read_lines_flatten (fuel : Nat) (rio : rio_t) (hf : rio.data.length < fuel)
    (he : rio.fails = false) : (read_lines fuel rio).flatten = rio.data := by
  induction fuel generalizing rio with
  | zero => simp at hf
  | succ n ih =>
    rw [read_lines]
    obtain ⟨h1, h2, h3, h4⟩ := rio_readlineb_no_error rio MAXLINE he (by decide)
    by_cases h : (rio_readlineb rio MAXLINE).ret > 0
    · have hs := rio_readlineb_shrinks rio MAXLINE h
      rw [if_pos h, List.flatten_cons, rio_readlineb_take rio MAXLINE h,
        ih _ (by omega) h2]
      exact h1
    · rw [if_neg h]
      have hb : (rio_readlineb rio MAXLINE).buf = [] := by
        rw [h3] at h
        cases hr : (rio_readlineb rio MAXLINE).buf with
        | nil => rfl
        | cons x xs =>
          rw [hr] at h
          simp at h
      rw [h4 hb]
      rfl
theorem serve_finish_eq (env : Env) (req : List Char) (ms : Bool) (buf : List Char)
    (len : Nat) :
    serve_finish env req ms buf len
      = Event.close_server ::
          (if ms = true ∧ len < MAX_OBJECT_SIZE then
            (if env.malloc_heap_req = true then [Event.write_cache (cstr req) buf len]
             else [Event.free_res_buf])
           else [Event.free_res_buf]) := by
  unfold serve_finish save_cache
  by_cases h : ms = true ∧ len < MAX_OBJECT_SIZE
  · rw [if_pos h, if_pos h]
    by_cases hk : env.malloc_heap_req = true
    · simp [hk]
    · simp [hk]
  · rw [if_neg h, if_neg h]

theorem client_bytes_append (a b : List Event) :
    client_bytes (a ++ b) = client_bytes a ++ client_bytes b := by
  induction a with
  | nil => rfl
  | cons e t ih =>
    cases e <;> simp [client_bytes, ih]

theorem client_bytes_map (ls : List (List Char)) :
    client_bytes (ls.map Event.client_write) = ls.flatten := by
  induction ls with
  | nil => rfl
  | cons l t ih => simp [client_bytes, ih]

theorem client_bytes_serve_finish (env : Env) (req : List Char) (ms : Bool)
    (buf : List Char) (len : Nat) :
    client_bytes (serve_finish env req ms buf len) = [] := by
  rw [serve_finish_eq]
  split_ifs <;> rfl

/-- A `GET` request that reaches the origin, when no write fails: the trace of
`serve`. -/
theorem serve_get_relay (env : Env) (uri : List Char) (X : Char) (hdrs : List Char)
    (f : Bool) (host port path : List Char) (rio_server : rio_t)
    (hu : token uri) (hX : X = '0' ∨ X = '1')
    (hfit : (request_line "GET".toList uri X).length < MAXLINE)
    (hp : parse_uri uri = some (host, port, path))
    (hr : (read_requesthdrs ⟨hdrs, f⟩ env.header).ret = false)
    (hmiss : env.read_cache_begin (fingerprint host port path) = none)
    (hg : (request_gen MAXLINE host path
      (cstr (read_requesthdrs ⟨hdrs, f⟩ env.header).header)).ret = 0)
    (ho : env.open_clientfd host port = some rio_server)
    (hsw : env.server_write_ok = true)
    (hw : ∀ j, env.client_write_ok j = true) :
    serve env ⟨request_line "GET".toList uri X ++ hdrs, f⟩
      = Event.read_cache_begin (fingerprint host port path)
        :: Event.read_cache_end (fingerprint host port path)
        :: Event.open_clientfd host port
        :: Event.server_write (cstr (request_text host path
            (cstr (read_requesthdrs ⟨hdrs, f⟩ env.header).header)))
        :: ((origin_lines rio_server).map Event.client_write
          ++ serve_finish env (fingerprint host port path) env.malloc_res_buf.isSome
              (tee_scratch env.malloc_res_buf.isSome (env.malloc_res_buf.getD []) 0
                (origin_lines rio_server)).1
              (origin_lines rio_server).flatten.length) := by
  rw [serve_get_miss env uri X hdrs f host port path hu hX hfit hp hr hmiss]
  unfold serve_miss
  simp only [hg, ho, hsw, request_gen_request _ _ _ _ hg]
  rw [if_neg (by decide), if_pos trivial,
    serve_tee_relay env _ _ hw _ rio_server 0 _ 0 (by omega), tee_scratch_snd]
  simp only [origin_lines, Nat.zero_add]

/-! ## Facts about the copies into the scratch -/

theorem tee_copies_none (ms : Bool) (len : Nat) (lines : List (List Char))
    (h : ms = false ∨ MAX_OBJECT_SIZE ≤ len) : tee_copies ms len lines = [] := by
  induction lines generalizing len with
  | nil => rfl
  | cons l ls ih =>
    rw [tee_copies, if_neg, ih]
    · rcases h with h | h
      · exact Or.inl h
      · exact Or.inr (by omega)
    · intro hc
      rcases h with h | h
      · rw [h] at hc
        exact absurd hc.1 (by decide)
      · omega

theorem tee_copies_append (ms : Bool) (len : Nat) (pre post : List (List Char)) :
    tee_copies ms len (pre ++ post)
      = tee_copies ms len pre ++ tee_copies ms (len + pre.flatten.length) post := by
  induction pre generalizing len with
  | nil => simp [tee_copies]
  | cons l ls ih =>
    have e : l :: ls ++ post = l :: (ls ++ post) := rfl
    rw [e, tee_copies, tee_copies, ih]
    simp only [List.flatten_cons, List.length_append, Nat.add_assoc]
    split_ifs <;> rfl

theorem tee_copies_bound (ms : Bool) (len : Nat) (lines : List (List Char)) :
    ∀ c ∈ tee_copies ms len lines, len ≤ c.1 ∧ c.1 + c.2.length < MAX_OBJECT_SIZE := by
  induction lines generalizing len with
  | nil => simp [tee_copies]
  | cons l ls ih =>
    intro c hc
    rw [tee_copies] at hc
    split_ifs at hc with h
    · simp only [List.mem_cons] at hc
      rcases hc with rfl | hc
      · exact ⟨Nat.le_refl _, h.2⟩
      · have := ih _ c hc
        exact ⟨by omega, this.2⟩
    · have := ih _ c hc
      exact ⟨by omega, this.2⟩

/-- The scratch after the loop is the scratch after the copies. -/
theorem tee_scratch_eq_copies (ms : Bool) (buf : List Char) (len : Nat)
    (lines : List (List Char)) :
    (tee_scratch ms buf len lines).1
      = (tee_copies ms len lines).foldl (fun b c => memcpy b c.1 c.2) buf := by
  induction lines generalizing buf len with
  | nil => rfl
  | cons l ls ih =>
    rw [tee_scratch_cons, tee_copies, ih]
    split_ifs <;> rfl

theorem length_memcpy_inside (dst : List Char) (off : Nat) (src : List Char)
    (h : off + src.length ≤ dst.length) : (memcpy dst off src).length = dst.length := by
  have hm : min off dst.length = off := Nat.min_eq_left (by omega)
  simp only [memcpy, List.length_append, List.length_take, List.length_drop, hm]
  omega

theorem take_memcpy_append (dst : List Char) (off : Nat) (src : List Char)
    (h : off ≤ dst.length) :
    (memcpy dst off src).take (off + src.length) = dst.take off ++ src := by
  unfold memcpy
  rw [List.take_append_eq_append_take]
  simp [h]

theorem drop_memcpy (dst : List Char) (off : Nat) (src : List Char) (k : Nat)
    (h : off ≤ dst.length) :
    (memcpy dst off src).drop (off + src.length + k) = dst.drop (off + src.length + k) := by
  unfold memcpy
  rw [List.drop_append_eq_append_drop]
  have z : List.drop (off + src.length + k) (List.take off dst ++ src) = [] := by
    apply List.drop_of_length_le
    simp [h]
  rw [z]
  simp only [List.nil_append, List.length_append, List.length_take, List.drop_drop]
  congr 1
  have : min off dst.length = off := Nat.min_eq_left h
  omega

/-- The copies are made one after the other: the scratch holds the copied
lines in a row from `res_len` on, and is untouched elsewhere. -/
theorem tee_scratch_content (ms : Bool) (buf : List Char) (len : Nat)
    (lines : List (List Char)) (h : len ≤ buf.length) :
    (tee_scratch ms buf len lines).1
      = buf.take len ++ ((tee_copies ms len lines).map Prod.snd).flatten
        ++ buf.drop (len + ((tee_copies ms len lines).map Prod.snd).flatten.length) := by
  induction lines generalizing buf len with
  | nil => simp [tee_scratch, tee_copies]
  | cons l ls ih =>
    rw [tee_scratch_cons, tee_copies]
    by_cases hc : ms = true ∧ len + l.length < MAX_OBJECT_SIZE
    · rw [if_pos hc, if_pos hc, ih _ _ (length_memcpy buf len l h)]
      simp only [List.map_cons, List.flatten_cons, List.length_append]
      rw [take_memcpy_append _ _ _ h, drop_memcpy _ _ _ _ h]
      simp [Nat.add_assoc]
    · rw [if_neg hc, if_neg hc]
      have hn : tee_copies ms (len + l.length) ls = [] := by
        apply tee_copies_none
        by_cases hm : ms = true
        · right
          by_contra hlt
          exact hc ⟨hm, by omega⟩
        · left
          simpa using hm
      rw [hn]
      have e : tee_scratch ms buf (len + l.length) ls
          = (buf, (tee_scratch ms buf (len + l.length) ls).2) := by
        have h1 := tee_scratch_eq_copies ms buf (len + l.length) ls
        rw [hn] at h1
        exact Prod.ext h1 rfl
      rw [e]
      simp

/-- When the whole response fits below `MAX_OBJECT_SIZE`, every line is copied. -/
theorem tee_copies_all (len : Nat) (lines : List (List Char))
    (h : len + lines.flatten.length < MAX_OBJECT_SIZE) :
    (tee_copies true len lines).map Prod.snd = lines := by
  induction lines generalizing len with
  | nil => rfl
  | cons l ls ih =>
    simp only [List.flatten_cons, List.length_append] at h
    rw [tee_copies, if_pos ⟨rfl, by omega⟩]
    simp only [List.map_cons]
    rw [ih _ (by omega)]
/-! ## Facts about the bytes handed to the cache -/

theorem mem_clienterror (wok : Nat → Bool) (cause errnum shortmsg longmsg : List Char)
    (e : Event) (h : e ∈ clienterror wok cause errnum shortmsg longmsg) :
    ∃ b, e = Event.client_write b := by
  rw [clienterror_eq] at h
  split_ifs at h
  · simp at h
  · simp at h
  · simp only [List.mem_cons, List.mem_singleton, List.not_mem_nil, or_false] at h
    rcases h with h | h
    · exact ⟨_, h⟩
    · exact ⟨_, h⟩
  · simp only [List.mem_cons, List.not_mem_nil, or_false] at h
    exact ⟨_, h⟩

theorem write_cache_not_mem_clienterror (wok : Nat → Bool)
    (cause errnum shortmsg longmsg key res : List Char) (n : Nat) :
    Event.write_cache key res n ∉ clienterror wok cause errnum shortmsg longmsg := by
  intro h
  obtain ⟨b, hb⟩ := mem_clienterror _ _ _ _ _ _ h
  cases hb

/-- A cache write in the trace of the tee loop: no write to the client has
failed, every line read from the origin has been written to the client, and
the scratch handed over is the one the loop has filled. -/
theorem serve_tee_cached (env : Env) (req : List Char) (ms : Bool) (fuel : Nat)
    (rio : rio_t) (k : Nat) (buf : List Char) (len : Nat) (key res : List Char) (n : Nat)
    (h : Event.write_cache key res n ∈ serve_tee env req ms fuel rio k buf len) :
    tee_scratch ms buf len (read_lines fuel rio) = (res, n)
    ∧ client_bytes (serve_tee env req ms fuel rio k buf len) = (read_lines fuel rio).flatten
    ∧ ms = true ∧ n < MAX_OBJECT_SIZE ∧ key = cstr req := by
  induction fuel generalizing rio k buf len with
  | zero => simp [serve_tee_zero] at h
  | succ m ih =>
    rw [serve_tee_succ] at h ⊢
    rw [read_lines]
    simp only at h ⊢
    by_cases hr : (rio_readlineb rio MAXLINE).ret > 0
    · rw [if_pos hr] at h ⊢
      rw [if_pos hr]
      by_cases hk : env.client_write_ok k = true
      · rw [if_pos hk] at h ⊢
        simp only [List.mem_cons, reduceCtorEq, false_or] at h
        obtain ⟨h1, h2, h3, h4, h5⟩ := ih _ _ _ _ h
        refine ⟨?_, ?_, h3, h4, h5⟩
        · rw [tee_scratch_cons]
          simp only [rio_readlineb_toNat rio MAXLINE hr, List.take_length] at h1 ⊢
          exact h1
        · simp only [client_bytes, List.flatten_cons, h2]
      · rw [if_neg hk] at h
        simp at h
    · rw [if_neg hr] at h ⊢
      rw [if_neg hr]
      rw [serve_finish_eq] at h
      rw [client_bytes_serve_finish]
      simp only [List.mem_cons, reduceCtorEq, false_or] at h
      split_ifs at h with h1 h2
      · simp only [List.mem_singleton, Event.write_cache.injEq] at h
        obtain ⟨e1, e2, e3⟩ := h
        subst e1 e2 e3
        exact ⟨rfl, rfl, h1.1, h1.2, rfl⟩
      · simp at h
      · simp at h

/-- A cache write in the trace of the miss branch comes from the tee loop, and
the events before the loop write nothing to the client. -/
theorem serve_miss_cached_path (env : Env) (buf method host port path header req : List Char)
    (key res : List Char) (n : Nat)
    (h : Event.write_cache key res n
      ∈ serve_miss env buf method host port path header req) :
    ∃ rs pre, env.open_clientfd host port = some rs
      ∧ serve_miss env buf method host port path header req
        = pre ++ serve_tee env req env.malloc_res_buf.isSome (rs.data.length + 1) rs 0
            (env.malloc_res_buf.getD []) 0
      ∧ client_bytes pre = []
      ∧ Event.write_cache key res n
        ∈ serve_tee env req env.malloc_res_buf.isSome (rs.data.length + 1) rs 0
            (env.malloc_res_buf.getD []) 0 := by
  unfold serve_miss at h ⊢
  simp only [List.mem_cons, reduceCtorEq, false_or] at h
  by_cases h5 : (request_gen MAXLINE host path (cstr header)).ret < 0
  · rw [if_pos h5] at h
    exact absurd h (write_cache_not_mem_clienterror _ _ _ _ _ _ _ _)
  · rw [if_neg h5] at h
    simp only [if_neg h5]
    simp only [List.mem_cons, reduceCtorEq, false_or] at h
    cases ho : env.open_clientfd host port with
    | none =>
      rw [ho] at h
      exact absurd h (write_cache_not_mem_clienterror _ _ _ _ _ _ _ _)
    | some rs =>
      rw [ho] at h
      simp only [List.mem_cons, reduceCtorEq, false_or] at h
      by_cases h6 : env.server_write_ok = true
      · rw [if_pos h6] at h
        simp only [if_pos h6]
        exact ⟨rs, [Event.read_cache_end req, Event.open_clientfd host port,
          Event.server_write (cstr (request_gen MAXLINE host path (cstr header)).request)],
          rfl, rfl, rfl, h⟩
      · rw [if_neg h6] at h
        simp only [List.mem_append, List.mem_singleton, reduceCtorEq, or_false] at h
        exact absurd h (write_cache_not_mem_clienterror _ _ _ _ _ _ _ _)

/-- A cache write in the trace of `serve` comes from the tee loop, and the
events before the loop write nothing to the client. -/
theorem serve_cached_path (env : Env) (rio : rio_t) (key res : List Char) (n : Nat)
    (h : Event.write_cache key res n ∈ serve env rio) :
    ∃ host port rs req pre, env.open_clientfd host port = some rs
      ∧ serve env rio
        = pre ++ serve_tee env req env.malloc_res_buf.isSome (rs.data.length + 1) rs 0
            (env.malloc_res_buf.getD []) 0
      ∧ client_bytes pre = []
      ∧ Event.write_cache key res n
        ∈ serve_tee env req env.malloc_res_buf.isSome (rs.data.length + 1) rs 0
            (env.malloc_res_buf.getD []) 0 := by
  unfold serve at h ⊢
  simp only at h ⊢
  by_cases h1 : (rio_readlineb rio MAXLINE).ret ≤ 0
  · rw [if_pos h1] at h
    simp at h
  · rw [if_neg h1] at h
    simp only [if_neg h1]
    by_cases h2 : (sscanf_request (cstr (rio_readlineb rio MAXLINE).buf)).ret ≠ 3
        ∨ ((sscanf_request (cstr (rio_readlineb rio MAXLINE).buf)).version ≠ '0'
          ∧ (sscanf_request (cstr (rio_readlineb rio MAXLINE).buf)).version ≠ '1')
    · rw [if_pos h2] at h
      exact absurd h (write_cache_not_mem_clienterror _ _ _ _ _ _ _ _)
    · rw [if_neg h2] at h
      simp only [if_neg h2]
      unfold serve_request at h ⊢
      by_cases h3 : strncmp (sscanf_request (cstr (rio_readlineb rio MAXLINE).buf)).method
          "GET".toList 4 ≠ 0
      · rw [if_pos h3] at h
        exact absurd h (write_cache_not_mem_clienterror _ _ _ _ _ _ _ _)
      · rw [if_neg h3] at h
        simp only [if_neg h3]
        cases hp : parse_uri (sscanf_request (cstr (rio_readlineb rio MAXLINE).buf)).uri with
        | none =>
          rw [hp] at h
          exact absurd h (write_cache_not_mem_clienterror _ _ _ _ _ _ _ _)
        | some t =>
          obtain ⟨host, port, path⟩ := t
          rw [hp] at h
          simp only at h ⊢
          by_cases h4 : (read_requesthdrs (rio_readlineb rio MAXLINE).rio env.header).ret = true
          · rw [if_pos h4] at h
            exact absurd h (write_cache_not_mem_clienterror _ _ _ _ _ _ _ _)
          · rw [if_neg h4] at h
            simp only [if_neg h4]
            simp only [List.mem_cons, reduceCtorEq, false_or] at h
            cases hc : env.read_cache_begin (fingerprint host port path) with
            | some r =>
              rw [hc] at h
              simp at h
            | none =>
              rw [hc] at h
              simp only at h
              obtain ⟨rs, pre, e1, e2, e3, e4⟩ := serve_miss_cached_path _ _ _ _ _ _ _ _ _ _ _ h
              refine ⟨host, port, rs, fingerprint host port path,
                Event.read_cache_begin (fingerprint host port path) :: pre, e1, ?_, e3, e4⟩
              rw [e2]
              rfl
/-! ## Facts about a sample request -/

/-- The request `GET http://x/ HTTP/1.1` without headers, sent to an origin
whose response is `data`. -/
theorem serve_simple_get (data : List Char) :
    serve (Env.serving data) ⟨"GET http://x/ HTTP/1.1\r\n\r\n".toList, false⟩
      = Event.read_cache_begin "x:80/".toList
        :: Event.read_cache_end "x:80/".toList
        :: Event.open_clientfd "x".toList "80".toList
        :: Event.server_write (request_text "x".toList "/".toList "\r\n".toList)
        :: ((origin_lines ⟨data, false⟩).map Event.client_write
          ++ serve_finish (Env.serving data) "x:80/".toList true
              (tee_scratch true (List.replicate MAX_OBJECT_SIZE '\x00') 0
                (origin_lines ⟨data, false⟩)).1
              (origin_lines ⟨data, false⟩).flatten.length) := by
  have hhdr : read_requesthdrs ⟨"\r\n".toList, false⟩ (Env.serving data).header
      = ⟨false, memcpy (List.replicate MAXLINE '\x00') 0 "\r\n".toList, 2, ⟨[], false⟩⟩ := by
    have := read_requesthdrs_crlf (Env.serving data).header [] false
    simpa using this
  have hc : cstr (memcpy (List.replicate MAXLINE '\x00') 0 "\r\n".toList) = "\r\n".toList :=
    cstr_memcpy_zeroed MAXLINE _ (by decide) (by decide)
  have hg : (request_gen MAXLINE "x".toList "/".toList
      (cstr (read_requesthdrs ⟨"\r\n".toList, false⟩ (Env.serving data).header).header)).ret
      = 0 := by
    rw [hhdr]
    simp only [hc]
    rw [request_gen_ret, request_text_length, if_neg]
    simp only [MAXLINE]
    decide
  have hp : parse_uri "http://x/".toList = some ("x".toList, "80".toList, "/".toList) := by
    decide
  have h := serve_get_relay (Env.serving data) "http://x/".toList '1' "\r\n".toList false
    "x".toList "80".toList "/".toList ⟨data, false⟩ (by decide) (by decide) (by decide) hp
    (by rw [hhdr]) rfl hg rfl rfl (fun _ => rfl)
  rw [hhdr] at h
  simp only [hc] at h
  have ht : cstr (request_text "x".toList "/".toList "\r\n".toList)
      = request_text "x".toList "/".toList "\r\n".toList := cstr_of_no_nul _ (by decide)
  rw [ht] at h
  exact h

theorem tee_copies_skip (ms : Bool) (pre : List (List Char)) (l : List Char)
    (post : List (List Char))
    (h : ¬ (pre.flatten.length + l.length < MAX_OBJECT_SIZE)) :
    tee_copies ms 0 (pre ++ l :: post) = tee_copies ms 0 pre := by
  rw [tee_copies_append, tee_copies, if_neg (fun hc => h (by simpa using hc.2)),
    tee_copies_none ms _ post (Or.inr (by omega))]
  simp

theorem tee_copies_mem (ms : Bool) (pre : List (List Char)) (l : List Char)
    (post : List (List Char))
    (h : ms = true ∧ pre.flatten.length + l.length < MAX_OBJECT_SIZE) :
    (pre.flatten.length, l) ∈ tee_copies ms 0 (pre ++ l :: post) := by
  rw [tee_copies_append, tee_copies, if_pos (by simpa using h)]
  simp

/-- An origin response of `n` bytes `a`, with `MAX_OBJECT_SIZE ≤ n`: the
scratch is freed. -/
theorem serve_large_object (n : Nat) (h : MAX_OBJECT_SIZE ≤ n) :
    serve (Env.serving (List.replicate n 'a'))
        ⟨"GET http://x/ HTTP/1.1\r\n\r\n".toList, false⟩
      = Event.read_cache_begin "x:80/".toList
        :: Event.read_cache_end "x:80/".toList
        :: Event.open_clientfd "x".toList "80".toList
        :: Event.server_write (request_text "x".toList "/".toList "\r\n".toList)
        :: ((origin_lines ⟨List.replicate n 'a', false⟩).map Event.client_write
          ++ [Event.close_server, Event.free_res_buf]) := by
  rw [serve_simple_get, serve_finish_eq, origin_lines,
    read_lines_flatten _ _ (Nat.lt_succ_self _) rfl, if_neg]
  intro h
  have h2 := h.2
  rw [List.length_replicate] at h2
  omega

/-- Every copy is a line of the response, at the offset given by the lines
before it. -/
theorem tee_copies_origin (ms : Bool) (done lines : List (List Char)) (c : Nat × List Char)
    (hc : c ∈ tee_copies ms done.flatten.length lines) :
    ∃ pre post, done ++ lines = pre ++ c.2 :: post ∧ c.1 = pre.flatten.length := by
  induction lines generalizing done with
  | nil => simp [tee_copies] at hc
  | cons l ls ih =>
    rw [tee_copies] at hc
    have hstep : (done ++ [l]).flatten.length = done.flatten.length + l.length := by simp
    have hrec : c ∈ tee_copies ms (done.flatten.length + l.length) ls →
        ∃ pre post, done ++ l :: ls = pre ++ c.2 :: post ∧ c.1 = pre.flatten.length := by
      intro h
      rw [← hstep] at h
      obtain ⟨pre, post, h1, h2⟩ := ih (done ++ [l]) h
      exact ⟨pre, post, by simpa using h1, h2⟩
    by_cases hif : ms = true ∧ done.flatten.length + l.length < MAX_OBJECT_SIZE
    · rw [if_pos hif] at hc
      rcases List.mem_cons.mp hc with rfl | hc
      · exact ⟨done, ls, rfl, rfl⟩
      · exact hrec hc
    · rw [if_neg hif] at hc
      exact hrec hc

/-! ## Facts about the fingerprint -/

theorem append_cons_inj (c : Char) (a1 a2 b1 b2 : List Char) (h1 : c ∉ a1) (h2 : c ∉ a2)
    (h : a1 ++ c :: b1 = a2 ++ c :: b2) : a1 = a2 ∧ b1 = b2 := by
  induction a1 generalizing a2 with
  | nil =>
    cases a2 with
    | nil => simpa using h
    | cons y ys =>
      simp only [List.nil_append, List.cons_append, List.cons.injEq] at h
      exact absurd (h.1 ▸ List.mem_cons_self _ _) h2
  | cons x xs ih =>
    cases a2 with
    | nil =>
      simp only [List.nil_append, List.cons_append, List.cons.injEq] at h
      exact absurd (h.1 ▸ List.mem_cons_self _ _) h1
    | cons y ys =>
      simp only [List.cons_append, List.cons.injEq] at h
      obtain ⟨e1, e2⟩ := ih ys (fun hc => h1 (List.mem_cons_of_mem _ hc))
        (fun hc => h2 (List.mem_cons_of_mem _ hc)) h.2
      exact ⟨by rw [h.1, e1], e2⟩

theorem strstr_some (needle hay : List Char) (pos : Nat)
    (h : strstr hay needle = some pos) : hay.take pos ++ needle <+: hay := by
  induction hay generalizing pos with
  | nil =>
    rw [strstr] at h
    split_ifs at h with hp
    simp only [Option.some.injEq] at h
    subst h
    simpa [List.isPrefixOf_iff_prefix] using hp
  | cons c cs ih =>
    rw [strstr] at h
    split_ifs at h with hp
    · simp only [Option.some.injEq] at h
      subst h
      simpa [List.isPrefixOf_iff_prefix] using hp
    · cases hs : strstr cs needle with
      | none => simp [hs] at h
      | some q =>
        rw [hs] at h
        simp only [Option.map_some', Option.some.injEq] at h
        subst h
        have := ih q hs
        simpa using this

/-- A URI without NUL that `parse_uri` accepts starts with `http://`. -/
theorem parse_uri_shape (uri host port path : List Char) (hn : '\x00' ∉ uri)
    (h : parse_uri uri = some (host, port, path)) :
    ∃ rest, uri = "http://".toList ++ rest := by
  unfold parse_uri at h
  cases hs : strstr uri "://".toList with
  | none =>
    rw [hs] at h
    simp at h
  | some pos =>
    rw [hs] at h
    simp only at h
    by_cases hc : strncmp (uri.take pos) "http".toList 5 = 0
    · have ht : uri.take pos = "http".toList :=
        eq_of_strncmp_eq_zero _ _ 5 (fun hm => hn (List.mem_of_mem_take hm)) (by decide)
          (by decide) hc
      obtain ⟨t, ht2⟩ := strstr_some _ _ _ hs
      rw [ht] at ht2
      exact ⟨t, by rw [← ht2]; rfl⟩
    · rw [if_pos hc] at h
      simp at h

theorem head_dropWhile_ne (c : Char) (s : List Char) (x : Char) (t : List Char)
    (h : s.dropWhile (fun d => d != c) = x :: t) : x = c := by
  rcases dropWhile_ne_cases c s with h0 | ⟨t0, h0⟩
  · rw [h0] at h
    cases h
  · rw [h0] at h
    cases h
    rfl

/-- What `parse_uri` returns: the host has neither `:` nor `/`, the port has no
`/`, the path starts with `/`, and the three together are at most three bytes
longer than what follows `http://`. -/
theorem parse_uri_parts (rest host port path : List Char)
    (h : parse_uri ("http://".toList ++ rest) = some (host, port, path)) :
    ':' ∉ host ∧ '/' ∉ host ∧ '/' ∉ port ∧ path.head? = some '/'
    ∧ host.length + port.length + path.length ≤ rest.length + 3 := by
  rw [parse_uri_http_eq] at h
  split_ifs at h with h1
  rw [parse_port_eq] at h
  split_ifs at h with h2
  simp only [Option.some.injEq, Prod.mk.injEq] at h
  obtain ⟨hh, hp, hq⟩ := h
  have hsplit := List.takeWhile_append_dropWhile (fun d => d != '/') rest
  have hauth := not_mem_takeWhile_ne '/' rest
  generalize rest.takeWhile (fun d => d != '/') = auth at *
  have hsplit2 := List.takeWhile_append_dropWhile (fun d => d != ':') auth
  have hhost := not_mem_takeWhile_ne ':' auth
  have hl := congrArg List.length hsplit
  have hl2 := congrArg List.length hsplit2
  simp only [List.length_append] at hl hl2
  have hsub : ∀ c ∈ auth.dropWhile (fun d => d != ':'), c ∈ auth := fun c hc =>
    (List.dropWhile_sublist _).subset hc
  refine ⟨hh ▸ hhost, ?_, ?_, ?_, ?_⟩
  · rw [← hh]
    exact fun hc => hauth ((List.takeWhile_sublist _).subset hc)
  · rw [← hp]
    cases hd : auth.dropWhile (fun d => d != ':') with
    | nil => decide
    | cons x t =>
      simp only
      exact fun hc => hauth (hsub _ (by rw [hd]; exact List.mem_cons_of_mem _ hc))
  · rw [← hq]
    cases hd : rest.dropWhile (fun d => d != '/') with
    | nil => rfl
    | cons x t =>
      simp only [List.head?_cons]
      rw [head_dropWhile_ne _ _ _ _ hd]
  · rw [← hh, ← hp, ← hq]
    cases hd : rest.dropWhile (fun d => d != '/') with
    | nil =>
      cases hd2 : auth.dropWhile (fun d => d != ':') with
      | nil =>
        rw [hd] at hl
        rw [hd2] at hl2
        simp only [List.length_nil, String.toList, String.data] at hl hl2 ⊢
        simp only [List.length_cons, List.length_nil]
        omega
      | cons x t =>
        rw [hd] at hl
        rw [hd2] at hl2
        simp only [List.length_nil, List.length_cons, String.toList] at hl hl2 ⊢
        omega
    | cons y u =>
      cases hd2 : auth.dropWhile (fun d => d != ':') with
      | nil =>
        rw [hd] at hl
        rw [hd2] at hl2
        simp only [List.length_nil, List.length_cons, String.toList] at hl hl2 ⊢
        omega
      | cons x t =>
        rw [hd] at hl
        rw [hd2] at hl2
        simp only [List.length_nil, List.length_cons, String.toList] at hl hl2 ⊢
        omega

/-- A key that is not truncated determines the triple it was built from. -/
theorem key_injective (h1 p1 q1 h2 p2 q2 : List Char)
    (hc1 : ':' ∉ h1) (hc2 : ':' ∉ h2) (hs1 : '/' ∉ p1) (hs2 : '/' ∉ p2)
    (hq1 : q1.head? = some '/') (hq2 : q2.head? = some '/')
    (h : h1 ++ ':' :: p1 ++ q1 = h2 ++ ':' :: p2 ++ q2) :
    h1 = h2 ∧ p1 = p2 ∧ q1 = q2 := by
  cases q1 with
  | nil => simp at hq1
  | cons a t1 =>
    cases q2 with
    | nil => simp at hq2
    | cons b t2 =>
      simp only [List.head?_cons, Option.some.injEq] at hq1 hq2
      subst hq1 hq2
      have e : ∀ (x y z : List Char), x ++ ':' :: y ++ z = x ++ ':' :: (y ++ z) := by
        intro x y z
        simp
      rw [e, e] at h
      obtain ⟨e1, e2⟩ := append_cons_inj ':' _ _ _ _ hc1 hc2 h
      obtain ⟨e3, e4⟩ := append_cons_inj '/' _ _ _ _ hs1 hs2 e2
      exact ⟨e1, e3, by rw [e4]⟩

theorem not_mem_cstr (s : List Char) : '\x00' ∉ cstr s := by
  induction s with
  | nil => simp [cstr]
  | cons c cs ih =>
    by_cases hc : c = '\x00'
    · simp [cstr, hc]
    · simp only [cstr, if_neg hc, List.mem_cons, not_or]
      exact ⟨fun e => hc e.symm, ih⟩

theorem cstr_sublist (s : List Char) : (cstr s).Sublist s := by
  induction s with
  | nil => simp [cstr]
  | cons c cs ih =>
    by_cases hc : c = '\x00'
    · simp [cstr, hc]
    · simp only [cstr, if_neg hc]
      exact ih.cons₂ c

theorem sscanf_request_uri_sublist (s : List Char) : (sscanf_request s).uri.Sublist s := by
  have h1 : ((s.dropWhile isspace).dropWhile (fun c => !isspace c)).dropWhile isspace
      |>.Sublist s :=
    ((List.dropWhile_sublist _).trans (List.dropWhile_sublist _)).trans
      (List.dropWhile_sublist _)
  have h2 := (List.takeWhile_sublist (fun c => !isspace c)).trans h1
  unfold sscanf_request
  simp only
  split_ifs
  · exact List.nil_sublist _
  · exact List.nil_sublist _
  · split
    · exact h2
    · exact h2
  · exact h2

/-- The URI that `serve` hands to `parse_uri` has no NUL and fits `MAXLINE`. -/
theorem serve_uri_fits (rio : rio_t) :
    '\x00' ∉ (sscanf_request (cstr (rio_readlineb rio MAXLINE).buf)).uri
    ∧ (sscanf_request (cstr (rio_readlineb rio MAXLINE).buf)).uri.length < MAXLINE := by
  have hs := sscanf_request_uri_sublist (cstr (rio_readlineb rio MAXLINE).buf)
  have hc := cstr_sublist (rio_readlineb rio MAXLINE).buf
  have hb : (rio_readlineb rio MAXLINE).buf.length ≤ MAXLINE - 1 := by
    unfold rio_readlineb
    simp only
    split_ifs
    all_goals exact rio_scan_fst_length _ _
  refine ⟨fun h => not_mem_cstr _ (hs.subset h), ?_⟩
  have := hs.length_le
  have := hc.length_le
  have : 0 < MAXLINE := by decide
  omega

/-- The fingerprint of a parsed URI that fits `MAXLINE` is not truncated. -/
theorem fingerprint_parsed (uri host port path : List Char) (hn : '\x00' ∉ uri)
    (hl : uri.length < MAXLINE) (h : parse_uri uri = some (host, port, path)) :
    ':' ∉ host ∧ '/' ∉ host ∧ '/' ∉ port ∧ path.head? = some '/'
    ∧ (host ++ ':' :: port ++ path).length < MAXLINE
    ∧ fingerprint host port path = host ++ ':' :: port ++ path := by
  obtain ⟨rest, rfl⟩ := parse_uri_shape uri host port path hn h
  obtain ⟨a, b, c, d, e⟩ := parse_uri_parts rest host port path h
  have hlen : (host ++ ':' :: port ++ path).length < MAXLINE := by
    simp only [List.length_append, List.length_cons, String.toList] at hl ⊢
    simp only [List.length_cons, List.length_nil] at hl
    omega
  exact ⟨a, b, c, d, hlen, snprintf_snd _ _ hlen⟩
/-! ## Facts about the bounds of the header buffer -/

theorem read_requesthdrs_loop_bound (fuel : Nat) (rp : rio_t) (header : List Char)
    (total : Nat) (ht : total < MAXLINE) (hl : header.length = MAXLINE) :
    (read_requesthdrs_loop fuel rp header total).total < MAXLINE
    ∧ (read_requesthdrs_loop fuel rp header total).header.length = MAXLINE := by
  induction fuel generalizing rp header total with
  | zero => exact ⟨ht, hl⟩
  | succ n ih =>
    rw [read_requesthdrs_loop]
    simp only
    have hcopy : ¬ (total + (rio_readlineb rp MAXLINE).ret.toNat ≥ MAXLINE) →
        (memcpy header total ((rio_readlineb rp MAXLINE).buf.take
          (rio_readlineb rp MAXLINE).ret.toNat)).length = MAXLINE := by
      intro h
      rw [length_memcpy_inside, hl]
      have := List.length_take_le (rio_readlineb rp MAXLINE).ret.toNat
        (rio_readlineb rp MAXLINE).buf
      omega
    split_ifs with h1 h2 h3 h4 h5
    · exact ⟨ht, hl⟩
    · exact ⟨ht, hl⟩
    · exact ih _ _ _ ht hl
    · exact ⟨ht, hl⟩
    · exact ih _ _ _ (by omega) (hcopy h2)
    · exact ⟨by simp only; omega, hcopy h2⟩

/-- The header buffer with an earlier content and no NUL right after the
terminator that `read_requesthdrs` copies. -/
theorem cstr_memcpy_stale (t : List Char) :
    cstr (memcpy ("XXEvil: 1\r\n".toList ++ '\x00' :: t) 0 "\r\n".toList)
      = "\r\nEvil: 1\r\n".toList := by
  have e : memcpy ("XXEvil: 1\r\n".toList ++ '\x00' :: t) 0 "\r\n".toList
      = "\r\nEvil: 1\r\n".toList ++ '\x00' :: t := by
    simp [memcpy]
  rw [e]
  exact cstr_append_nul _ _ (by decide)
/-! ## Facts about the cache hit -/

/-- A `GET` request whose URI parses and whose header block is accepted, on a
cache hit: `serve` writes the cached bytes between `read_cache_begin` and
`read_cache_end`. -/
theorem serve_get_hit (env : Env) (uri : List Char) (X : Char) (hdrs : List Char)
    (f : Bool) (host port path res : List Char)
    (hu : token uri) (hX : X = '0' ∨ X = '1')
    (hfit : (request_line "GET".toList uri X).length < MAXLINE)
    (hp : parse_uri uri = some (host, port, path))
    (hr : (read_requesthdrs ⟨hdrs, f⟩ env.header).ret = false)
    (hhit : env.read_cache_begin (fingerprint host port path) = some res) :
    serve env ⟨request_line "GET".toList uri X ++ hdrs, f⟩
      = [Event.read_cache_begin (fingerprint host port path), Event.client_write res,
          Event.read_cache_end (fingerprint host port path)] := by
  rw [serve_request_line env _ _ X hdrs f (by decide) hu hX hfit]
  unfold serve_request
  rw [if_neg (by decide), hp]
  simp only [hr, hhit]
  rfl

/-! ## Facts about the requests that reach the origin -/

theorem server_write_not_mem_clienterror (wok : Nat → Bool)
    (cause errnum shortmsg longmsg rq : List Char) :
    Event.server_write rq ∉ clienterror wok cause errnum shortmsg longmsg := by
  intro h
  obtain ⟨b, hb⟩ := mem_clienterror _ _ _ _ _ _ h
  cases hb

/-- A request sent to the origin in the miss branch: the tee loop follows. -/
theorem serve_miss_relayed_path (env : Env) (buf method host port path header req : List Char)
    (rq : List Char) (hsw : env.server_write_ok = true)
    (h : Event.server_write rq ∈ serve_miss env buf method host port path header req) :
    ∃ rs, env.open_clientfd host port = some rs
      ∧ serve_miss env buf method host port path header req
        = Event.read_cache_end req :: Event.open_clientfd host port
          :: Event.server_write (cstr (request_gen MAXLINE host path (cstr header)).request)
          :: serve_tee env req env.malloc_res_buf.isSome (rs.data.length + 1) rs 0
              (env.malloc_res_buf.getD []) 0 := by
  unfold serve_miss at h ⊢
  simp only [List.mem_cons, reduceCtorEq, false_or] at h
  by_cases h5 : (request_gen MAXLINE host path (cstr header)).ret < 0
  · rw [if_pos h5] at h
    exact absurd h (server_write_not_mem_clienterror _ _ _ _ _ _)
  · simp only [if_neg h5]
    cases ho : env.open_clientfd host port with
    | none =>
      rw [if_neg h5, ho] at h
      simp only [List.mem_cons, reduceCtorEq, false_or] at h
      exact absurd h (server_write_not_mem_clienterror _ _ _ _ _ _)
    | some rs =>
      simp only [if_pos hsw]
      exact ⟨rs, rfl, rfl⟩

/-- A request sent to the origin: the trace of `serve` is the lookup, the end
of the read session, the connection, the request, and the tee loop. -/
theorem serve_relayed_path (env : Env) (rio : rio_t) (rq : List Char)
    (hsw : env.server_write_ok = true) (h : Event.server_write rq ∈ serve env rio) :
    ∃ host port path rs,
      parse_uri (sscanf_request (cstr (rio_readlineb rio MAXLINE).buf)).uri
        = some (host, port, path)
      ∧ env.open_clientfd host port = some rs
      ∧ serve env rio
        = Event.read_cache_begin (fingerprint host port path)
          :: Event.read_cache_end (fingerprint host port path)
          :: Event.open_clientfd host port
          :: Event.server_write (cstr (request_gen MAXLINE host path
              (cstr (read_requesthdrs (rio_readlineb rio MAXLINE).rio env.header).header)).request)
          :: serve_tee env (fingerprint host port path) env.malloc_res_buf.isSome
              (rs.data.length + 1) rs 0 (env.malloc_res_buf.getD []) 0 := by
  unfold serve at h ⊢
  simp only at h ⊢
  by_cases h1 : (rio_readlineb rio MAXLINE).ret ≤ 0
  · rw [if_pos h1] at h
    simp at h
  · rw [if_neg h1] at h
    simp only [if_neg h1]
    by_cases h2 : (sscanf_request (cstr (rio_readlineb rio MAXLINE).buf)).ret ≠ 3
        ∨ ((sscanf_request (cstr (rio_readlineb rio MAXLINE).buf)).version ≠ '0'
          ∧ (sscanf_request (cstr (rio_readlineb rio MAXLINE).buf)).version ≠ '1')
    · rw [if_pos h2] at h
      exact absurd h (server_write_not_mem_clienterror _ _ _ _ _ _)
    · rw [if_neg h2] at h
      simp only [if_neg h2]
      unfold serve_request at h ⊢
      by_cases h3 : strncmp (sscanf_request (cstr (rio_readlineb rio MAXLINE).buf)).method
          "GET".toList 4 ≠ 0
      · rw [if_pos h3] at h
        exact absurd h (server_write_not_mem_clienterror _ _ _ _ _ _)
      · rw [if_neg h3] at h
        simp only [if_neg h3]
        cases hp : parse_uri (sscanf_request (cstr (rio_readlineb rio MAXLINE).buf)).uri with
        | none =>
          rw [hp] at h
          exact absurd h (server_write_not_mem_clienterror _ _ _ _ _ _)
        | some t =>
          obtain ⟨host, port, path⟩ := t
          rw [hp] at h
          simp only at h ⊢
          by_cases h4 : (read_requesthdrs (rio_readlineb rio MAXLINE).rio env.header).ret = true
          · rw [if_pos h4] at h
            exact absurd h (server_write_not_mem_clienterror _ _ _ _ _ _)
          · rw [if_neg h4] at h
            simp only [if_neg h4]
            simp only [List.mem_cons, reduceCtorEq, false_or] at h
            cases hc : env.read_cache_begin (fingerprint host port path) with
            | some r =>
              rw [hc] at h
              simp at h
            | none =>
              rw [hc] at h
              simp only at h
              obtain ⟨rs, e1, e2⟩ := serve_miss_relayed_path _ _ _ _ _ _ _ _ _ hsw h
              exact ⟨host, port, path, rs, rfl, e1, by rw [e2]⟩

/-- A request sent to the origin, when no write fails: the lines read from the
origin go to the client, and the end of `serve` follows. -/
theorem serve_relayed (env : Env) (rio : rio_t) (rq : List Char)
    (hsw : env.server_write_ok = true) (hw : ∀ j, env.client_write_ok j = true)
    (h : Event.server_write rq ∈ serve env rio) :
    ∃ host port path rs,
      parse_uri (sscanf_request (cstr (rio_readlineb rio MAXLINE).buf)).uri
        = some (host, port, path)
      ∧ env.open_clientfd host port = some rs
      ∧ serve env rio
        = Event.read_cache_begin (fingerprint host port path)
          :: Event.read_cache_end (fingerprint host port path)
          :: Event.open_clientfd host port
          :: Event.server_write rq
          :: ((origin_lines rs).map Event.client_write
            ++ serve_finish env (fingerprint host port path) env.malloc_res_buf.isSome
                (tee_scratch env.malloc_res_buf.isSome (env.malloc_res_buf.getD []) 0
                  (origin_lines rs)).1
                (origin_lines rs).flatten.length) := by
  obtain ⟨host, port, path, rs, hp, ho, hs⟩ := serve_relayed_path env rio rq hsw h
  refine ⟨host, port, path, rs, hp, ho, ?_⟩
  have hrq : rq = cstr (request_gen MAXLINE host path
      (cstr (read_requesthdrs (rio_readlineb rio MAXLINE).rio env.header).header)).request := by
    rw [hs] at h
    simp only [List.mem_cons, reduceCtorEq, false_or, Event.server_write.injEq] at h
    rcases h with h | h
    · exact h
    · rw [serve_tee_relay env _ _ hw _ rs 0 _ 0 (Nat.lt_succ_self _), serve_finish_eq] at h
      simp only [List.mem_append, List.mem_map, reduceCtorEq, and_false, exists_false,
        List.mem_cons, false_or] at h
      split_ifs at h <;> simp at h
  rw [hs, ← hrq, serve_tee_relay env _ _ hw _ rs 0 _ 0 (Nat.lt_succ_self _), tee_scratch_snd,
    Nat.zero_add]
  rfl

/-! ## Facts about the calls of `memcpy` in the tee loop -/

theorem tee_copies_within (ms : Bool) (len : Nat) (lines : List (List Char)) :
    ∀ c ∈ tee_copies ms len lines, c.1 + c.2.length ≤ len + lines.flatten.length := by
  induction lines generalizing len with
  | nil => simp [tee_copies]
  | cons l ls ih =>
    intro c hc
    rw [tee_copies] at hc
    simp only [List.flatten_cons, List.length_append]
    split_ifs at hc with h
    · rcases List.mem_cons.mp hc with rfl | hc
      · simp only
        omega
      · have := ih _ c hc
        omega
    · have := ih _ c hc
      omega

/-- The calls of `memcpy` in the tee loop are, in their order, the copies of
the lines that fit; the loop stops early when a write to the client fails. -/
theorem serve_tee_run_prefix (env : Env) (req : List Char) (ms : Bool) (fuel : Nat)
    (rio : rio_t) (k : Nat) (buf : List Char) (len : Nat) :
    (serve_tee_run env req ms fuel rio k buf len).2
      <+: tee_copies ms len (read_lines fuel rio) := by
  induction fuel generalizing rio k buf len with
  | zero => exact List.nil_prefix
  | succ n ih =>
    rw [serve_tee_run, read_lines]
    simp only
    by_cases h : (rio_readlineb rio MAXLINE).ret > 0
    · rw [if_pos h, if_pos h, tee_copies]
      simp only [rio_readlineb_toNat rio MAXLINE h, List.take_length]
      by_cases hk : env.client_write_ok k = true
      · rw [if_pos hk]
        by_cases hg : ms = true ∧ len + (rio_readlineb rio MAXLINE).buf.length < MAX_OBJECT_SIZE
        · rw [if_pos hg, if_pos hg]
          exact List.prefix_cons_inj _ |>.mpr (ih _ _ _ _)
        · rw [if_neg hg, if_neg hg]
          exact ih _ _ _ _
      · rw [if_neg hk]
        exact List.nil_prefix
    · rw [if_neg h, if_neg h]
      exact List.nil_prefix

/-- When no write to the client fails, the loop makes every copy. -/
theorem serve_tee_run_copies (env : Env) (req : List Char) (ms : Bool)
    (hw : ∀ j, env.client_write_ok j = true) (fuel : Nat)
    (rio : rio_t) (k : Nat) (buf : List Char) (len : Nat) :
    (serve_tee_run env req ms fuel rio k buf len).2
      = tee_copies ms len (read_lines fuel rio) := by
  induction fuel generalizing rio k buf len with
  | zero => rfl
  | succ n ih =>
    rw [serve_tee_run, read_lines]
    simp only
    by_cases h : (rio_readlineb rio MAXLINE).ret > 0
    · rw [if_pos h, if_pos h, tee_copies, if_pos (hw k)]
      simp only [rio_readlineb_toNat rio MAXLINE h, List.take_length]
      by_cases hg : ms = true ∧ len + (rio_readlineb rio MAXLINE).buf.length < MAX_OBJECT_SIZE
      · rw [if_pos hg, if_pos hg, ih]
      · rw [if_neg hg, if_neg hg, ih]
    · rw [if_neg h, if_neg h]
      rfl

/-! ## Facts about the cache engine -/

theorem sessions_on_cons (x : Session) (ss : List Session) (id : Nat) :
    sessions_on (x :: ss) id
      = sessions_on ss id + if x.view.map View.id = some id then 1 else 0 := by
  unfold sessions_on
  rw [List.countP_cons]
  simp

theorem sessions_on_filter_le (q : Session → Bool) (ss : List Session) (id : Nat) :
    sessions_on (ss.filter q) id ≤ sessions_on ss id :=
  List.Sublist.countP_le _ (List.filter_sublist ss)

theorem sessions_on_filter_lt (q : Session → Bool) (ss : List Session) (id : Nat)
    (x : Session) (hx : x ∈ ss) (hq : q x = false) (hv : x.view.map View.id = some id) :
    sessions_on (ss.filter q) id + 1 ≤ sessions_on ss id := by
  induction ss with
  | nil => simp at hx
  | cons y ys ih =>
    rcases List.mem_cons.mp hx with rfl | hx
    · rw [List.filter_cons_of_neg (by simp [hq]), sessions_on_cons, if_pos hv]
      have := sessions_on_filter_le q ys id
      omega
    · have := ih hx
      by_cases hy : q y = true
      · rw [List.filter_cons_of_pos hy, sessions_on_cons, sessions_on_cons]
        omega
      · rw [List.filter_cons_of_neg hy, sessions_on_cons]
        omega

theorem sessions_on_pos (ss : List Session) (x : Session) (v : View) (hx : x ∈ ss)
    (hv : x.view = some v) : 0 < sessions_on ss v.id := by
  unfold sessions_on
  rw [List.countP_pos_iff]
  exact ⟨x, hx, by simp [hv]⟩

theorem exists_of_sessions_on_pos (ss : List Session) (id : Nat)
    (h : 0 < sessions_on ss id) : ∃ x ∈ ss, ∃ v, x.view = some v ∧ v.id = id := by
  unfold sessions_on at h
  rw [List.countP_pos_iff] at h
  obtain ⟨x, hx, hp⟩ := h
  cases hv : x.view with
  | none => simp [hv] at hp
  | some v =>
    refine ⟨x, hx, v, hv, ?_⟩
    simpa [hv] using hp

theorem unpin_id (id : Nat) (e : Entry) : (Entry.unpin id e).id = e.id := by
  unfold Entry.unpin
  split_ifs <;> rfl

theorem unpin_bytes (id : Nat) (e : Entry) : (Entry.unpin id e).bytes = e.bytes := by
  unfold Entry.unpin
  split_ifs <;> rfl

theorem map_id_unpin (id : Nat) (l : List Entry) :
    (l.map (Entry.unpin id)).map Entry.id = l.map Entry.id := by
  rw [List.map_map]
  exact List.map_congr_left (fun e _ => unpin_id id e)

/-- Entries with the same address are the same entry. -/
theorem Cache.wf.unique (c : Cache) (h : c.wf) (a b : Entry)
    (ha : a ∈ c.alive) (hb : b ∈ c.alive) (hid : a.id = b.id) : a = b :=
  List.inj_on_of_nodup_map h.nodup ha hb hid

theorem wf_init (max_bytes : Nat) : (Cache.init max_bytes).wf := by
  refine ⟨?_, ?_⟩ <;> simp [Cache.init, Cache.alive]

/-- A change of the cache that creates no entry keeps the addresses distinct. -/
theorem wf_of_subperm (c c2 : Cache) (h : c.wf) (hn : c.next_id ≤ c2.next_id)
    (hs : (c2.alive.map Entry.id).Subperm (c.alive.map Entry.id)) : c2.wf := by
  refine ⟨?_, ?_⟩
  · intro i hi
    have := h.ids_lt i (hs.subset hi)
    omega
  · obtain ⟨l, hl, hsub⟩ := hs
    exact (List.Perm.nodup_iff hl).mp (h.nodup.sublist hsub)

theorem wf_read_begin (c : Cache) (fp : List Char) (h : c.wf) : (c.read_begin fp).1.wf := by
  unfold Cache.read_begin
  cases hf : c.resident.find? (fun e => e.fp = fp) with
  | none => exact h
  | some e =>
    simp only
    have her : e ∈ c.resident := List.mem_of_find?_eq_some hf
    have hperm : c.resident.Perm (e :: c.resident.erase e) := List.perm_cons_erase her
    refine wf_of_subperm c _ h (Nat.le_refl _) (List.Perm.subperm ?_)
    simp only [Cache.alive]
    have := ((hperm.append_right c.orphaned).map Entry.id).symm
    simpa using this

theorem wf_unpin (c : Cache) (id : Nat) (h : c.wf) : (c.unpin id).wf := by
  refine wf_of_subperm c _ h (Nat.le_refl _) (List.Sublist.subperm ?_)
  simp only [Cache.unpin, Cache.alive, List.map_append]
  rw [map_id_unpin]
  refine List.Sublist.append_left ?_ _
  rw [← map_id_unpin id c.orphaned]
  exact (List.filter_sublist _).map _

theorem wf_read_end (c : Cache) (fp : List Char) (h : c.wf) : (c.read_end fp).wf := by
  unfold Cache.read_end
  cases c.find_pinned fp with
  | none => exact h
  | some e => exact wf_unpin c e.id h

theorem alive_evict_tail (c : Cache) (e : Entry) (hl : c.resident.getLast? = some e) :
    c.alive = c.resident.dropLast ++ [e] ++ c.orphaned
    ∧ c.evict_tail = { c with
        resident := c.resident.dropLast,
        orphaned := if e.readers > 0 then e :: c.orphaned else c.orphaned,
        used_bytes := c.used_bytes - e.len } := by
  constructor
  · rw [List.dropLast_append_getLast? e hl]
    rfl
  · unfold Cache.evict_tail
    rw [hl]

theorem wf_evict_tail (c : Cache) (h : c.wf) : c.evict_tail.wf := by
  cases hl : c.resident.getLast? with
  | none =>
    unfold Cache.evict_tail
    rw [hl]
    exact h
  | some e =>
    obtain ⟨ha, he⟩ := alive_evict_tail c e hl
    rw [he]
    refine wf_of_subperm c _ h (Nat.le_refl _) ?_
    rw [ha]
    simp only [Cache.alive]
    split_ifs with hr
    · refine List.Perm.subperm (List.Perm.map _ ?_)
      simp only [List.append_assoc, List.singleton_append]
      exact List.Perm.refl _
    · refine List.Sublist.subperm (List.Sublist.map _ ?_)
      simp only [List.append_assoc]
      exact List.Sublist.append_left (List.sublist_append_right _ _) _

theorem wf_evict_until (fuel : Nat) (c : Cache) (len : Nat) (h : c.wf) :
    (Cache.evict_until fuel c len).wf := by
  induction fuel generalizing c with
  | zero => exact h
  | succ n ih =>
    rw [Cache.evict_until]
    split_ifs
    · exact h
    · exact ih _ (wf_evict_tail c h)

theorem wf_insert (c : Cache) (fp bytes : List Char) (len used : Nat) (h : c.wf) :
    Cache.wf { c with
      resident := ⟨c.next_id, fp, bytes, len, 0⟩ :: c.resident,
      used_bytes := used,
      next_id := c.next_id + 1 } := by
  refine ⟨?_, ?_⟩
  · intro i hi
    simp only [Cache.alive, List.cons_append, List.map_cons, List.mem_cons] at hi ⊢
    rcases hi with rfl | hi
    · omega
    · have := h.ids_lt i hi
      omega
  · simp only [Cache.alive, List.cons_append, List.map_cons, List.nodup_cons]
    refine ⟨fun hm => ?_, h.nodup⟩
    have := h.ids_lt _ hm
    omega

theorem wf_write (c : Cache) (fp bytes : List Char) (len : Nat) (h : c.wf) :
    (c.write fp bytes len).wf := by
  unfold Cache.write
  simp only
  split_ifs
  · exact h
  · exact wf_insert _ fp bytes len _ (wf_evict_until _ c len h)
  · exact wf_evict_until _ c len h

theorem wf_step (s : System) (op : Op) (h : s.cache.wf) : (s.step op).cache.wf := by
  cases op with
  | read_begin w fp => exact wf_read_begin s.cache fp h
  | read_end w fp => exact wf_read_end s.cache fp h
  | write w fp bytes len => exact wf_write s.cache fp bytes len h

theorem wf_run (ops : List Op) (s : System) (h : s.cache.wf) : (s.run ops).cache.wf := by
  induction ops generalizing s with
  | nil => exact h
  | cons op ops ih => exact ih _ (wf_step s op h)

theorem find_pinned_some (c : Cache) (fp : List Char) (e : Entry)
    (h : c.find_pinned fp = some e) : e ∈ c.alive ∧ e.fp = fp := by
  unfold Cache.find_pinned at h
  cases hr : c.resident.find? (fun e => e.fp = fp) with
  | some e2 =>
    rw [hr] at h
    simp only [Option.some.injEq] at h
    subst h
    exact ⟨List.mem_append_left _ (List.mem_of_find?_eq_some hr),
      by simpa using List.find?_some hr⟩
  | none =>
    rw [hr] at h
    simp only at h
    exact ⟨List.mem_append_right _ (List.mem_of_find?_eq_some h),
      by simpa using List.find?_some h⟩

theorem holds_of_pins (c : Cache) (id : Nat) (bytes fp : List Char)
    (h : c.pins id bytes fp) : c.holds id bytes := by
  obtain ⟨e, he, hid, hb, _, _⟩ := h
  exact ⟨e, he, hid, hb⟩

/-- A hit pins the entry of its view. -/
theorem pins_of_hit (c : Cache) (fp : List Char) (v : View)
    (h : (c.read_begin fp).2 = some v) : (c.read_begin fp).1.pins v.id v.bytes fp := by
  unfold Cache.read_begin at h ⊢
  cases hf : c.resident.find? (fun e => e.fp = fp) with
  | none =>
    rw [hf] at h
    simp at h
  | some e =>
    rw [hf] at h
    simp only [Option.some.injEq] at h
    subst h
    have hfp : e.fp = fp := by simpa using List.find?_some hf
    exact ⟨_, List.mem_append_left _ (List.mem_cons_self _ _), rfl, rfl, hfp, by simp⟩

theorem pins_read_begin (c : Cache) (fp2 : List Char) (id : Nat) (bytes fp : List Char)
    (h : c.pins id bytes fp) : (c.read_begin fp2).1.pins id bytes fp := by
  unfold Cache.read_begin
  cases hf : c.resident.find? (fun e => e.fp = fp2) with
  | none => exact h
  | some e2 =>
    simp only
    obtain ⟨e, he, hid, hb, hfp, hr⟩ := h
    by_cases hee : e = e2
    · subst hee
      exact ⟨_, List.mem_append_left _ (List.mem_cons_self _ _), hid, hb, hfp,
        by simp⟩
    · refine ⟨e, ?_, hid, hb, hfp, hr⟩
      simp only [Cache.alive, List.cons_append, List.mem_cons, List.mem_append] at he ⊢
      rcases he with he | he
      · exact Or.inr (Or.inl ((List.mem_erase_of_ne hee).mpr he))
      · exact Or.inr (Or.inr he)

theorem pins_unpin (c : Cache) (e2 : Entry) (id : Nat) (bytes fp : List Char) (hwf : c.wf)
    (he2 : e2 ∈ c.alive) (hfp2 : e2.fp ≠ fp) (h : c.pins id bytes fp) :
    (c.unpin e2.id).pins id bytes fp := by
  obtain ⟨e, he, hid, hb, hfp, hr⟩ := h
  have hne : e.id ≠ e2.id := fun hc => by
    have := hwf.unique c e e2 he he2 hc
    rw [this] at hfp
    exact hfp2 hfp
  have hu : Entry.unpin e2.id e = e := by
    unfold Entry.unpin
    rw [if_neg hne]
  refine ⟨e, ?_, hid, hb, hfp, hr⟩
  simp only [Cache.unpin, Cache.alive, List.mem_append, List.mem_map, List.mem_filter] at he ⊢
  rcases he with he | he
  · exact Or.inl ⟨e, he, hu⟩
  · refine Or.inr ⟨⟨e, he, hu⟩, ?_⟩
    simp [hne]

theorem pins_read_end (c : Cache) (fp2 : List Char) (id : Nat) (bytes fp : List Char)
    (hwf : c.wf) (hne : fp2 ≠ fp) (h : c.pins id bytes fp) :
    (c.read_end fp2).pins id bytes fp := by
  unfold Cache.read_end
  cases hf : c.find_pinned fp2 with
  | none => exact h
  | some e2 =>
    obtain ⟨he2, hfp2⟩ := find_pinned_some c fp2 e2 hf
    exact pins_unpin c e2 id bytes fp hwf he2 (by rw [hfp2]; exact hne) h

theorem pins_evict_tail (c : Cache) (id : Nat) (bytes fp : List Char)
    (h : c.pins id bytes fp) : c.evict_tail.pins id bytes fp := by
  cases hl : c.resident.getLast? with
  | none =>
    unfold Cache.evict_tail
    rw [hl]
    exact h
  | some e2 =>
    obtain ⟨ha, he2⟩ := alive_evict_tail c e2 hl
    rw [he2]
    obtain ⟨e, he, hid, hb, hfp, hr⟩ := h
    refine ⟨e, ?_, hid, hb, hfp, hr⟩
    rw [ha] at he
    simp only [Cache.alive, List.mem_append, List.mem_singleton] at he ⊢
    rcases he with (he | he) | he
    · exact Or.inl he
    · subst he
      rw [if_pos hr]
      exact Or.inr (List.mem_cons_self _ _)
    · refine Or.inr ?_
      split_ifs
      · exact List.mem_cons_of_mem _ he
      · exact he

theorem pins_evict_until (fuel : Nat) (c : Cache) (len : Nat) (id : Nat)
    (bytes fp : List Char) (h : c.pins id bytes fp) :
    (Cache.evict_until fuel c len).pins id bytes fp := by
  induction fuel generalizing c with
  | zero => exact h
  | succ n ih =>
    rw [Cache.evict_until]
    split_ifs
    · exact h
    · exact ih _ (pins_evict_tail c id bytes fp h)

theorem pins_write (c : Cache) (fp2 bytes2 : List Char) (len : Nat) (id : Nat)
    (bytes fp : List Char) (h : c.pins id bytes fp) :
    (c.write fp2 bytes2 len).pins id bytes fp := by
  unfold Cache.write
  simp only
  split_ifs
  · exact h
  · obtain ⟨e, he, hid, hb, hfp, hr⟩ := pins_evict_until c.resident.length c len id bytes fp h
    refine ⟨e, ?_, hid, hb, hfp, hr⟩
    simp only [Cache.alive, List.cons_append, List.mem_cons]
    exact Or.inr he
  · exact pins_evict_until _ c len id bytes fp h

/-- A pinned entry stays alive and pinned under any calls other than a
`read_end` with its fingerprint. -/
theorem pins_run (ops : List Op) (s : System) (id : Nat) (bytes fp : List Char)
    (hwf : s.cache.wf) (hops : ∀ w2, Op.read_end w2 fp ∉ ops)
    (h : s.cache.pins id bytes fp) : (s.run ops).cache.pins id bytes fp := by
  induction ops generalizing s with
  | nil => exact h
  | cons op ops ih =>
    refine ih (s.step op) (wf_step s op hwf)
      (fun w2 hm => hops w2 (List.mem_cons_of_mem _ hm)) ?_
    cases op with
    | read_begin w fp2 => exact pins_read_begin s.cache fp2 id bytes fp h
    | read_end w fp2 =>
      refine pins_read_end s.cache fp2 id bytes fp hwf ?_ h
      intro hc
      exact hops w (by rw [hc]; exact List.mem_cons_self _ _)
    | write w fp2 bytes2 len => exact pins_write s.cache fp2 bytes2 len id bytes fp h

theorem Inv_init (max_bytes : Nat) : (System.init max_bytes).Inv := by
  refine ⟨wf_init max_bytes, ?_, ?_⟩ <;> simp [System.init, Cache.init, Cache.alive]

/-- The invariant after a change of the cache that keeps the open sessions,
frees only entries without readers and changes no entry that stays. -/
theorem Inv_of_subset (c c2 : Cache) (ss : List Session) (h : System.Inv ⟨c, ss⟩)
    (hwf : c2.wf)
    (hsub : ∀ e ∈ c2.alive, e ∈ c.alive)
    (hfree : ∀ e ∈ c.alive, e ∉ c2.alive → e.readers = 0) :
    System.Inv ⟨c2, ss⟩ := by
  refine ⟨hwf, ?_, ?_⟩
  · intro e he
    exact h.pinned e (hsub e he)
  · intro x hx v hv
    obtain ⟨e, he, hid, hb⟩ := h.views x hx v hv
    by_cases hin : e ∈ c2.alive
    · exact ⟨e, hin, hid, hb⟩
    · have hr := hfree e he hin
      have hp := h.pinned e he
      have hpos := sessions_on_pos ss x v hx hv
      simp only at hp
      rw [hid] at hp
      omega

theorem Inv_evict_tail (c : Cache) (ss : List Session) (h : System.Inv ⟨c, ss⟩) :
    System.Inv ⟨c.evict_tail, ss⟩ := by
  have hwf := wf_evict_tail c h.wf
  cases hl : c.resident.getLast? with
  | none =>
    unfold Cache.evict_tail
    rw [hl]
    exact h
  | some e =>
    obtain ⟨halive, he⟩ := alive_evict_tail c e hl
    rw [he] at hwf ⊢
    refine Inv_of_subset c _ ss h hwf ?_ ?_
    · intro x hx
      rw [halive]
      simp only [Cache.alive, List.mem_append] at hx ⊢
      rcases hx with hx | hx
      · exact Or.inl (Or.inl hx)
      · split_ifs at hx with hr
        · rcases List.mem_cons.mp hx with rfl | hx
          · exact Or.inl (Or.inr (by simp))
          · exact Or.inr hx
        · exact Or.inr hx
    · intro x hx hnx
      rw [halive] at hx
      simp only [Cache.alive, List.mem_append, List.mem_singleton] at hx hnx
      by_cases hr : e.readers > 0
      · rw [if_pos hr] at hnx
        simp only [List.mem_cons] at hnx
        rcases hx with (hx | hx) | hx
        · exact absurd (Or.inl hx) hnx
        · exact absurd (Or.inr (Or.inl hx)) hnx
        · exact absurd (Or.inr (Or.inr hx)) hnx
      · rw [if_neg hr] at hnx
        rcases hx with (hx | hx) | hx
        · exact absurd (Or.inl hx) hnx
        · rw [hx]
          omega
        · exact absurd (Or.inr hx) hnx

theorem Inv_evict_until (fuel : Nat) (c : Cache) (len : Nat) (ss : List Session)
    (h : System.Inv ⟨c, ss⟩) : System.Inv ⟨Cache.evict_until fuel c len, ss⟩ := by
  induction fuel generalizing c with
  | zero => exact h
  | succ n ih =>
    rw [Cache.evict_until]
    split_ifs
    · exact h
    · exact ih _ (Inv_evict_tail c ss h)

theorem Inv_write (c : Cache) (ss : List Session) (fp bytes : List Char) (len : Nat)
    (h : System.Inv ⟨c, ss⟩) : System.Inv ⟨c.write fp bytes len, ss⟩ := by
  have hwf := wf_write c fp bytes len h.wf
  unfold Cache.write at hwf ⊢
  simp only at hwf ⊢
  split_ifs at hwf ⊢ with h1 h2
  · exact h
  · have h3 := Inv_evict_until c.resident.length c len ss h
    generalize Cache.evict_until c.resident.length c len = c1 at h3 h2 hwf ⊢
    have hfresh : ∀ e ∈ c1.alive, e.id ≠ c1.next_id := fun e he => by
      have := h3.wf.ids_lt e.id (List.mem_map_of_mem _ he)
      simp only at this
      omega
    refine ⟨hwf, ?_, ?_⟩
    · intro e he
      simp only [Cache.alive, List.cons_append, List.mem_cons] at he
      rcases he with rfl | he
      · simp only
        by_contra hc
        obtain ⟨x, hx, v, hv, hid⟩ := exists_of_sessions_on_pos ss c1.next_id (by omega)
        obtain ⟨e, he, heid, _⟩ := h3.views x hx v hv
        exact hfresh e he (by rw [heid, hid])
      · exact h3.pinned e he
    · intro x hx v hv
      obtain ⟨e, he, hid, hb⟩ := h3.views x hx v hv
      refine ⟨e, ?_, hid, hb⟩
      simp only [Cache.alive, List.cons_append, List.mem_cons]
      exact Or.inr he
  · exact Inv_evict_until c.resident.length c len ss h

theorem Inv_read_begin (c : Cache) (ss : List Session) (w : Nat) (fp : List Char)
    (h : System.Inv ⟨c, ss⟩) :
    System.Inv ⟨(c.read_begin fp).1, ⟨w, (c.read_begin fp).2⟩ :: ss⟩ := by
  have hwf := wf_read_begin c fp h.wf
  unfold Cache.read_begin at hwf ⊢
  cases hf : c.resident.find? (fun e => e.fp = fp) with
  | none =>
    simp only
    refine ⟨h.wf, ?_, ?_⟩
    · intro e he
      simp only [sessions_on_cons, Option.map_none']
      exact h.pinned e he
    · intro x hx v hv
      rcases List.mem_cons.mp hx with rfl | hx
      · simp at hv
      · exact h.views x hx v hv
  | some e =>
    rw [hf] at hwf
    simp only at hwf ⊢
    have her : e ∈ c.resident := List.mem_of_find?_eq_some hf
    have hea : e ∈ c.alive := List.mem_append_left _ her
    have hperm : c.resident.Perm (e :: c.resident.erase e) := List.perm_cons_erase her
    have hmem : ∀ x, x ∈ c.alive ↔ x = e ∨ x ∈ c.resident.erase e ∨ x ∈ c.orphaned := by
      intro x
      simp only [Cache.alive, List.mem_append]
      rw [hperm.mem_iff, List.mem_cons, or_assoc]
    have hne : ∀ x, x ∈ c.resident.erase e ∨ x ∈ c.orphaned → x.id ≠ e.id := by
      intro x hx hid
      have hnd2 := hwf.nodup
      simp only [Cache.alive, List.cons_append, List.map_cons, List.nodup_cons, List.mem_map,
        List.mem_append, not_exists, not_and] at hnd2
      exact hnd2.1 x hx hid
    refine ⟨hwf, ?_, ?_⟩
    · intro x hx
      simp only [Cache.alive, List.cons_append, List.mem_cons, List.mem_append] at hx
      rw [sessions_on_cons]
      simp only [Option.map_some', Option.some.injEq]
      rcases hx with rfl | hx
      · have := h.pinned e hea
        simp only at this ⊢
        rw [if_pos trivial]
        omega
      · rw [if_neg (fun hc => hne x hx hc.symm)]
        exact h.pinned x ((hmem x).mpr (Or.inr hx))
    · intro x hx v hv
      have key : ∀ id bytes, c.holds id bytes →
          Cache.holds { c with resident := { e with readers := e.readers + 1 }
            :: c.resident.erase e } id bytes := by
        rintro id bytes ⟨y, hy, hid, hb⟩
        rcases (hmem y).mp hy with rfl | hy
        · exact ⟨_, List.mem_append_left _ (List.mem_cons_self _ _), hid, hb⟩
        · refine ⟨y, ?_, hid, hb⟩
          simp only [Cache.alive, List.cons_append, List.mem_cons, List.mem_append]
          exact Or.inr hy
      rcases List.mem_cons.mp hx with rfl | hx
      · simp only [Option.some.injEq] at hv
        subst hv
        exact key _ _ ⟨e, hea, rfl, rfl⟩
      · exact key _ _ (h.views x hx v hv)

/-- The end of a session that missed, when the cache unpins nothing. -/
theorem Inv_close (c : Cache) (ss : List Session) (w : Nat) (h : System.Inv ⟨c, ss⟩) :
    System.Inv ⟨c, ss.filter (fun y => y.worker ≠ w)⟩ := by
  refine ⟨h.wf, ?_, ?_⟩
  · intro e he
    exact Nat.le_trans (sessions_on_filter_le _ ss e.id) (h.pinned e he)
  · intro y hy v hyv
    exact h.views y (List.mem_of_mem_filter hy) v hyv

/-- The end of a session that hit, when the cache unpins the entry of its
view. -/
theorem Inv_unpin (c : Cache) (ss : List Session) (w : Nat) (x : Session) (v : View)
    (hx : x ∈ ss) (hw : x.worker = w) (hv : x.view = some v) (h : System.Inv ⟨c, ss⟩) :
    System.Inv ⟨c.unpin v.id, ss.filter (fun y => y.worker ≠ w)⟩ := by
  have hq : (fun y : Session => decide (y.worker ≠ w)) x = false := by simp [hw]
  have hxv : x.view.map View.id = some v.id := by rw [hv]; rfl
  have hsrc : ∀ y, y ∈ (c.unpin v.id).alive → ∃ e ∈ c.alive, y = Entry.unpin v.id e := by
    intro y hy
    simp only [Cache.unpin, Cache.alive, List.mem_append, List.mem_map, List.mem_filter]
      at hy ⊢
    rcases hy with ⟨e, he, rfl⟩ | ⟨⟨e, he, rfl⟩, _⟩
    · exact ⟨e, Or.inl he, rfl⟩
    · exact ⟨e, Or.inr he, rfl⟩
  refine ⟨wf_unpin c v.id h.wf, ?_, ?_⟩
  · intro y hy
    obtain ⟨e, he, rfl⟩ := hsrc y hy
    rw [unpin_id]
    have hp := h.pinned e he
    simp only at hp ⊢
    unfold Entry.unpin
    by_cases hid : e.id = v.id
    · rw [if_pos hid]
      simp only
      have := sessions_on_filter_lt (fun y => decide (y.worker ≠ w)) ss v.id x hx hq hxv
      rw [hid] at hp ⊢
      omega
    · rw [if_neg hid]
      exact Nat.le_trans (sessions_on_filter_le _ ss e.id) hp
  · intro y hy u hyu
    have hy2 := List.mem_of_mem_filter hy
    obtain ⟨e, he, hid, hb⟩ := h.views y hy2 u hyu
    refine ⟨Entry.unpin v.id e, ?_, by rw [unpin_id, hid], by rw [unpin_bytes, hb]⟩
    simp only [Cache.unpin, Cache.alive, List.mem_append, List.mem_map, List.mem_filter]
      at he ⊢
    rcases he with he | he
    · exact Or.inl ⟨e, he, rfl⟩
    · refine Or.inr ⟨⟨e, he, rfl⟩, ?_⟩
      simp only [Bool.not_eq_true', decide_eq_false_iff_not, not_and, unpin_id]
      intro hev
      have hp := h.pinned e (List.mem_append_right _ he)
      have h1 := sessions_on_filter_lt (fun y => decide (y.worker ≠ w)) ss v.id x hx hq hxv
      have h2 := sessions_on_pos _ y u hy hyu
      simp only at hp h2
      rw [← hid, hev] at h2
      rw [hev] at hp
      unfold Entry.unpin
      rw [if_pos hev]
      simp only
      omega

/-- A paired call keeps the invariant of the reader counts. -/
theorem Inv_step (s : System) (op : Op) (hp : s.paired op = true) (h : s.Inv) :
    (s.step op).Inv := by
  obtain ⟨c, ss⟩ := s
  cases op with
  | read_begin w fp => exact Inv_read_begin c ss w fp h
  | read_end w fp =>
    simp only [System.step, System.paired] at hp ⊢
    cases hf : ss.find? (fun x => x.worker = w) with
    | none =>
      rw [hf] at hp
      simp at hp
    | some x =>
      rw [hf] at hp
      simp only [decide_eq_true_eq] at hp
      have hx : x ∈ ss := List.mem_of_find?_eq_some hf
      have hw : x.worker = w := by
        have := List.find?_some hf
        simpa using this
      unfold Cache.read_end
      cases hv : x.view with
      | none =>
        rw [hv] at hp
        cases hfp : c.find_pinned fp with
        | none => exact Inv_close c ss w h
        | some e =>
          rw [hfp] at hp
          simp at hp
      | some v =>
        rw [hv] at hp
        cases hfp : c.find_pinned fp with
        | none =>
          rw [hfp] at hp
          simp at hp
        | some e =>
          rw [hfp] at hp
          simp only [Option.map_some', Option.some.injEq] at hp
          simp only
          rw [hp]
          exact Inv_unpin c ss w x v hx hw hv h
  | write w fp bytes len => exact Inv_write c ss fp bytes len h

theorem Inv_run (ops : List Op) (s : System) (hp : s.paired_run ops = true) (h : s.Inv) :
    (s.run ops).Inv := by
  induction ops generalizing s with
  | nil => exact h
  | cons op ops ih =>
    rw [System.paired_run, Bool.and_eq_true] at hp
    exact ih _ hp.2 (Inv_step s op hp.1 h)

/-- A session stays open as long as its worker does not call `read_end`. -/
theorem session_stays (ops : List Op) (s : System) (x : Session) (hx : x ∈ s.sessions)
    (hops : ∀ fp, Op.read_end x.worker fp ∉ ops) : x ∈ (s.run ops).sessions := by
  induction ops generalizing s with
  | nil => exact hx
  | cons op ops ih =>
    refine ih (s.step op) ?_ (fun fp hm => hops fp (List.mem_cons_of_mem _ hm))
    cases op with
    | read_begin w fp => exact List.mem_cons_of_mem _ hx
    | read_end w fp =>
      simp only [System.step, List.mem_filter]
      refine ⟨hx, ?_⟩
      have : x.worker ≠ w := fun e => hops fp (by rw [e]; exact List.mem_cons_self _ _)
      simpa using this
    | write w fp bytes len => exact hx

/-- The view of a hit stays valid under paired calls, until the worker calls
`read_end`. -/
theorem view_stays_valid (s : System) (h : s.Inv) (w : Nat) (fp : List Char) (v : View)
    (ops : List Op)
    (hhit : (s.cache.read_begin fp).2 = some v)
    (hp : (s.step (Op.read_begin w fp)).paired_run ops = true)
    (hops : ∀ fp2, Op.read_end w fp2 ∉ ops) :
    ((s.step (Op.read_begin w fp)).run ops).cache.holds v.id v.bytes := by
  have hinv := Inv_run ops _ hp (Inv_step s (Op.read_begin w fp) rfl h)
  have hx : (⟨w, some v⟩ : Session) ∈ (s.step (Op.read_begin w fp)).sessions := by
    simp only [System.step]
    rw [hhit]
    exact List.mem_cons_self _ _
  exact hinv.views _ (session_stays ops _ _ hx hops) v rfl

/-! ## The URI parser: claims -/

/-- C1: `parse_uri` is a left inverse of canonical URI construction. For every
host in `[a-z0-9.-]+`, port in `[0-9]+` and path starting with a slash, with
the port shorter than `PORTLEN`, the host shorter than `HOSTLEN` and the whole
URI shorter than `MAXLINE`, parsing `http://host:port path` returns 0 and
yields exactly `(host, port, path)`. -/
theorem parse_uri_left_inverse (host port path : List Char)
    (_hhost : host ≠ [])
    (hhc : ∀ c ∈ host, c.isLower = true ∨ c.isDigit = true ∨ c = '.' ∨ c = '-')
    (_hport : port ≠ [])
    (hpc : ∀ c ∈ port, c.isDigit = true)
    (hpath : path.head? = some '/')
    (hpl : port.length < PORTLEN) (_hhl : host.length < HOSTLEN)
    (hlen : ("http://".toList ++ host ++ ":".toList ++ port ++ path).length < MAXLINE) :
    parse_uri ("http://".toList ++ host ++ ":".toList ++ port ++ path)
      = some (host, port, path) := by
  have hs : '/' ∉ host := fun hm => by
    rcases hhc _ hm with h | h | h | h <;> revert h <;> decide
  have hc : ':' ∉ host := fun hm => by
    rcases hhc _ hm with h | h | h | h <;> revert h <;> decide
  have hsp : '/' ∉ port := fun hm => by
    have h := hpc _ hm
    revert h
    decide
  obtain ⟨p, rfl⟩ : ∃ p, path = '/' :: p := by
    cases path with
    | nil => simp at hpath
    | cons c p =>
      simp only [List.head?_cons, Option.some.injEq] at hpath
      exact ⟨p, by rw [hpath]⟩
  have hauth : '/' ∉ host ++ ':' :: port := by
    simp only [List.mem_append, List.mem_cons, not_or]
    exact ⟨hs, by decide, hsp⟩
  have e : "http://".toList ++ host ++ ":".toList ++ port ++ '/' :: p
      = "http://".toList ++ ((host ++ ':' :: port) ++ '/' :: p) := by simp
  have hl : (host ++ ':' :: port).length + (p.length + 1) + 7 < MAXLINE := by
    have := hlen
    simp only [List.length_append, List.length_cons] at this
    simp only [List.length_append, List.length_cons]
    have e7 : "http://".toList.length = 7 := rfl
    have e1 : ":".toList.length = 1 := rfl
    omega
  rw [e, parse_uri_authority_path _ _ hauth, if_neg (by omega), if_neg (by omega),
    parse_port_colon _ _ _ hc, if_neg (by omega)]

/-- The witness of C1: `http://example.com:8080/a/b`. -/
theorem parse_uri_left_inverse_witness :
    parse_uri ("http://".toList ++ "example.com".toList ++ ":".toList ++ "8080".toList
        ++ "/a/b".toList)
      = some ("example.com".toList, "8080".toList, "/a/b".toList) :=
  parse_uri_left_inverse "example.com".toList "8080".toList "/a/b".toList
    (by decide) (by decide) (by decide) (by decide) (by decide) (by decide) (by decide)
    (by decide)

/-- C2: `parse_uri` returns -1 for every URI that does not contain `://`, and
for every URI (a C string, free of NUL) whose text before the first `://` is
not exactly `http`; when that text is exactly `http`, the parser fails only if
a length bound is exceeded: the authority or the path reaches `MAXLINE` bytes,
or the port reaches `PORTLEN` bytes. -/
theorem parse_uri_scheme :
    (∀ uri : List Char, ¬ "://".toList <:+: uri → parse_uri uri = none)
    ∧ (∀ pre rest : List Char, '\x00' ∉ pre →
        (∀ k, k < pre.length → ¬ "://".toList <+: (pre ++ "://".toList ++ rest).drop k) →
        pre ≠ "http".toList →
        parse_uri (pre ++ "://".toList ++ rest) = none)
    ∧ (∀ rest : List Char,
        parse_uri ("http://".toList ++ rest) = none
          ↔ (MAXLINE ≤ (rest.takeWhile (fun d => d != '/')).length
            ∨ MAXLINE ≤ (rest.dropWhile (fun d => d != '/')).length
            ∨ PORTLEN ≤ (((rest.takeWhile (fun d => d != '/')).dropWhile
                (fun d => d != ':')).drop 1).length)) := by
  refine ⟨?_, ?_, ?_⟩
  · intro uri h
    unfold parse_uri
    rw [strstr_of_absent _ _ h]
  · intro pre rest hnul hfirst hne
    unfold parse_uri
    rw [strstr_first _ _ _ hfirst]
    have ht : List.take pre.length (pre ++ "://".toList ++ rest) = pre := by
      simp [List.append_assoc]
    have hcmp : strncmp pre "http".toList 5 ≠ 0 := fun h0 =>
      hne (eq_of_strncmp_eq_zero pre "http".toList 5 hnul (by decide) (by decide) h0)
    simp only [ht]
    rw [if_pos hcmp]
  · intro rest
    rw [parse_uri_http_eq, parse_port_eq]
    split_ifs with ha hb
    · simp only [true_iff]
      tauto
    · simp only [true_iff]
      tauto
    · simp only [reduceCtorEq, false_iff]
      tauto

/-- The witness of C2: the scheme `https` is rejected. -/
theorem parse_uri_scheme_witness :
    parse_uri ("https".toList ++ "://".toList ++ "x/".toList) = none :=
  parse_uri_scheme.2.1 "https".toList "x/".toList (by decide) (by decide) (by decide)

/-- C3, as stated, fails: a host of 257 bytes, longer than `HOSTLEN`, is
accepted by `parse_uri`, whose bound on the host buffer is `MAXLINE`. -/
theorem parse_uri_hostlen_counterexample :
    HOSTLEN < (List.replicate 257 'a').length
    ∧ parse_uri ("http://".toList ++ List.replicate 257 'a' ++ ":".toList ++ "80".toList
        ++ "/".toList)
      = some (List.replicate 257 'a', "80".toList, "/".toList) := by
  constructor
  · rw [List.length_replicate]
    decide
  · exact parse_uri_long_host 257 (by decide)

/-- C3 (amended): for every URI `http://host:port path` whose host and port are
free of slashes, `parse_uri` returns -1 when the authority `host:port` has at
least `MAXLINE` bytes or the port has at least `PORTLEN = 8` bytes (`HOSTLEN`
is not a bound of the parser); and when such a URI with a port of at least 8
bytes arrives in a `GET` request line that fits the line buffer, `serve`
answers 400 and does nothing else. -/
theorem parse_uri_length_bounds :
    (∀ host port path : List Char, '/' ∉ host → '/' ∉ port →
      (MAXLINE ≤ (host ++ ":".toList ++ port).length ∨ PORTLEN ≤ port.length) →
      parse_uri ("http://".toList ++ host ++ ":".toList ++ port ++ path) = none)
    ∧ (∀ (env : Env) (host port path : List Char) (X : Char) (rest : List Char) (f : Bool),
      '/' ∉ host → '/' ∉ port → PORTLEN ≤ port.length →
      token ("http://".toList ++ host ++ ":".toList ++ port ++ path) →
      (X = '0' ∨ X = '1') →
      (request_line "GET".toList
        ("http://".toList ++ host ++ ":".toList ++ port ++ path) X).length < MAXLINE →
      serve env ⟨request_line "GET".toList
          ("http://".toList ++ host ++ ":".toList ++ port ++ path) X ++ rest, f⟩
        = Event.client_write
            ("HTTP/1.0 400 Bad Request\r\nContent-Type: text/html\r\n".toList
              ++ "Content-Length: 214\r\n\r\n".toList)
          :: (if env.client_write_ok 0 then
                [Event.client_write (error_body "GET".toList "400".toList
                  "Bad Request".toList "Proxy received a malformed request".toList)]
              else [])) := by
  constructor
  · intro host port path hh hp hlen
    exact parse_uri_too_long host port path hh hp hlen
  · intro env host port path X rest f hh hp hlen htok hX hfit
    rw [serve_request_line env _ _ X rest f (by decide) htok hX hfit]
    unfold serve_request
    rw [if_neg (by decide), parse_uri_too_long host port path hh hp (Or.inr hlen)]
    exact clienterror_get_400 _

/-- The witness of C3: the port `123456789` in a request line. -/
theorem parse_uri_length_bounds_witness :
    serve Env.offline ⟨request_line "GET".toList
        ("http://".toList ++ "h".toList ++ ":".toList ++ "123456789".toList ++ "/".toList) '1'
        ++ "\r\n".toList, false⟩
      = Event.client_write
          ("HTTP/1.0 400 Bad Request\r\nContent-Type: text/html\r\n".toList
            ++ "Content-Length: 214\r\n\r\n".toList)
        :: (if Env.offline.client_write_ok 0 then
              [Event.client_write (error_body "GET".toList "400".toList
                "Bad Request".toList "Proxy received a malformed request".toList)]
            else []) :=
  parse_uri_length_bounds.2 Env.offline "h".toList "123456789".toList "/".toList '1'
    "\r\n".toList false (by decide) (by decide) (by decide) (by decide) (by decide)
    (by decide)

/-- C4, as stated, fails: for a host of 8190 bytes without colon or slash,
`http://h` is parsed, but `http://h:80` is refused, its authority reaching
`MAXLINE` bytes. -/
theorem parse_uri_defaults_counterexample :
    List.replicate 8190 'a' ≠ []
    ∧ ':' ∉ List.replicate 8190 'a' ∧ '/' ∉ List.replicate 8190 'a'
    ∧ parse_uri ("http://".toList ++ List.replicate 8190 'a')
        = some (List.replicate 8190 'a', "80".toList, "/".toList)
    ∧ parse_uri ("http://".toList ++ List.replicate 8190 'a' ++ ":80".toList) = none := by
  refine ⟨?_, not_mem_replicate_a _ _ (by decide), not_mem_replicate_a _ _ (by decide), ?_, ?_⟩
  · intro h
    have := congrArg List.length h
    rw [List.length_replicate] at this
    exact absurd this (by decide)
  · exact parse_uri_host_only _ (not_mem_replicate_a _ _ (by decide))
      (not_mem_replicate_a _ _ (by decide)) (by rw [List.length_replicate]; decide)
  · exact parse_uri_long_host_port 8190 (by decide)

/-- C4 (amended): for every non-empty host `h` without colon or slash and with
`h.length + 4 < MAXLINE`, that is with the key `h:80/` shorter than `MAXLINE`
(always so for a request line that fits the line buffer), `parse_uri` succeeds on `http://h`, `http://h/`, `http://h:80` and
`http://h:80/` with the same result `(h, "80", "/")`, hence with the same
fingerprint `h:80/`; more generally, within the length bounds, omitting the
port yields the port `80` and omitting the path yields the path `/`, the other
components being those of the full form. -/
theorem parse_uri_defaults (h : List Char) (_hne : h ≠ [])
    (hc : ':' ∉ h) (hs : '/' ∉ h) (hl : h.length + 4 < MAXLINE) :
    (parse_uri ("http://".toList ++ h) = some (h, "80".toList, "/".toList)
      ∧ parse_uri ("http://".toList ++ h ++ "/".toList) = some (h, "80".toList, "/".toList)
      ∧ parse_uri ("http://".toList ++ h ++ ":80".toList) = some (h, "80".toList, "/".toList)
      ∧ parse_uri ("http://".toList ++ h ++ ":80/".toList)
          = some (h, "80".toList, "/".toList)
      ∧ fingerprint h "80".toList "/".toList = h ++ ":80/".toList)
    ∧ (∀ port path : List Char, '/' ∉ port → path.head? = some '/' →
        h.length + 1 + port.length < MAXLINE → port.length < PORTLEN →
        path.length < MAXLINE →
        parse_uri ("http://".toList ++ h ++ ":".toList ++ port ++ path)
            = some (h, port, path)
          ∧ parse_uri ("http://".toList ++ h ++ path) = some (h, "80".toList, path)
          ∧ parse_uri ("http://".toList ++ h ++ ":".toList ++ port)
              = some (h, port, "/".toList)) := by
  refine ⟨⟨?_, ?_, ?_, ?_, ?_⟩, ?_⟩
  · exact parse_uri_host_only h hc hs (by omega)
  · have := parse_uri_host_path h [] hc hs (by omega) (by simp [MAXLINE])
    simpa using this
  · have := parse_uri_host_port h "80".toList hc hs (by decide)
      (by simp only [String.toList, List.length_cons, List.length_nil]; omega) (by decide)
    simpa using this
  · have := parse_uri_host_port_path h "80".toList [] hc hs (by decide)
      (by simp only [String.toList, List.length_cons, List.length_nil]; omega) (by decide)
      (by simp [MAXLINE])
    simpa using this
  · unfold fingerprint
    rw [snprintf_snd]
    · simp
    · have e2 : "80".toList.length = 2 := rfl
      have e1 : "/".toList.length = 1 := rfl
      simp only [List.length_append, List.length_cons, e1, e2]
      omega
  · intro port path hps hpath hlen hport hpl
    obtain ⟨p, rfl⟩ : ∃ p, path = '/' :: p := by
      cases path with
      | nil => simp at hpath
      | cons c p =>
        simp only [List.head?_cons, Option.some.injEq] at hpath
        exact ⟨p, by rw [hpath]⟩
    have hpl2 : p.length + 1 < MAXLINE := by simpa using hpl
    refine ⟨?_, ?_, ?_⟩
    · have := parse_uri_host_port_path h port p hc hs hps hlen hport hpl2
      simpa using this
    · have := parse_uri_host_path h p hc hs (by omega) hpl2
      simpa using this
    · have := parse_uri_host_port h port hc hs hps hlen hport
      simpa using this

/-- The witness of C4: the host `example.com`. -/
theorem parse_uri_defaults_witness :
    parse_uri ("http://".toList ++ "example.com".toList)
      = some ("example.com".toList, "80".toList, "/".toList) :=
  (parse_uri_defaults "example.com".toList (by decide) (by decide) (by decide)
    (by decide)).1.1

/-! ## The header rewriter: claims -/

/-- C5, as stated, fails: the line `X-Host: a` begins with none of the four
field names, yet it is dropped; only the terminator reaches the out-buffer. -/
theorem read_requesthdrs_substring_counterexample :
    ¬ "Connection:".toList <+: "X-Host: a\r\n".toList
    ∧ ¬ "Proxy-Connection:".toList <+: "X-Host: a\r\n".toList
    ∧ ¬ "User-Agent:".toList <+: "X-Host: a\r\n".toList
    ∧ ¬ "Host:".toList <+: "X-Host: a\r\n".toList
    ∧ (read_requesthdrs ⟨"X-Host: a\r\n".toList ++ "\r\n".toList, false⟩
        (List.replicate MAXLINE '\x00')).ret = false
    ∧ (read_requesthdrs ⟨"X-Host: a\r\n".toList ++ "\r\n".toList, false⟩
        (List.replicate MAXLINE '\x00')).header.take
        (read_requesthdrs ⟨"X-Host: a\r\n".toList ++ "\r\n".toList, false⟩
          (List.replicate MAXLINE '\x00')).total = "\r\n".toList := by
  have hk : kept_lines ["X-Host: a\r\n".toList] = [] := by decide
  have e : "X-Host: a\r\n".toList ++ "\r\n".toList
      = ["X-Host: a\r\n".toList].flatten ++ ("\r\n".toList ++ []) := by decide
  have h := read_requesthdrs_terminated ["X-Host: a\r\n".toList] [] false
    (List.replicate MAXLINE '\x00') (by decide) (by decide) (by decide)
  rw [hk] at h
  rw [e, h]
  refine ⟨by decide, by decide, by decide, by decide, rfl, ?_⟩
  exact take_memcpy_zero _ _

/-- C5 (amended): `read_requesthdrs` drops a line if and only if the C string
of the line contains one of `Connection:`, `Proxy-Connection:`, `User-Agent:`,
`Host:` somewhere (a case-sensitive substring match, not a match at the start
of the line). When neither the lines `ls` read before the terminator nor the
terminator itself trip the overflow check, that is when the lines that are
not dropped and the two bytes of the terminator stay below `MAXLINE` together,
the call succeeds and the out-buffer holds, verbatim and in their order, the
lines that are not dropped, followed by the terminator. -/
theorem read_requesthdrs_keeps (ls : List (List Char)) (rest : List Char) (f : Bool)
    (header : List Char)
    (hls : ∀ l ∈ ls, is_line l ∧ l ≠ "\r\n".toList)
    (hfit : hdr_fits 0 ls)
    (hterm : ((ls.filter (fun l => decide (¬ hop_header l))).flatten).length + 2 < MAXLINE) :
    (∀ l : List Char, header_overlap (cstr l) = true ↔
      ("Connection:".toList <:+: cstr l ∨ "Proxy-Connection:".toList <:+: cstr l
        ∨ "User-Agent:".toList <:+: cstr l ∨ "Host:".toList <:+: cstr l))
    ∧ (read_requesthdrs ⟨ls.flatten ++ ("\r\n".toList ++ rest), f⟩ header).ret = false
    ∧ (read_requesthdrs ⟨ls.flatten ++ ("\r\n".toList ++ rest), f⟩ header).header.take
        (read_requesthdrs ⟨ls.flatten ++ ("\r\n".toList ++ rest), f⟩ header).total
      = (ls.filter (fun l => decide (¬ hop_header l))).flatten ++ "\r\n".toList
    ∧ (read_requesthdrs ⟨ls.flatten ++ ("\r\n".toList ++ rest), f⟩ header).rio
      = ⟨rest, f⟩ := by
  have h := read_requesthdrs_terminated ls rest f header hls hfit hterm
  rw [h]
  refine ⟨header_overlap_iff, rfl, ?_, rfl⟩
  exact take_memcpy_zero _ _

/-- The witness of C5: three header lines, two of which are dropped. -/
theorem read_requesthdrs_keeps_witness :
    (read_requesthdrs ⟨["Accept: text/plain\r\n".toList, "X-Host: a\r\n".toList,
          "Host: h\r\n".toList].flatten ++ ("\r\n".toList ++ []), false⟩ []).header.take
        (read_requesthdrs ⟨["Accept: text/plain\r\n".toList, "X-Host: a\r\n".toList,
          "Host: h\r\n".toList].flatten ++ ("\r\n".toList ++ []), false⟩ []).total
      = (["Accept: text/plain\r\n".toList, "X-Host: a\r\n".toList,
          "Host: h\r\n".toList].filter (fun l => decide (¬ hop_header l))).flatten
        ++ "\r\n".toList :=
  (read_requesthdrs_keeps ["Accept: text/plain\r\n".toList, "X-Host: a\r\n".toList,
    "Host: h\r\n".toList] [] false [] (by decide) (by decide) (by decide)).2.2.1

/-- C6, at the failing input: a header block made of a line of 8191 bytes and
the terminator. The terminator trips the overflow check (`8191 + 2` reaches
`MAXLINE`), and `read_requesthdrs` returns `false`, its value for success; a
`GET` request with this header block is not answered 400, `serve` goes on to
the cache lookup. -/
theorem read_requesthdrs_overflow_returns_false (env : Env) :
    (read_requesthdrs ⟨List.replicate 8190 'a' ++ "\n".toList ++ "\r\n".toList, false⟩
      env.header).ret = false
    ∧ (read_requesthdrs ⟨List.replicate 8190 'a' ++ "\n".toList ++ "\r\n".toList, false⟩
      env.header).total = 8191
    ∧ MAXLINE ≤ 8191 + "\r\n".toList.length
    ∧ (serve env ⟨request_line "GET".toList "http://x/".toList '1'
        ++ (List.replicate 8190 'a' ++ "\n".toList ++ "\r\n".toList), false⟩).head?
      = some (Event.read_cache_begin "x:80/".toList) := by
  have h := read_requesthdrs_long 8190 (by decide) (by decide) env.header
  refine ⟨by rw [h], by rw [h], by decide, ?_⟩
  rw [serve_request_line env _ _ '1' _ false (by decide) (by decide) (by decide) (by decide)]
  unfold serve_request
  have hp : parse_uri "http://x/".toList = some ("x".toList, "80".toList, "/".toList) := by
    decide
  rw [if_neg (by decide), hp]
  simp only [h]
  rfl

/-- C7, at the failing input: on the header block of C6 the function returns
`false` with the line of 8191 bytes as output; run on that output alone it
returns `true`, since the stream ends before a terminator. -/
theorem read_requesthdrs_not_idempotent (header header2 : List Char) :
    (read_requesthdrs ⟨List.replicate 8190 'a' ++ "\n".toList ++ "\r\n".toList, false⟩
      header).ret = false
    ∧ (read_requesthdrs ⟨List.replicate 8190 'a' ++ "\n".toList ++ "\r\n".toList, false⟩
        header).header.take
        (read_requesthdrs ⟨List.replicate 8190 'a' ++ "\n".toList ++ "\r\n".toList, false⟩
          header).total = List.replicate 8190 'a' ++ ['\n']
    ∧ (read_requesthdrs
        ⟨(read_requesthdrs ⟨List.replicate 8190 'a' ++ "\n".toList ++ "\r\n".toList, false⟩
            header).header.take
          (read_requesthdrs ⟨List.replicate 8190 'a' ++ "\n".toList ++ "\r\n".toList, false⟩
            header).total, false⟩ header2).ret = true := by
  have h := read_requesthdrs_long 8190 (by decide) (by decide) header
  have ht : (memcpy header 0 (List.replicate 8190 'a' ++ ['\n'])).take (8190 + 1)
      = List.replicate 8190 'a' ++ ['\n'] := by
    have := take_memcpy_zero header (List.replicate 8190 'a' ++ ['\n'])
    rwa [List.length_append, List.length_replicate] at this
  refine ⟨by rw [h], by rw [h]; exact ht, ?_⟩
  rw [h]
  simp only [ht]
  exact read_requesthdrs_long_again 8190 (by decide) header2

/-! ## The request builder: claims -/

/-- C8, as stated, fails in its remark on `serve`: for a request line of 8124
bytes the upstream request overflows, `request_gen` returns -1, and the body of
the 500 response overflows `MAXBUF` as well, so `serve` writes nothing to the
client. -/
theorem serve_500_silent_counterexample :
    serve Env.offline ⟨request_line "GET".toList
        ("http://h/".toList ++ List.replicate 8100 'a') '1' ++ "\r\n".toList, false⟩
      = [Event.read_cache_begin
          (fingerprint "h".toList "80".toList ('/' :: List.replicate 8100 'a')),
        Event.read_cache_end
          (fingerprint "h".toList "80".toList ('/' :: List.replicate 8100 'a'))] :=
  serve_long_request 8100 (by decide) (by decide)

/-- C8 (amended): `request_gen` returns 0 if and only if the assembled request
is strictly shorter than `limit`, and then `request` holds exactly the request
line, the four fixed headers and the pass-through headers; otherwise it returns
-1. In `serve`, after a cache miss, a -1 makes `serve` hand a 500 to the error
responder without contacting the origin: the 500 response is written when its
body, which quotes the request line, is shorter than `MAXBUF`, and nothing is
written otherwise. -/
theorem request_gen_spec :
    (∀ (limit : Nat) (host path header : List Char),
      ((request_gen limit host path header).ret = 0
        ↔ ("GET ".toList ++ path ++ " HTTP/1.0\r\nHost: ".toList ++ host
            ++ "\r\nConnection: close\r\nProxy-Connection: close\r\nUser-Agent: ".toList
            ++ header_user_agent ++ "\r\n".toList ++ header).length < limit)
      ∧ (("GET ".toList ++ path ++ " HTTP/1.0\r\nHost: ".toList ++ host
            ++ "\r\nConnection: close\r\nProxy-Connection: close\r\nUser-Agent: ".toList
            ++ header_user_agent ++ "\r\n".toList ++ header).length < limit →
          (request_gen limit host path header).request
            = "GET ".toList ++ path ++ " HTTP/1.0\r\nHost: ".toList ++ host
              ++ "\r\nConnection: close\r\nProxy-Connection: close\r\nUser-Agent: ".toList
              ++ header_user_agent ++ "\r\n".toList ++ header)
      ∧ (¬ ("GET ".toList ++ path ++ " HTTP/1.0\r\nHost: ".toList ++ host
            ++ "\r\nConnection: close\r\nProxy-Connection: close\r\nUser-Agent: ".toList
            ++ header_user_agent ++ "\r\n".toList ++ header).length < limit →
          (request_gen limit host path header).ret = -1))
    ∧ (∀ (env : Env) (uri : List Char) (X : Char) (hdrs : List Char) (f : Bool)
        (host port path : List Char),
      token uri → (X = '0' ∨ X = '1') →
      (request_line "GET".toList uri X).length < MAXLINE →
      parse_uri uri = some (host, port, path) →
      (read_requesthdrs ⟨hdrs, f⟩ env.header).ret = false →
      env.read_cache_begin (fingerprint host port path) = none →
      (request_gen MAXLINE host path
        (cstr (read_requesthdrs ⟨hdrs, f⟩ env.header).header)).ret = -1 →
      serve env ⟨request_line "GET".toList uri X ++ hdrs, f⟩
        = Event.read_cache_begin (fingerprint host port path)
          :: Event.read_cache_end (fingerprint host port path)
          :: (if MAXBUF ≤ (error_body (request_line "GET".toList uri X) "500".toList
                "Internal Server Error".toList
                "Proxy cannot generate new request".toList).length then []
              else Event.client_write (error_headers "500".toList
                  "Internal Server Error".toList
                  (error_body (request_line "GET".toList uri X) "500".toList
                    "Internal Server Error".toList
                    "Proxy cannot generate new request".toList).length)
                :: (if env.client_write_ok 0 then
                      [Event.client_write (error_body (request_line "GET".toList uri X)
                        "500".toList "Internal Server Error".toList
                        "Proxy cannot generate new request".toList)]
                    else []))) := by
  constructor
  · intro limit host path header
    have e : "GET ".toList ++ path ++ " HTTP/1.0\r\nHost: ".toList ++ host
        ++ "\r\nConnection: close\r\nProxy-Connection: close\r\nUser-Agent: ".toList
        ++ header_user_agent ++ "\r\n".toList ++ header
        = request_text host path header := by
      simp [request_text]
    rw [e]
    refine ⟨?_, ?_, ?_⟩
    · rw [request_gen_ret]
      split_ifs with h
      · simp only [Int.reduceNeg, Int.neg_eq_zero, one_ne_zero, false_iff]
        omega
      · simp only [true_iff]
        omega
    · intro h
      unfold request_gen
      exact snprintf_snd _ _ h
    · intro h
      rw [request_gen_ret, if_pos (by omega)]
  · intro env uri X hdrs f host port path hu hX hfit hp hr hmiss hg
    exact serve_get_gen_fails env uri X hdrs f host port path hu hX hfit hp hr hmiss hg

/-- The witness of C8: a short request line with a header line of 8100 bytes;
the upstream request overflows and the 500 response is written. -/
theorem request_gen_spec_witness :
    serve Env.offline ⟨request_line "GET".toList "http://x/".toList '1'
        ++ (List.replicate 8100 'a' ++ "\n".toList ++ "\r\n".toList), false⟩
      = Event.read_cache_begin (fingerprint "x".toList "80".toList "/".toList)
        :: Event.read_cache_end (fingerprint "x".toList "80".toList "/".toList)
        :: (if MAXBUF ≤ (error_body (request_line "GET".toList "http://x/".toList '1')
              "500".toList "Internal Server Error".toList
              "Proxy cannot generate new request".toList).length then []
            else Event.client_write (error_headers "500".toList
                "Internal Server Error".toList
                (error_body (request_line "GET".toList "http://x/".toList '1') "500".toList
                  "Internal Server Error".toList
                  "Proxy cannot generate new request".toList).length)
              :: (if Env.offline.client_write_ok 0 then
                    [Event.client_write (error_body
                      (request_line "GET".toList "http://x/".toList '1')
                      "500".toList "Internal Server Error".toList
                      "Proxy cannot generate new request".toList)]
                  else [])) :=
  request_gen_spec.2 Env.offline "http://x/".toList '1'
    (List.replicate 8100 'a' ++ "\n".toList ++ "\r\n".toList) false
    "x".toList "80".toList "/".toList (by decide) (by decide) (by decide) (by decide)
    (by rw [read_requesthdrs_long_ok 8100 (by decide)]) rfl request_gen_long_header

/-! ## Header pass-through: claims -/

set_option maxRecDepth 100000 in
/-- C9, as stated, fails: the client line `X-Host: a` names none of
`Connection`, `Proxy-Connection`, `User-Agent`, `Host` as its field, yet it is
missing from the upstream request, which carries the fixed headers and the
terminator only. -/
theorem serve_header_dropped_counterexample :
    ¬ "Connection:".toList <+: "X-Host: a\r\n".toList
    ∧ ¬ "Proxy-Connection:".toList <+: "X-Host: a\r\n".toList
    ∧ ¬ "User-Agent:".toList <+: "X-Host: a\r\n".toList
    ∧ ¬ "Host:".toList <+: "X-Host: a\r\n".toList
    ∧ (serve Env.origin
        ⟨"GET http://x/ HTTP/1.1\r\nX-Host: a\r\n\r\n".toList, false⟩).take 4
      = [Event.read_cache_begin "x:80/".toList, Event.read_cache_end "x:80/".toList,
          Event.open_clientfd "x".toList "80".toList,
          Event.server_write (request_text "x".toList "/".toList "\r\n".toList)]
    ∧ ¬ "X-Host: a\r\n".toList <:+: request_text "x".toList "/".toList "\r\n".toList := by
  refine ⟨by decide, by decide, by decide, by decide, by decide, by decide⟩

/-- C9 (amended): for every accepted `GET` request whose header lines are free
of NUL and reach the terminator without tripping the overflow check, with a
NUL in the `header` buffer right after the bytes copied there, on a cache miss
with the upstream request built and the origin reached: the request sent to
the origin is the request line `GET path HTTP/1.0`, then `Host:` with the host
parsed from the URI, `Connection: close`, `Proxy-Connection: close`,
`User-Agent:` with the fixed string, then, verbatim and in order, every client
header line that contains none of `Connection:`, `Proxy-Connection:`,
`User-Agent:`, `Host:` anywhere, and the client's empty CRLF line. Exactly one
of its lines begins with `Host:` and exactly one with `User-Agent:`. -/
theorem serve_upstream_request (env : Env) (uri : List Char) (X : Char)
    (ls : List (List Char)) (rest : List Char) (f : Bool)
    (host port path : List Char) (rio_server : rio_t)
    (hu : token uri) (hX : X = '0' ∨ X = '1')
    (hfit : (request_line "GET".toList uri X).length < MAXLINE)
    (hp : parse_uri uri = some (host, port, path))
    (hls : ∀ l ∈ ls, is_line l ∧ l ≠ "\r\n".toList ∧ '\x00' ∉ l)
    (hfits : hdr_fits 0 ls)
    (hterm : (kept_lines ls).flatten.length + 2 < MAXLINE)
    (hnul : (env.header.drop ((kept_lines ls).flatten.length + 2)).head? = some '\x00')
    (hmiss : env.read_cache_begin (fingerprint host port path) = none)
    (hg : (request_gen MAXLINE host path
      ((kept_lines ls).flatten ++ "\r\n".toList)).ret = 0)
    (ho : env.open_clientfd host port = some rio_server) :
    (∃ tl, serve env ⟨request_line "GET".toList uri X
          ++ (ls.flatten ++ ("\r\n".toList ++ rest)), f⟩
      = Event.read_cache_begin (fingerprint host port path)
        :: Event.read_cache_end (fingerprint host port path)
        :: Event.open_clientfd host port
        :: Event.server_write
            (request_text host path ((kept_lines ls).flatten ++ "\r\n".toList))
        :: tl)
    ∧ request_text host path ((kept_lines ls).flatten ++ "\r\n".toList)
      = "GET ".toList ++ path ++ " HTTP/1.0\r\nHost: ".toList ++ host
        ++ "\r\nConnection: close\r\nProxy-Connection: close\r\nUser-Agent: ".toList
        ++ header_user_agent ++ "\r\n".toList
        ++ (ls.filter (fun l => decide (¬ hop_header l))).flatten ++ "\r\n".toList
    ∧ (split_lines (request_text host path
          ((kept_lines ls).flatten ++ "\r\n".toList))).filter
        (fun l => "Host:".toList.isPrefixOf l)
      = ["Host: ".toList ++ host ++ "\r\n".toList]
    ∧ (split_lines (request_text host path
          ((kept_lines ls).flatten ++ "\r\n".toList))).filter
        (fun l => "User-Agent:".toList.isPrefixOf l)
      = ["User-Agent: ".toList ++ header_user_agent ++ "\r\n".toList] := by
  have hls1 : ∀ l ∈ ls, is_line l ∧ l ≠ "\r\n".toList := fun l hl =>
    ⟨(hls l hl).1, (hls l hl).2.1⟩
  have hread := read_requesthdrs_terminated ls rest f env.header hls1 hfits hterm
  have hkmem : ∀ l ∈ kept_lines ls, l ∈ ls := fun l hl => List.mem_of_mem_filter hl
  -- the pass-through block is free of NUL and is followed by one
  have hout : '\x00' ∉ (kept_lines ls).flatten ++ "\r\n".toList := by
    simp only [List.mem_append, not_or]
    exact ⟨not_mem_flatten _ _ (fun l hl => (hls l (hkmem l hl)).2.2), by decide⟩
  have hlen : ((kept_lines ls).flatten ++ "\r\n".toList).length
      = (kept_lines ls).flatten.length + 2 := by
    rw [List.length_append]
    rfl
  have hc : cstr (memcpy env.header 0 ((kept_lines ls).flatten ++ "\r\n".toList))
      = (kept_lines ls).flatten ++ "\r\n".toList :=
    cstr_memcpy_terminated _ _ hout (by rw [hlen]; exact hnul)
  -- the host and the path are free of NUL and of newlines
  obtain ⟨hhost, hpath⟩ := parse_uri_mem uri host port path hp
  have hhost0 : '\x00' ∉ host := fun h => (hu.2 _ (hhost _ h)).2 rfl
  have hpath0 : '\x00' ∉ path := fun h => by
    rcases hpath _ h with e | e
    · exact (hu.2 _ e).2 rfl
    · revert e
      decide
  have hhostn : '\n' ∉ host := fun h => by
    have := (hu.2 _ (hhost _ h)).1
    revert this
    decide
  have hpathn : '\n' ∉ path := fun h => by
    rcases hpath _ h with e | e
    · have := (hu.2 _ e).1
      revert this
      decide
    · revert e
      decide
  have htext0 : '\x00' ∉ request_text host path
      ((kept_lines ls).flatten ++ "\r\n".toList) := by
    have hk0 : '\x00' ∉ (kept_lines ls).flatten :=
      not_mem_flatten _ _ (fun l hl => (hls l (hkmem l hl)).2.2)
    unfold request_text
    simp only [List.mem_append, not_or]
    split_ands
    all_goals first | exact hpath0 | exact hhost0 | exact hk0 | decide
  have hr : (read_requesthdrs ⟨ls.flatten ++ ("\r\n".toList ++ rest), f⟩ env.header).ret
      = false := by rw [hread]
  have hg2 : (request_gen MAXLINE host path
      (cstr (read_requesthdrs ⟨ls.flatten ++ ("\r\n".toList ++ rest), f⟩
        env.header).header)).ret = 0 := by
    rw [hread]
    simp only [hc]
    exact hg
  -- the kept lines end with their only newline and contain no dropped name
  have hks : ∀ l ∈ kept_lines ls, l.getLast? = some '\n' ∧ '\n' ∉ l.dropLast := by
    intro l hl
    rcases (hls l (hkmem l hl)).1 with ⟨h1, h2, _⟩ | ⟨_, h2⟩
    · exact ⟨h1, h2⟩
    · have := length_le_flatten l _ hl
      omega
  have hnot : ∀ l ∈ kept_lines ls, ¬ hop_header l := fun l hl => by
    have := (List.mem_filter.mp hl).2
    simpa using this
  have hh : ∀ l ∈ kept_lines ls, ¬ "Host:".toList <:+: l := fun l hl hi => by
    apply hnot l hl
    unfold hop_header
    rw [cstr_of_no_nul _ (hls l (hkmem l hl)).2.2]
    exact Or.inr (Or.inr (Or.inr hi))
  have hua : ∀ l ∈ kept_lines ls, ¬ "User-Agent:".toList <:+: l := fun l hl hi => by
    apply hnot l hl
    unfold hop_header
    rw [cstr_of_no_nul _ (hls l (hkmem l hl)).2.2]
    exact Or.inr (Or.inr (Or.inl hi))
  obtain ⟨tl, htl⟩ := serve_get_forward env uri X _ f host port path rio_server hu hX hfit
    hp hr hmiss hg2 ho
  rw [hread] at htl
  simp only [hc, cstr_of_no_nul _ htext0] at htl
  refine ⟨⟨tl, htl⟩, ?_, request_text_fixed_lines host path _ hpathn hhostn hks hh hua⟩
  simp [request_text, kept_lines]

set_option maxRecDepth 100000 in
/-- The witness of C9: the header block of scenario S6. -/
theorem serve_upstream_request_witness :
    (split_lines (request_text "x".toList "/".toList
        ((kept_lines ["Accept: text/plain\r\n".toList, "User-Agent: Foo\r\n".toList,
          "Host: h\r\n".toList]).flatten ++ "\r\n".toList))).filter
        (fun l => "Host:".toList.isPrefixOf l)
      = ["Host: ".toList ++ "x".toList ++ "\r\n".toList] :=
  (serve_upstream_request Env.origin "http://x/".toList '1'
    ["Accept: text/plain\r\n".toList, "User-Agent: Foo\r\n".toList, "Host: h\r\n".toList]
    [] false "x".toList "80".toList "/".toList
    ⟨"HTTP/1.0 200 OK\r\n\r\nhi".toList, false⟩
    (by decide) (by decide) (by decide) (by decide) (by decide) (by decide) (by decide)
    (by decide) rfl (by decide) rfl).2.2.1

/-! ## The request pipeline: claims -/

set_option maxRecDepth 100000 in
/-- C10, as stated, fails: the line `GET http://x/ HTTP/1.1junk` does not match
`METHOD SP URI SP HTTP/1.X CRLF`, yet it passes the check and `serve` goes on
to the cache lookup; and a malformed first line of 8103 bytes is answered with
nothing at all, the body of its 400 response overflowing `MAXBUF`. -/
theorem serve_trailing_bytes_counterexample :
    (¬ ∃ m u X, token m ∧ token u ∧ (X = '0' ∨ X = '1')
        ∧ "GET http://x/ HTTP/1.1junk\r\n".toList = request_line m u X)
    ∧ (serve Env.offline
        ⟨"GET http://x/ HTTP/1.1junk\r\n".toList ++ "\r\n".toList, false⟩).head?
      = some (Event.read_cache_begin "x:80/".toList)
    ∧ (¬ ∃ m u X, token m ∧ token u ∧ (X = '0' ∨ X = '1')
        ∧ List.replicate 8101 'a' ++ "\r\n".toList = request_line m u X)
    ∧ serve Env.offline ⟨List.replicate 8101 'a' ++ "\r\n".toList, false⟩ = [] := by
  refine ⟨?_, ?_, ?_, ?_⟩
  · rintro ⟨m, u, X, _, _, _, h⟩
    have := congrArg List.reverse h
    simp [request_line] at this
  · decide
  · rintro ⟨m, u, X, hm, _, _, h⟩
    have hsp : ' ' ∈ List.replicate 8101 'a' ++ "\r\n".toList := by
      rw [h]
      simp [request_line]
    simp only [List.mem_append, List.mem_replicate] at hsp
    rcases hsp with hsp | hsp
    · exact absurd hsp.2 (by decide)
    · revert hsp
      decide
  · exact serve_long_line Env.offline 8100 (by decide) (by decide)

/-- C10 (amended): the check of the request line is the one `sscanf` makes. A
first line outside the lax grammar (optional white space, method, white space,
URI, white space, `HTTP/1.`, a digit 0 or 1, then any bytes) is handed to the
error responder with the status 400 and `serve` does nothing else, neither
cache nor origin being touched; the 400 response is written when its body,
which quotes the line, is shorter than `MAXBUF`, and nothing is written
otherwise. A first line of the lax grammar passes the check; this includes
every line `METHOD SP URI SP HTTP/1.X CRLF` with X in {0,1}, which `serve`
handles with that method and URI. -/
theorem serve_request_line_check :
    (∀ (env : Env) (rio : rio_t), 0 < (rio_readlineb rio MAXLINE).ret →
      ¬ lax_request_line (cstr (rio_readlineb rio MAXLINE).buf) →
      serve env rio
        = if MAXBUF ≤ (error_body (cstr (rio_readlineb rio MAXLINE).buf) "400".toList
              "Bad Request".toList "Proxy received a malformed request".toList).length
          then []
          else Event.client_write (error_headers "400".toList "Bad Request".toList
              (error_body (cstr (rio_readlineb rio MAXLINE).buf) "400".toList
                "Bad Request".toList "Proxy received a malformed request".toList).length)
            :: (if env.client_write_ok 0 then
                  [Event.client_write (error_body (cstr (rio_readlineb rio MAXLINE).buf)
                    "400".toList "Bad Request".toList
                    "Proxy received a malformed request".toList)]
                else []))
    ∧ (∀ (env : Env) (rio : rio_t), 0 < (rio_readlineb rio MAXLINE).ret →
      lax_request_line (cstr (rio_readlineb rio MAXLINE).buf) →
      serve env rio
        = serve_request env (cstr (rio_readlineb rio MAXLINE).buf)
            (sscanf_request (cstr (rio_readlineb rio MAXLINE).buf)).method
            (sscanf_request (cstr (rio_readlineb rio MAXLINE).buf)).uri
            (rio_readlineb rio MAXLINE).rio)
    ∧ (∀ (m u : List Char) (X : Char), token m → token u → (X = '0' ∨ X = '1') →
      lax_request_line (request_line m u X))
    ∧ (∀ (env : Env) (m u : List Char) (X : Char) (rest : List Char) (f : Bool),
      token m → token u → (X = '0' ∨ X = '1') →
      (request_line m u X).length < MAXLINE →
      serve env ⟨request_line m u X ++ rest, f⟩
        = serve_request env (request_line m u X) m u ⟨rest, f⟩) := by
  refine ⟨?_, ?_, ?_, ?_⟩
  · intro env rio hr hl
    rw [serve_rejects env rio hr hl, clienterror_eq]
    by_cases hb : MAXBUF ≤ (error_body (cstr (rio_readlineb rio MAXLINE).buf) "400".toList
        "Bad Request".toList "Proxy received a malformed request".toList).length
    · simp only [if_pos hb]
    · simp only [if_neg hb]
      rw [if_neg (error_headers_fit _ _ _ (by omega) (by decide))]
  · exact serve_accepts
  · exact lax_of_request_line
  · intro env m u X rest f hm hu hX hfit
    exact serve_request_line env m u X rest f hm hu hX hfit

set_option maxRecDepth 100000 in
/-- The witness of C10: the version `HTTP/2.0` is answered 400. -/
theorem serve_request_line_check_witness :
    serve Env.offline ⟨"GET http://x/ HTTP/2.0\r\n\r\n".toList, false⟩
      = if MAXBUF ≤ (error_body
            (cstr (rio_readlineb ⟨"GET http://x/ HTTP/2.0\r\n\r\n".toList, false⟩ MAXLINE).buf)
            "400".toList "Bad Request".toList
            "Proxy received a malformed request".toList).length
        then []
        else Event.client_write (error_headers "400".toList "Bad Request".toList
            (error_body
              (cstr (rio_readlineb ⟨"GET http://x/ HTTP/2.0\r\n\r\n".toList, false⟩
                MAXLINE).buf)
              "400".toList "Bad Request".toList
              "Proxy received a malformed request".toList).length)
          :: (if Env.offline.client_write_ok 0 then
                [Event.client_write (error_body
                  (cstr (rio_readlineb ⟨"GET http://x/ HTTP/2.0\r\n\r\n".toList, false⟩
                    MAXLINE).buf)
                  "400".toList "Bad Request".toList
                  "Proxy received a malformed request".toList)]
              else []) :=
  serve_request_line_check.1 Env.offline ⟨"GET http://x/ HTTP/2.0\r\n\r\n".toList, false⟩
    (by decide)
    (fun h => absurd ((lax_request_line_iff _).mp h).1 (by decide))

/-! ## The method check: claims -/

/-- C11, as stated, fails: a well-formed request line whose method is a token
of 8000 bytes is not answered 501; the body of the 501 response, which quotes
the method, overflows `MAXBUF` and nothing is written. -/
theorem serve_501_silent_counterexample :
    List.replicate 8000 'a' ≠ "GET".toList
    ∧ (request_line (List.replicate 8000 'a') "http://x/".toList '1').length < MAXLINE
    ∧ serve Env.offline ⟨request_line (List.replicate 8000 'a') "http://x/".toList '1'
        ++ "\r\n".toList, false⟩ = [] := by
  refine ⟨?_, ?_, serve_long_method Env.offline 7999 (by decide) (by decide)⟩
  · intro h
    have := congrArg List.length h
    rw [List.length_replicate] at this
    exact absurd this (by decide)
  · rw [request_line_length, List.length_replicate]
    decide

/-- C11 (amended): for every well-formed request line that fits the line buffer
and whose method is not exactly `GET`, `serve` hands a 501 to the error
responder with the method as cause and does nothing else: no URI parsing, no
cache lookup, no connection to the origin. The 501 response is written when its
body is shorter than `MAXBUF`, and nothing is written otherwise. A first line
that fails the well-formedness check is answered by the 400 branch whatever its
method: the 501 check comes second. -/
theorem serve_method_check :
    (∀ (env : Env) (m u : List Char) (X : Char) (rest : List Char) (f : Bool),
      token m → token u → (X = '0' ∨ X = '1') →
      (request_line m u X).length < MAXLINE → m ≠ "GET".toList →
      serve env ⟨request_line m u X ++ rest, f⟩
        = if MAXBUF ≤ (error_body m "501".toList "Not Implemented".toList
              "Proxy does not implement this method".toList).length then []
          else Event.client_write (error_headers "501".toList "Not Implemented".toList
              (error_body m "501".toList "Not Implemented".toList
                "Proxy does not implement this method".toList).length)
            :: (if env.client_write_ok 0 then
                  [Event.client_write (error_body m "501".toList "Not Implemented".toList
                    "Proxy does not implement this method".toList)]
                else []))
    ∧ (∀ (env : Env) (rio : rio_t), 0 < (rio_readlineb rio MAXLINE).ret →
      ¬ lax_request_line (cstr (rio_readlineb rio MAXLINE).buf) →
      serve env rio
        = clienterror env.client_write_ok (cstr (rio_readlineb rio MAXLINE).buf)
            "400".toList "Bad Request".toList
            "Proxy received a malformed request".toList) := by
  constructor
  · intro env m u X rest f hm hu hX hfit hne
    exact serve_method_rejected env m u X rest f hm hu hX hfit hne
  · exact serve_rejects

/-- The witness of C11: a `POST` request. -/
theorem serve_method_check_witness :
    serve Env.offline ⟨request_line "POST".toList "http://x/".toList '1'
        ++ "\r\n".toList, false⟩
      = if MAXBUF ≤ (error_body "POST".toList "501".toList "Not Implemented".toList
            "Proxy does not implement this method".toList).length then []
        else Event.client_write (error_headers "501".toList "Not Implemented".toList
            (error_body "POST".toList "501".toList "Not Implemented".toList
              "Proxy does not implement this method".toList).length)
          :: (if Env.offline.client_write_ok 0 then
                [Event.client_write (error_body "POST".toList "501".toList
                  "Not Implemented".toList
                  "Proxy does not implement this method".toList)]
              else []) :=
  serve_method_check.1 Env.offline "POST".toList "http://x/".toList '1' "\r\n".toList false
    (by decide) (by decide) (by decide) (by decide) (by decide)

/-! ## The tee loop: claims -/

/-- C12, as stated, fails: an origin response of exactly 102400 bytes, which is
`≤ MAX_OBJECT_SIZE`, is relayed without failure and with the scratch allocated,
yet it is not offered to the cache: the scratch is freed. -/
theorem serve_size_gate_counterexample :
    (List.replicate 102400 'a').length ≤ MAX_OBJECT_SIZE
    ∧ serve (Env.serving (List.replicate 102400 'a'))
        ⟨"GET http://x/ HTTP/1.1\r\n\r\n".toList, false⟩
      = Event.read_cache_begin "x:80/".toList
        :: Event.read_cache_end "x:80/".toList
        :: Event.open_clientfd "x".toList "80".toList
        :: Event.server_write (request_text "x".toList "/".toList "\r\n".toList)
        :: ((origin_lines ⟨List.replicate 102400 'a', false⟩).map Event.client_write
          ++ [Event.close_server, Event.free_res_buf]) :=
  ⟨(List.length_replicate 102400 'a').le, serve_large_object 102400 (by decide)⟩

/-- C12 (amended): for every request that `serve` sends to the origin, when no
write fails and the scratch is allocated, `serve` relays the lines of the
response and then calls `save_cache` if and only if the cumulative length
`res_len` is strictly below `MAX_OBJECT_SIZE = 102400`; `save_cache` then calls
`write_cache` with the key, the scratch and `res_len`, unless its own
allocation fails, in which case the scratch is freed. A response of 102400
bytes or more is never offered and its scratch is freed. -/
theorem serve_size_gate (env : Env) (rio : rio_t) (rq blk : List Char)
    (hsw : env.server_write_ok = true) (hw : ∀ j, env.client_write_ok j = true)
    (hm : env.malloc_res_buf = some blk)
    (h : Event.server_write rq ∈ serve env rio) :
    ∃ host port path rio_server,
      parse_uri (sscanf_request (cstr (rio_readlineb rio MAXLINE).buf)).uri
        = some (host, port, path)
      ∧ env.open_clientfd host port = some rio_server
      ∧ serve env rio
        = Event.read_cache_begin (fingerprint host port path)
          :: Event.read_cache_end (fingerprint host port path)
          :: Event.open_clientfd host port
          :: Event.server_write rq
          :: ((origin_lines rio_server).map Event.client_write
            ++ Event.close_server
              :: (if (origin_lines rio_server).flatten.length < MAX_OBJECT_SIZE then
                    (if env.malloc_heap_req = true then
                      [Event.write_cache (cstr (fingerprint host port path))
                        (tee_scratch true blk 0 (origin_lines rio_server)).1
                        (origin_lines rio_server).flatten.length]
                     else [Event.free_res_buf])
                  else [Event.free_res_buf])) := by
  obtain ⟨host, port, path, rs, hp, ho, hs⟩ := serve_relayed env rio rq hsw hw h
  refine ⟨host, port, path, rs, hp, ho, ?_⟩
  rw [hs, serve_finish_eq, hm]
  simp only [Option.isSome_some, Option.getD_some, true_and]

/-- The witness of C12: a response of 23 bytes is offered to the cache. -/
theorem serve_size_gate_witness :
    ∃ host port path rio_server,
      parse_uri (sscanf_request (cstr (rio_readlineb
          ⟨"GET http://x/ HTTP/1.1\r\n\r\n".toList, false⟩ MAXLINE).buf)).uri
        = some (host, port, path)
      ∧ (Env.serving "HTTP/1.0 200 OK\r\n\r\nhi".toList).open_clientfd host port
        = some rio_server
      ∧ serve (Env.serving "HTTP/1.0 200 OK\r\n\r\nhi".toList)
          ⟨"GET http://x/ HTTP/1.1\r\n\r\n".toList, false⟩
        = Event.read_cache_begin (fingerprint host port path)
          :: Event.read_cache_end (fingerprint host port path)
          :: Event.open_clientfd host port
          :: Event.server_write (request_text "x".toList "/".toList "\r\n".toList)
          :: ((origin_lines rio_server).map Event.client_write
            ++ Event.close_server
              :: (if (origin_lines rio_server).flatten.length < MAX_OBJECT_SIZE then
                    (if (Env.serving "HTTP/1.0 200 OK\r\n\r\nhi".toList).malloc_heap_req
                        = true then
                      [Event.write_cache (cstr (fingerprint host port path))
                        (tee_scratch true (List.replicate MAX_OBJECT_SIZE '\x00') 0
                          (origin_lines rio_server)).1
                        (origin_lines rio_server).flatten.length]
                     else [Event.free_res_buf])
                  else [Event.free_res_buf])) :=
  serve_size_gate (Env.serving "HTTP/1.0 200 OK\r\n\r\nhi".toList)
    ⟨"GET http://x/ HTTP/1.1\r\n\r\n".toList, false⟩
    (request_text "x".toList "/".toList "\r\n".toList)
    (List.replicate MAX_OBJECT_SIZE '\x00') rfl (fun _ => rfl) rfl (by
      rw [serve_simple_get]
      simp only [List.mem_cons, List.mem_append, true_or, or_true])

/-- C13: whenever `serve` hands a response to the cache, by a call
`write_cache key res n`, the first `n` bytes of the scratch `res` are the
concatenation, in order, of every line read from the origin, whatever bytes
they hold, and `n` is their total length; these are exactly the bytes written
to the client for the request, and, when no read from the origin fails, exactly
the bytes the origin sent. -/
theorem serve_cached_bytes (env : Env) (rio : rio_t) (key res : List Char) (n : Nat)
    (h : Event.write_cache key res n ∈ serve env rio) :
    res.take n = client_bytes (serve env rio)
    ∧ ∃ host port rio_server, env.open_clientfd host port = some rio_server
        ∧ res.take n = (origin_lines rio_server).flatten
        ∧ n = (origin_lines rio_server).flatten.length
        ∧ (rio_server.fails = false → res.take n = rio_server.data) := by
  obtain ⟨host, port, rs, req, pre, ho, hs, hpre, hmem⟩ := serve_cached_path env rio key res n h
  obtain ⟨ht, hcb, hms, hn, _⟩ := serve_tee_cached env req _ _ rs 0 _ 0 key res n hmem
  have h2 := tee_scratch_snd env.malloc_res_buf.isSome (env.malloc_res_buf.getD []) 0
    (read_lines (rs.data.length + 1) rs)
  have h1 := tee_scratch_content env.malloc_res_buf.isSome (env.malloc_res_buf.getD []) 0
    (read_lines (rs.data.length + 1) rs) (Nat.zero_le _)
  rw [ht] at h1 h2
  simp only [Nat.zero_add] at h2
  rw [hms, tee_copies_all 0 _ (by omega)] at h1
  simp only [Nat.zero_add, List.take_zero, List.nil_append] at h1
  have hres : res.take n = (origin_lines rs).flatten := by
    rw [h1, h2, origin_lines, List.take_left]
  refine ⟨?_, host, port, rs, ho, hres, h2, ?_⟩
  · rw [hs, client_bytes_append, hpre, hcb, hres, origin_lines, List.nil_append]
  · intro hf
    rw [hres, origin_lines, read_lines_flatten _ _ (Nat.lt_succ_self _) hf]

/-- The witness of C13: an origin response of 23 bytes that is cached. -/
theorem serve_cached_bytes_witness :
    ((tee_scratch true (List.replicate MAX_OBJECT_SIZE '\x00') 0
        (origin_lines ⟨"HTTP/1.0 200 OK\r\n\r\nhi".toList, false⟩)).1.take
      (origin_lines ⟨"HTTP/1.0 200 OK\r\n\r\nhi".toList, false⟩).flatten.length)
      = client_bytes (serve (Env.serving "HTTP/1.0 200 OK\r\n\r\nhi".toList)
          ⟨"GET http://x/ HTTP/1.1\r\n\r\n".toList, false⟩) :=
  (serve_cached_bytes (Env.serving "HTTP/1.0 200 OK\r\n\r\nhi".toList)
    ⟨"GET http://x/ HTTP/1.1\r\n\r\n".toList, false⟩ "x:80/".toList _ _ (by
      rw [serve_simple_get, serve_finish_eq, origin_lines,
        read_lines_flatten _ _ (Nat.lt_succ_self _) rfl,
        if_pos ⟨rfl, by decide⟩,
        if_pos (show (Env.serving _).malloc_heap_req = true from rfl)]
      simp only [List.mem_cons, List.mem_append, List.mem_singleton]
      exact Or.inr (Or.inr (Or.inr (Or.inr (Or.inr (Or.inr
        (Or.inl (by rw [cstr_of_no_nul _ (by decide)]))))))))).1

/-- C14: for every request that `serve` sends to the origin and every response
of the origin, of any length and whether or not the scratch was allocated, as
long as no write fails the bytes written to the client are the lines read from
the origin, in order, which are exactly the bytes of the origin up to EOF when
no read fails; and when the length is `MAX_OBJECT_SIZE` or more, no
`write_cache` happens. -/
theorem serve_relay_complete (env : Env) (rio : rio_t) (rq : List Char)
    (hsw : env.server_write_ok = true) (hw : ∀ j, env.client_write_ok j = true)
    (h : Event.server_write rq ∈ serve env rio) :
    ∃ host port rio_server, env.open_clientfd host port = some rio_server
      ∧ client_bytes (serve env rio) = (origin_lines rio_server).flatten
      ∧ (rio_server.fails = false → client_bytes (serve env rio) = rio_server.data)
      ∧ (MAX_OBJECT_SIZE ≤ (origin_lines rio_server).flatten.length →
          ∀ key res n, Event.write_cache key res n ∉ serve env rio) := by
  obtain ⟨host, port, path, rs, _, ho, hs⟩ := serve_relayed env rio rq hsw hw h
  have hb : client_bytes (serve env rio) = (origin_lines rs).flatten := by
    rw [hs]
    show client_bytes ((origin_lines rs).map Event.client_write ++ _) = _
    rw [client_bytes_append, client_bytes_map, client_bytes_serve_finish, List.append_nil]
  refine ⟨host, port, rs, ho, hb, ?_, ?_⟩
  · intro hf
    rw [hb, origin_lines, read_lines_flatten _ _ (Nat.lt_succ_self _) hf]
  · intro hbig key res n hmem
    rw [hs, serve_finish_eq, if_neg (fun hc => absurd hc.2 (by omega))] at hmem
    simp at hmem

/-- The witness of C14: the 23 bytes of an origin reach the client. -/
theorem serve_relay_complete_witness :
    ∃ host port rio_server,
      (Env.serving "HTTP/1.0 200 OK\r\n\r\nhi".toList).open_clientfd host port
        = some rio_server
      ∧ client_bytes (serve (Env.serving "HTTP/1.0 200 OK\r\n\r\nhi".toList)
          ⟨"GET http://x/ HTTP/1.1\r\n\r\n".toList, false⟩)
        = (origin_lines rio_server).flatten
      ∧ (rio_server.fails = false →
          client_bytes (serve (Env.serving "HTTP/1.0 200 OK\r\n\r\nhi".toList)
            ⟨"GET http://x/ HTTP/1.1\r\n\r\n".toList, false⟩) = rio_server.data)
      ∧ (MAX_OBJECT_SIZE ≤ (origin_lines rio_server).flatten.length →
          ∀ key res n, Event.write_cache key res n
            ∉ serve (Env.serving "HTTP/1.0 200 OK\r\n\r\nhi".toList)
              ⟨"GET http://x/ HTTP/1.1\r\n\r\n".toList, false⟩) :=
  serve_relay_complete (Env.serving "HTTP/1.0 200 OK\r\n\r\nhi".toList)
    ⟨"GET http://x/ HTTP/1.1\r\n\r\n".toList, false⟩
    (request_text "x".toList "/".toList "\r\n".toList) rfl (fun _ => rfl) (by
      rw [serve_simple_get]
      simp only [List.mem_cons, List.mem_append, true_or, or_true])

/-! ## The error responder: claims -/

/-- C15, as stated, fails in its last part: for a cause of 8000 bytes, which
fits the line buffer, the body overflows `MAXBUF` and `clienterror` writes
nothing; so does `serve` on a malformed first line of 8002 bytes. -/
theorem clienterror_silent_counterexample :
    (List.replicate 8000 'a').length < MAXLINE
    ∧ clienterror (fun _ => true) (List.replicate 8000 'a') "400".toList
        "Bad Request".toList "Proxy received a malformed request".toList = []
    ∧ serve Env.offline ⟨List.replicate 8000 'a' ++ "\r\n".toList, false⟩ = [] := by
  refine ⟨?_, ?_, serve_long_line Env.offline 7999 (by decide) (by decide)⟩
  · rw [List.length_replicate]
    decide
  · rw [clienterror_eq, if_pos]
    rw [error_body_length, List.length_replicate]
    decide

/-- C15 (amended): whenever `clienterror` writes anything, it writes the status
line `HTTP/1.0 errnum shortmsg`, `Content-Type: text/html` and
`Content-Length: N`, an empty line, and then (if that first write succeeded)
an HTML body that contains errnum, shortmsg, longmsg and cause, `N` being the
decimal length of that body. It writes exactly when the body is shorter than
`MAXBUF` and the headers are shorter than `MAXLINE`; for the short status
lines of `serve` that is when the cause and the messages have fewer than
`MAXBUF - 163` bytes together, and for a longer cause nothing is written. -/
theorem clienterror_response (wok : Nat → Bool) (cause errnum shortmsg longmsg : List Char) :
    clienterror wok cause errnum shortmsg longmsg
      = (if (error_body cause errnum shortmsg longmsg).length < MAXBUF
            ∧ ("HTTP/1.0 ".toList ++ errnum ++ " ".toList ++ shortmsg
              ++ "\r\nContent-Type: text/html\r\nContent-Length: ".toList
              ++ (Nat.repr (error_body cause errnum shortmsg longmsg).length).toList
              ++ "\r\n\r\n".toList).length < MAXLINE then
          Event.client_write ("HTTP/1.0 ".toList ++ errnum ++ " ".toList ++ shortmsg
              ++ "\r\nContent-Type: text/html\r\nContent-Length: ".toList
              ++ (Nat.repr (error_body cause errnum shortmsg longmsg).length).toList
              ++ "\r\n\r\n".toList)
            :: (if wok 0 then
                  [Event.client_write (error_body cause errnum shortmsg longmsg)]
                else [])
        else [])
    ∧ errnum <:+: error_body cause errnum shortmsg longmsg
    ∧ shortmsg <:+: error_body cause errnum shortmsg longmsg
    ∧ longmsg <:+: error_body cause errnum shortmsg longmsg
    ∧ cause <:+: error_body cause errnum shortmsg longmsg
    ∧ (error_body cause errnum shortmsg longmsg).length
      = cause.length + errnum.length + shortmsg.length + longmsg.length + 163
    ∧ (errnum.length + shortmsg.length + 61 < MAXLINE →
        (clienterror wok cause errnum shortmsg longmsg ≠ []
          ↔ cause.length + errnum.length + shortmsg.length + longmsg.length + 163
            < MAXBUF)) := by
  have hh : "HTTP/1.0 ".toList ++ errnum ++ " ".toList ++ shortmsg
      ++ "\r\nContent-Type: text/html\r\nContent-Length: ".toList
      ++ (Nat.repr (error_body cause errnum shortmsg longmsg).length).toList
      ++ "\r\n\r\n".toList
      = error_headers errnum shortmsg (error_body cause errnum shortmsg longmsg).length := by
    simp [error_headers]
  rw [hh]
  refine ⟨?_, ?_, ?_, ?_, ?_, error_body_length _ _ _ _, ?_⟩
  · rw [clienterror_eq]
    by_cases h1 : MAXBUF ≤ (error_body cause errnum shortmsg longmsg).length
    · rw [if_pos h1, if_neg (fun h => absurd h.1 (by omega))]
    · rw [if_neg h1]
      by_cases h2 : MAXLINE ≤ (error_headers errnum shortmsg
          (error_body cause errnum shortmsg longmsg).length).length
      · rw [if_pos h2, if_neg (fun h => absurd h.2 (by omega))]
      · have hc : (error_body cause errnum shortmsg longmsg).length < MAXBUF
            ∧ (error_headers errnum shortmsg
              (error_body cause errnum shortmsg longmsg).length).length < MAXLINE :=
          ⟨by omega, by omega⟩
        rw [if_neg h2, if_pos hc]
  · unfold error_body
    repeat' (first | exact (List.suffix_append _ _).isInfix | apply infix_append_left)
  · unfold error_body
    repeat' (first | exact (List.suffix_append _ _).isInfix | apply infix_append_left)
  · unfold error_body
    repeat' (first | exact (List.suffix_append _ _).isInfix | apply infix_append_left)
  · unfold error_body
    repeat' (first | exact (List.suffix_append _ _).isInfix | apply infix_append_left)
  · intro hs
    rw [clienterror_eq, ← error_body_length]
    by_cases h1 : MAXBUF ≤ (error_body cause errnum shortmsg longmsg).length
    · rw [if_pos h1]
      constructor
      · intro h
        exact absurd rfl h
      · intro h
        omega
    · rw [if_neg h1, if_neg (error_headers_fit _ _ _ (by omega) hs)]
      constructor
      · intro _
        omega
      · intro _
        simp

/-- The witness of C15: the 400 response with the cause `GET` is written. -/
theorem clienterror_response_witness :
    clienterror (fun _ => true) "GET".toList "400".toList "Bad Request".toList
        "Proxy received a malformed request".toList ≠ []
      ↔ "GET".toList.length + "400".toList.length + "Bad Request".toList.length
          + "Proxy received a malformed request".toList.length + 163 < MAXBUF :=
  (clienterror_response (fun _ => true) "GET".toList "400".toList "Bad Request".toList
    "Proxy received a malformed request".toList).2.2.2.2.2.2 (by decide)
/-! ## The read sessions of the cache: claims -/

set_option maxRecDepth 100000 in
/-- C16, as stated, fails: after a `read_cache_begin` that returns a miss,
`serve` calls `read_cache_end` with the same key (line 269). -/
theorem serve_miss_read_end_counterexample :
    Env.offline.read_cache_begin "x:80/".toList = none
    ∧ (serve Env.offline ⟨"GET http://x/ HTTP/1.1\r\n\r\n".toList, false⟩).take 2
      = [Event.read_cache_begin "x:80/".toList, Event.read_cache_end "x:80/".toList] := by
  refine ⟨rfl, by decide⟩

/-- C16 (amended): on every path through `serve` that calls
`read_cache_begin(fp)`, `read_cache_end(fp)` is called exactly once, with the
same key and after it, whether the lookup was a hit or a miss: on a hit after
the cached bytes have been written to the client, on a miss immediately,
before the upstream request is built. No other path calls either function. -/
theorem serve_read_sessions (env : Env) (rio : rio_t) :
    (serve env rio).filter is_cache_read = []
    ∨ (∃ fp res, env.read_cache_begin fp = some res
        ∧ serve env rio
          = [Event.read_cache_begin fp, Event.client_write res, Event.read_cache_end fp])
    ∨ (∃ fp rest, env.read_cache_begin fp = none
        ∧ serve env rio = Event.read_cache_begin fp :: Event.read_cache_end fp :: rest
        ∧ rest.filter is_cache_read = []) := by
  unfold serve
  simp only
  split_ifs
  · left
    rfl
  · left
    exact clienterror_no_cache_read _ _ _ _ _
  · unfold serve_request
    split_ifs
    · left
      exact clienterror_no_cache_read _ _ _ _ _
    · split
      · left
        exact clienterror_no_cache_read _ _ _ _ _
      · rename_i host port path _
        simp only
        split_ifs
        · left
          exact clienterror_no_cache_read _ _ _ _ _
        · right
          cases hc : env.read_cache_begin (fingerprint host port path) with
          | some res =>
            left
            exact ⟨_, res, hc, rfl⟩
          | none =>
            right
            obtain ⟨rest, h1, h2⟩ := serve_miss_sessions env
              (cstr (rio_readlineb rio MAXLINE).buf)
              (sscanf_request (cstr (rio_readlineb rio MAXLINE).buf)).method host port path
              (read_requesthdrs (rio_readlineb rio MAXLINE).rio env.header).header
              (fingerprint host port path)
            exact ⟨_, rest, hc, by simp only [h1], h2⟩


/-! ## The cache engine: claims -/

/-- C18: the fingerprint that `serve` builds is injective on parsed requests.
The URI that `serve` hands to `parse_uri` has no NUL and is shorter than
`MAXLINE`; for every such URI that `parse_uri` accepts, the host has neither
`:` nor `/`, the port has no `/`, the path starts with `/`, and the key
`host:portpath` is shorter than `MAXLINE`, so that it is not truncated; and
for two such URIs the keys are equal if and only if the triples are. -/
theorem fingerprint_injective :
    (∀ rio : rio_t,
      '\x00' ∉ (sscanf_request (cstr (rio_readlineb rio MAXLINE).buf)).uri
      ∧ (sscanf_request (cstr (rio_readlineb rio MAXLINE).buf)).uri.length < MAXLINE)
    ∧ (∀ uri host port path : List Char, '\x00' ∉ uri → uri.length < MAXLINE →
      parse_uri uri = some (host, port, path) →
      ':' ∉ host ∧ '/' ∉ host ∧ '/' ∉ port ∧ path.head? = some '/'
      ∧ (host ++ ':' :: port ++ path).length < MAXLINE
      ∧ fingerprint host port path = host ++ ':' :: port ++ path)
    ∧ (∀ uri1 uri2 host1 port1 path1 host2 port2 path2 : List Char,
      '\x00' ∉ uri1 → uri1.length < MAXLINE →
      '\x00' ∉ uri2 → uri2.length < MAXLINE →
      parse_uri uri1 = some (host1, port1, path1) →
      parse_uri uri2 = some (host2, port2, path2) →
      (fingerprint host1 port1 path1 = fingerprint host2 port2 path2
        ↔ (host1, port1, path1) = (host2, port2, path2))) := by
  refine ⟨serve_uri_fits, fingerprint_parsed, ?_⟩
  intro uri1 uri2 host1 port1 path1 host2 port2 path2 hn1 hl1 hn2 hl2 hp1 hp2
  obtain ⟨a1, _, c1, d1, _, f1⟩ := fingerprint_parsed uri1 host1 port1 path1 hn1 hl1 hp1
  obtain ⟨a2, _, c2, d2, _, f2⟩ := fingerprint_parsed uri2 host2 port2 path2 hn2 hl2 hp2
  constructor
  · intro h
    rw [f1, f2] at h
    obtain ⟨e1, e2, e3⟩ := key_injective _ _ _ _ _ _ a1 a2 c1 c2 d1 d2 h
    rw [e1, e2, e3]
  · intro h
    simp only [Prod.mk.injEq] at h
    rw [h.1, h.2.1, h.2.2]

/-- The witness of C18: `http://a:80/b` and `http://a/b` are parsed to the same
triple and get the same key `a:80/b`. -/
theorem fingerprint_injective_witness :
    fingerprint "a".toList "80".toList "/b".toList
        = fingerprint "a".toList "80".toList "/b".toList
      ↔ ("a".toList, "80".toList, "/b".toList) = ("a".toList, "80".toList, "/b".toList) :=
  fingerprint_injective.2.2 "http://a:80/b".toList "http://a/b".toList
    "a".toList "80".toList "/b".toList "a".toList "80".toList "/b".toList
    (by decide) (by decide) (by decide) (by decide) (by decide) (by decide)

/-! ## The scratch buffer: claims -/

/-- C19: every call of `memcpy` that the tee loop of `serve` makes on the
scratch copies a line read from the origin to the offset `res_len`, the total
length of the lines read before it, and ends below `MAX_OBJECT_SIZE`, for every
origin stream, so that no byte is written at or beyond index `MAX_OBJECT_SIZE`;
once a line has been skipped for not fitting, no later line is copied: every
copy lies before the skipped line. When no write to the client fails and the
scratch is allocated, each line that fits is copied. The loop is the one that
`serve` runs on a request sent to the origin. -/
theorem tee_in_bounds (env : Env) (req : List Char) (ms : Bool) (rio : rio_t) (k : Nat)
    (blk : List Char) :
    (∀ c ∈ (serve_tee_run env req ms (rio.data.length + 1) rio k blk 0).2,
      c.1 + c.2.length < MAX_OBJECT_SIZE
      ∧ ∃ pre post, origin_lines rio = pre ++ c.2 :: post ∧ c.1 = pre.flatten.length)
    ∧ (∀ pre l post, origin_lines rio = pre ++ l :: post →
        ¬ (pre.flatten.length + l.length < MAX_OBJECT_SIZE) →
        ∀ c ∈ (serve_tee_run env req ms (rio.data.length + 1) rio k blk 0).2,
          c.1 + c.2.length ≤ pre.flatten.length)
    ∧ ((∀ j, env.client_write_ok j = true) → ms = true →
        ∀ pre l post, origin_lines rio = pre ++ l :: post →
          pre.flatten.length + l.length < MAX_OBJECT_SIZE →
          (pre.flatten.length, l)
            ∈ (serve_tee_run env req ms (rio.data.length + 1) rio k blk 0).2)
    ∧ (∀ (rio_client : rio_t) (rq : List Char), env.server_write_ok = true →
        Event.server_write rq ∈ serve env rio_client →
        ∃ host port path rio_server, env.open_clientfd host port = some rio_server
          ∧ serve env rio_client
            = Event.read_cache_begin (fingerprint host port path)
              :: Event.read_cache_end (fingerprint host port path)
              :: Event.open_clientfd host port
              :: Event.server_write (cstr (request_gen MAXLINE host path
                  (cstr (read_requesthdrs (rio_readlineb rio_client MAXLINE).rio
                    env.header).header)).request)
              :: (serve_tee_run env (fingerprint host port path) env.malloc_res_buf.isSome
                  (rio_server.data.length + 1) rio_server 0
                  (env.malloc_res_buf.getD []) 0).1) := by
  have hpre := serve_tee_run_prefix env req ms (rio.data.length + 1) rio k blk 0
  refine ⟨?_, ?_, ?_, ?_⟩
  · intro c hc
    have hm := hpre.subset hc
    refine ⟨(tee_copies_bound ms 0 _ c hm).2, ?_⟩
    have := tee_copies_origin ms [] (read_lines (rio.data.length + 1) rio) c
      (by simpa using hm)
    simpa [origin_lines] using this
  · intro pre l post hl hskip c hc
    have hm := hpre.subset hc
    rw [origin_lines] at hl
    rw [hl, tee_copies_skip ms pre l post hskip] at hm
    have := tee_copies_within ms 0 pre c hm
    omega
  · intro hw hms pre l post hl hfit
    rw [serve_tee_run_copies env req ms hw, ← origin_lines, hl]
    exact tee_copies_mem ms pre l post ⟨hms, hfit⟩
  · intro rio_client rq hsw hmem
    obtain ⟨host, port, path, rs, _, ho, hs⟩ := serve_relayed_path env rio_client rq hsw hmem
    exact ⟨host, port, path, rs, ho, hs⟩

set_option maxRecDepth 100000 in
/-- The witness of C19: the second of two lines is copied to offset 3. -/
theorem tee_in_bounds_witness :
    (3, "cd\n".toList)
      ∈ (serve_tee_run (Env.serving "ab\ncd\n".toList) "x:80/".toList true
          ("ab\ncd\n".toList.length + 1) ⟨"ab\ncd\n".toList, false⟩ 0
          (List.replicate MAX_OBJECT_SIZE '\x00') 0).2 :=
  (tee_in_bounds (Env.serving "ab\ncd\n".toList) "x:80/".toList true
    ⟨"ab\ncd\n".toList, false⟩ 0 (List.replicate MAX_OBJECT_SIZE '\x00')).2.2.1
    (fun _ => rfl) rfl ["ab\n".toList] "cd\n".toList [] (by decide) (by decide)

/-! ## The pass-through buffer: claims -/

/-- C20 fails for a header buffer that holds earlier bytes: `read_requesthdrs`
copies the header block, here the two bytes of the empty line, and reports
success with `total = 2`, but it writes no NUL after them, so the string that
`request_gen` appends runs on into the earlier content of the buffer. The
other part of the claim holds: for every stream and every buffer of `MAXLINE`
bytes, `total` stays below `MAXLINE` and the buffer keeps its `MAXLINE`
bytes. -/
theorem read_requesthdrs_unterminated :
    (read_requesthdrs ⟨"\r\n".toList, false⟩
        ("XXEvil: 1\r\n".toList ++ '\x00' :: List.replicate 8180 '\x00')).ret = false
    ∧ (read_requesthdrs ⟨"\r\n".toList, false⟩
        ("XXEvil: 1\r\n".toList ++ '\x00' :: List.replicate 8180 '\x00')).total = 2
    ∧ (read_requesthdrs ⟨"\r\n".toList, false⟩
        ("XXEvil: 1\r\n".toList ++ '\x00' :: List.replicate 8180 '\x00')).header.take 2
      = "\r\n".toList
    ∧ cstr (read_requesthdrs ⟨"\r\n".toList, false⟩
        ("XXEvil: 1\r\n".toList ++ '\x00' :: List.replicate 8180 '\x00')).header
      = "\r\nEvil: 1\r\n".toList
    ∧ (∀ (rp : rio_t) (header : List Char), header.length = MAXLINE →
        (read_requesthdrs rp header).total < MAXLINE
        ∧ (read_requesthdrs rp header).header.length = MAXLINE) := by
  have h := read_requesthdrs_crlf
    ("XXEvil: 1\r\n".toList ++ '\x00' :: List.replicate 8180 '\x00') [] false
  rw [List.append_nil] at h
  rw [h]
  refine ⟨rfl, rfl, rfl, cstr_memcpy_stale _, ?_⟩
  intro rp header hl
  exact read_requesthdrs_loop_bound _ rp header 0 (by decide) hl

/-- The bounds of C20 on a zeroed buffer and a stream with one header line. -/
theorem read_requesthdrs_unterminated_witness :
    (read_requesthdrs ⟨"Accept: a\r\n\r\n".toList, false⟩
        (List.replicate MAXLINE '\x00')).total < MAXLINE
    ∧ (read_requesthdrs ⟨"Accept: a\r\n\r\n".toList, false⟩
        (List.replicate MAXLINE '\x00')).header.length = MAXLINE :=
  read_requesthdrs_unterminated.2.2.2.2 ⟨"Accept: a\r\n\r\n".toList, false⟩
    (List.replicate MAXLINE '\x00') (List.length_replicate _ _)

end Proxy
